import Mathlib

/-!
Configuration service: metadata codec, storage engine and request handlers.

A shallow embedding of the Go sources `db.go`, `memdb.go`, `handlers.go`,
`utils.go` and `server.go` (with the test double `DatabaseStub` and the helper
`assertResponseBody` of `handlers_test.go`), followed by theorems about them.

Conventions of the embedding
* Go `string` and `[]byte` values that carry text are `String` / `List Char`
  (sequences of Unicode scalar values; byte sequences that are not valid UTF-8
  are outside the model).
* A Go `error` is a value of `GoError`; a function returning `(T, error)` is a
  function into `Except GoError T`.
* A Go pointer that may be nil is an `Option`.
* The standard library functions `json.Marshal`, `json.Unmarshal` and
  `json.Decoder.Decode` are modelled by `jsonMarshal`, `jsonUnmarshal` and
  `jsonDecodeConfig` below, as executable functions on character sequences.
  The readers recurse on a budget derived from the length of the text, which
  is proved never to cut a parse short (`parseValue_fuel_stable`); resource
  limits of the library itself (the scanner's cap on nesting depth) are not
  modelled.
* The table `configs` is the list of its rows; SQL statements are the
  corresponding list operations, and the clock reading of `datetime('now')`
  is an input of `InsertConfig`.  The table states the engine produces are
  those of `Database.Reachable`.  Failures of the connection are outside the
  model of the engine's operations; where a store is opened, the outcomes of
  the driver calls are inputs (`DriverOutcomes`).
* A `JValue` stands for a Go value when it is `wellFormed` (number literals
  are JSON numbers, map keys strictly ascending).
* The process environment is a function from names to optional values; `int`
  has 64 bits.
* A call that may panic returns `Except GoPanic`.
-/

namespace Homework

/-! ## Errors -/

/-- Go `error` values met in the program.  `errNoRows` is `sql.ErrNoRows`,
`wrap` is an error built with `%w` around another one, `other` is any other
error; each carries the text its `Error()` method returns. -/
inductive GoError where
  | errNoRows
  | wrap (text : String) (cause : GoError)
  | other (text : String)
  deriving DecidableEq

/-- Text of `err.Error()`. -/
def GoError.Error : GoError → String
  | .errNoRows => "sql: no rows in result set"
  | .wrap text _ => text
  | .other text => text

/-- Go `errors.Is(err, sql.ErrNoRows)`: follows the chain of wrapped errors. -/
def GoError.isErrNoRows : GoError → Bool
  | .errNoRows => true
  | .wrap _ cause => cause.isErrNoRows
  | .other _ => false

/-! ## JSON values -/

/-- Value held by a Go `interface{}` after JSON decoding: `nil`, `bool`, a
number (kept as its literal), `string`, `[]interface{}` and
`map[string]interface{}`.  A map is listed by strictly ascending key, which is
also the order in which `json.Marshal` writes it. -/
inductive JValue where
  | null
  | bool (b : Bool)
  | number (lit : String)
  | string (s : String)
  | array (xs : List JValue)
  | object (ms : List (String × JValue))

/-- Listing of a non-nil Go map `map[string]interface{}`. -/
abbrev JMap := List (String × JValue)

/-- Order of map keys used by `json.Marshal` (code point order of the text). -/
def keyLt (a b : String) : Prop := a.data < b.data

instance (a b : String) : Decidable (keyLt a b) := by
  unfold keyLt; infer_instance

/-- Go `m[k] = v` on the sorted listing of a map: replaces the value of an
existing key, otherwise adds the key at its place. -/
def mapInsert (k : String) (v : JValue) : JMap → JMap
  | [] => [(k, v)]
  | (k', v') :: rest =>
    if k = k' then (k, v) :: rest
    else if keyLt k k' then (k, v) :: (k', v') :: rest
    else (k', v') :: mapInsert k v rest

/-- Stores the members of a decoded JSON object into a map, in text order:
a later duplicate of a key overwrites the earlier one. -/
def mapInsertAll (m : JMap) (members : List (String × JValue)) : JMap :=
  members.foldl (fun acc kv => mapInsert kv.1 kv.2 acc) m

/-! ## JSON encoding (`json.Marshal`) -/

/-- Lower-case hexadecimal digit of a number below 16. -/
def hexDigit (n : Nat) : Char :=
  if n < 10 then Char.ofNat (48 + n) else Char.ofNat (87 + n)

/-- Escaped form of one character inside a JSON string, as `json.Marshal`
writes it (HTML escaping on, its default). -/
def escapeChar (c : Char) : List Char :=
  if c = '"' then ['\\', '"']
  else if c = '\\' then ['\\', '\\']
  else if c = '\n' then ['\\', 'n']
  else if c = '\r' then ['\\', 'r']
  else if c = '\t' then ['\\', 't']
  else if c.toNat < 32 ∨ c = '<' ∨ c = '>' ∨ c = '&' ∨ c.toNat = 8232 ∨ c.toNat = 8233 then
    ['\\', 'u', hexDigit (c.toNat / 4096 % 16), hexDigit (c.toNat / 256 % 16),
      hexDigit (c.toNat / 16 % 16), hexDigit (c.toNat % 16)]
  else [c]

/-- Characters of a JSON string body (without the quotes). -/
def escapeChars : List Char → List Char
  | [] => []
  | c :: cs => escapeChar c ++ escapeChars cs

/-- JSON string literal for a Go string. -/
def encodeString (s : String) : List Char :=
  '"' :: (escapeChars s.data ++ ['"'])

mutual
/-- JSON text of a value, compact, as `json.Marshal` writes it. -/
def encodeValue : JValue → List Char
  | .object ms => '{' :: encodeMembers ms
  | .array xs => '[' :: encodeElements xs
  | .string s => encodeString s
  | .number lit => lit.data
  | .bool b => if b then "true".data else "false".data
  | .null => "null".data
/-- Elements of an array followed by the closing bracket. -/
def encodeElements : List JValue → List Char
  | [] => [']']
  | [v] => encodeValue v ++ [']']
  | v :: w :: rest => encodeValue v ++ ',' :: encodeElements (w :: rest)
/-- Members of an object followed by the closing brace. -/
def encodeMembers : List (String × JValue) → List Char
  | [] => ['}']
  | [(k, v)] => encodeString k ++ ':' :: encodeValue v ++ ['}']
  | (k, v) :: w :: rest =>
    encodeString k ++ ':' :: encodeValue v ++ ',' :: encodeMembers (w :: rest)
end

/-! ## JSON decoding (`json.Unmarshal`) -/

/-- JSON insignificant whitespace. -/
def isSpace (c : Char) : Bool :=
  c = ' ' ∨ c = '\t' ∨ c = '\r' ∨ c = '\n'

/-- Drops leading whitespace. -/
def skipSpace : List Char → List Char
  | [] => []
  | c :: cs => if isSpace c then skipSpace cs else c :: cs

/-- Value of a hexadecimal digit. -/
def hexVal (c : Char) : Option Nat :=
  if 48 ≤ c.toNat ∧ c.toNat ≤ 57 then some (c.toNat - 48)
  else if 97 ≤ c.toNat ∧ c.toNat ≤ 102 then some (c.toNat - 87)
  else if 65 ≤ c.toNat ∧ c.toNat ≤ 70 then some (c.toNat - 55)
  else none

/-- Reads four hexadecimal digits (the library's `getu4`, after `\u`). -/
def hex4 : List Char → Option (Nat × List Char)
  | a :: b :: c :: d :: rest =>
    match hexVal a, hexVal b, hexVal c, hexVal d with
    | some x, some y, some z, some w => some (((x * 16 + y) * 16 + z) * 16 + w, rest)
    | _, _, _, _ => none
  | _ => none

/-- Character for a `\uXXXX` escape of value `r`, given the text after it: a
surrogate pair is combined, a lone surrogate becomes U+FFFD. -/
def decodeU (r : Nat) (cs : List Char) : Char × List Char :=
  if 55296 ≤ r ∧ r < 57344 then
    match cs with
    | b :: u :: cs' =>
      if b = '\\' ∧ u = 'u' ∧ r < 56320 then
        match hex4 cs' with
        | some (r2, cs'') =>
          if 56320 ≤ r2 ∧ r2 < 57344 then
            (Char.ofNat (65536 + (r - 55296) * 1024 + (r2 - 56320)), cs'')
          else (Char.ofNat 65533, cs)
        | none => (Char.ofNat 65533, cs)
      else (Char.ofNat 65533, cs)
    | _ => (Char.ofNat 65533, cs)
  else (Char.ofNat r, cs)

/-- Character denoted by a one-letter escape. -/
def unescape (e : Char) : Option Char :=
  if e = '"' then some '"'
  else if e = '\\' then some '\\'
  else if e = '/' then some '/'
  else if e = 'b' then some (Char.ofNat 8)
  else if e = 'f' then some (Char.ofNat 12)
  else if e = 'n' then some '\n'
  else if e = 'r' then some '\r'
  else if e = 't' then some '\t'
  else none

/-- Reads the body of a string literal up to and including its closing quote;
returns the decoded characters and the text that follows. -/
def parseStringBody : Nat → List Char → Option (List Char × List Char)
  | 0, _ => none
  | _, [] => none
  | fuel + 1, c :: cs =>
    if c = '"' then some ([], cs)
    else if c = '\\' then
      match cs with
      | [] => none
      | e :: cs' =>
        if e = 'u' then
          match hex4 cs' with
          | none => none
          | some (r, cs'') =>
            match parseStringBody fuel (decodeU r cs'').2 with
            | none => none
            | some (s, rest) => some ((decodeU r cs'').1 :: s, rest)
        else
          match unescape e with
          | none => none
          | some ch =>
            match parseStringBody fuel cs' with
            | none => none
            | some (s, rest) => some (ch :: s, rest)
    else if c.toNat < 32 then none
    else
      match parseStringBody fuel cs with
      | none => none
      | some (s, rest) => some (c :: s, rest)

/-- Reads a string literal whose opening quote has been consumed. -/
def parseString (cs : List Char) : Option (String × List Char) :=
  match parseStringBody cs.length cs with
  | none => none
  | some (s, rest) => some (String.mk s, rest)

/-- Checks that the text starts with the given literal and drops it. -/
def dropLiteral : List Char → List Char → Option (List Char)
  | [], cs => some cs
  | _ :: _, [] => none
  | p :: ps, c :: cs => if p = c then dropLiteral ps cs else none

/-- Splits off the leading decimal digits. -/
def takeDigits : List Char → List Char × List Char
  | [] => ([], [])
  | c :: cs =>
    if c.isDigit then ((takeDigits cs).1.cons c, (takeDigits cs).2) else ([], c :: cs)

/-- Splits off an optional minus sign. -/
def takeSign : List Char → List Char × List Char
  | [] => ([], [])
  | c :: cs => if c = '-' then ([c], cs) else ([], c :: cs)

/-- Splits off an optional fraction: a dot followed by at least one digit. -/
def takeFraction : List Char → Option (List Char × List Char)
  | [] => some ([], [])
  | c :: cs =>
    if c = '.' then
      (if (takeDigits cs).1 = [] then none else some (c :: (takeDigits cs).1, (takeDigits cs).2))
    else some ([], c :: cs)

/-- Splits off an optional sign of an exponent. -/
def takeExpSign : List Char → List Char × List Char
  | [] => ([], [])
  | c :: cs => if c = '+' ∨ c = '-' then ([c], cs) else ([], c :: cs)

/-- Splits off an optional exponent: `e` or `E`, an optional sign and at least
one digit. -/
def takeExponent : List Char → Option (List Char × List Char)
  | [] => some ([], [])
  | c :: cs =>
    if c = 'e' ∨ c = 'E' then
      (if (takeDigits (takeExpSign cs).2).1 = [] then none
       else some (c :: ((takeExpSign cs).1 ++ (takeDigits (takeExpSign cs).2).1),
                  (takeDigits (takeExpSign cs).2).2))
    else some ([], c :: cs)

/-- Reads a JSON number literal: sign, integer part without a leading zero,
optional fraction, optional exponent; returns the literal and the text that
follows. -/
def scanNumber (cs : List Char) : Option (List Char × List Char) :=
  if (takeDigits (takeSign cs).2).1 = [] ∨
      ((takeDigits (takeSign cs).2).1.head? = some '0' ∧
        (takeDigits (takeSign cs).2).1.length ≠ 1) then none
  else
    match takeFraction (takeDigits (takeSign cs).2).2 with
    | none => none
    | some (fp, r1) =>
      match takeExponent r1 with
      | none => none
      | some (ep, r2) => some ((takeSign cs).1 ++ (takeDigits (takeSign cs).2).1 ++ fp ++ ep, r2)

mutual
/-- Reads one JSON value (leading whitespace allowed); returns it with the
text that follows.  The first argument bounds the number of nested calls. -/
def parseValue : Nat → List Char → Option (JValue × List Char)
  | 0, _ => none
  | fuel + 1, cs =>
    match skipSpace cs with
    | [] => none
    | c :: rest =>
      if c = '{' then
        match skipSpace rest with
        | [] => none
        | d :: rest' =>
          if d = '}' then some (.object [], rest')
          else
            match parseMembers fuel (d :: rest') with
            | none => none
            | some (ms, r) => some (.object (mapInsertAll [] ms), r)
      else if c = '[' then
        match skipSpace rest with
        | [] => none
        | d :: rest' =>
          if d = ']' then some (.array [], rest')
          else
            match parseElements fuel (d :: rest') with
            | none => none
            | some (xs, r) => some (.array xs, r)
      else if c = '"' then
        match parseString rest with
        | none => none
        | some (s, r) => some (.string s, r)
      else if c = 't' then
        match dropLiteral ['r', 'u', 'e'] rest with
        | none => none
        | some r => some (.bool true, r)
      else if c = 'f' then
        match dropLiteral ['a', 'l', 's', 'e'] rest with
        | none => none
        | some r => some (.bool false, r)
      else if c = 'n' then
        match dropLiteral ['u', 'l', 'l'] rest with
        | none => none
        | some r => some (.null, r)
      else
        match scanNumber (c :: rest) with
        | none => none
        | some (lit, r) => some (.number (String.mk lit), r)
/-- Reads `"key": value` pairs separated by commas up to the closing brace;
the text starts (after whitespace) at the first key. -/
def parseMembers : Nat → List Char → Option (List (String × JValue) × List Char)
  | 0, _ => none
  | fuel + 1, cs =>
    match skipSpace cs with
    | [] => none
    | q :: rest =>
      if q = '"' then
        match parseString rest with
        | none => none
        | some (k, r1) =>
          match skipSpace r1 with
          | [] => none
          | colon :: r2 =>
            if colon = ':' then
              match parseValue fuel r2 with
              | none => none
              | some (v, r3) =>
                match skipSpace r3 with
                | [] => none
                | sep :: r4 =>
                  if sep = '}' then some ([(k, v)], r4)
                  else if sep = ',' then
                    match parseMembers fuel r4 with
                    | none => none
                    | some (ms, r5) => some ((k, v) :: ms, r5)
                  else none
            else none
      else none
/-- Reads values separated by commas up to the closing bracket. -/
def parseElements : Nat → List Char → Option (List JValue × List Char)
  | 0, _ => none
  | fuel + 1, cs =>
    match parseValue fuel cs with
    | none => none
    | some (v, r1) =>
      match skipSpace r1 with
      | [] => none
      | sep :: r2 =>
        if sep = ']' then some ([v], r2)
        else if sep = ',' then
          match parseElements fuel r2 with
          | none => none
          | some (xs, r3) => some (v :: xs, r3)
        else none
end

/-- Parses a whole text as one JSON value: `none` when the text is not
well-formed JSON (the library's `checkValid` fails with a syntax error). -/
def parseJSON (text : List Char) : Option JValue :=
  match parseValue (2 * text.length + 2) text with
  | none => none
  | some (v, rest) => if skipSpace rest = [] then some v else none

/-- Well-formed JSON text (the library's `json.Valid`). -/
def jsonValid (text : List Char) : Bool := (parseJSON text).isSome

/-! ## Metadata codec (`db.go`) -/

/-- Go `type Metadata map[string]interface{}`: `none` is the nil map, `some ms`
a map listed by ascending key. -/
abbrev Metadata := Option JMap

/-- Error of `json.Unmarshal` for text that is not well-formed JSON (the
library's `*json.SyntaxError`; its exact wording is not modelled). -/
def jsonSyntaxError : GoError := .other "json: syntax error"

/-- Error of `json.Unmarshal` for a well-formed value that does not fit the
target (the library's `*json.UnmarshalTypeError`). -/
def jsonTypeError : GoError := .other "json: cannot unmarshal value into Go value"

/-- The call `json.Unmarshal(data, &m)` for `m` a non-nil `*Metadata` whose map
is `cur`; returns the map `m` points to afterwards.  The text is validated
whole first; an object is stored member by member into the existing map (a nil
map is allocated), `null` leaves the target untouched, any other value is a
type error. -/
def jsonUnmarshal (data : List Char) (cur : Metadata) : Except GoError Metadata :=
  match parseJSON data with
  | none => .error jsonSyntaxError
  | some .null => .ok cur
  | some (.object ms) => .ok (some (mapInsertAll (cur.getD []) ms))
  | some _ => .error jsonTypeError

/-- The call `json.Marshal(&m)` for `m : *Metadata` (`none` the nil pointer):
a nil pointer and a nil map are written `null`.  Every value of the model can
be encoded, so no error arises. -/
def jsonMarshal (m : Option Metadata) : List Char :=
  match m with
  | some (some ms) => encodeValue (.object ms)
  | _ => "null".data

/-- A `driver.Value` handed to `Scan` by `database/sql`: nil or one of the
driver's value types. -/
inductive ScanSrc where
  | nil
  | bytes (b : List Char)
  | string (s : String)
  | int64 (i : Int)
  | float64 (lit : String)
  | bool (b : Bool)
  | time (t : Nat)

/-- `func (m *Metadata) Scan(src interface{}) error`, for a non-nil receiver
whose map is `m`; returns the receiver's map afterwards, or the error. -/
def Metadata.Scan (m : Metadata) (src : ScanSrc) : Except GoError Metadata :=
  match src with
  | .nil => .error (.other "empty input data")
  | .bytes t => jsonUnmarshal t m
  | .string t => jsonUnmarshal t.data m
  | _ => .error (.other "unexpected data type")

/-- `func (m *Metadata) Value() (driver.Value, error)`: the bytes written by
`json.Marshal(&m)`; the receiver may be the nil pointer. -/
def Metadata.Value (m : Option Metadata) : Except GoError (List Char) :=
  .ok (jsonMarshal m)

/-! ## Storage engine (`db.go`) -/

/-- Go `type Config struct`: `Metadata` is a `*Metadata` (`none` the nil
pointer), `Created` a point in time in seconds. -/
structure Config where
  ID : Int
  Name : String
  Metadata : Option Metadata
  Created : Nat

/-- One row of table `configs` as the engine's statements write it:
`metadata` is the stored text, `created_at` the stored time in seconds (the
column is only ever filled from `datetime('now', ...)`, a point in time read
off the wall clock). -/
structure Row where
  id : Int
  name : String
  metadata : List Char
  created_at : Nat
  deriving DecidableEq

/-- Content of the database behind an open handle: the rows of `configs` in
scan order (ascending `id`), and the largest id handed out so far (the
`AUTOINCREMENT` counter).  Failures of the connection itself are outside the
model. -/
structure Database where
  rows : List Row
  seq : Int

/-- Result of `row.Scan(&cfg.ID, &cfg.Name, &cfg.Metadata, &cfg.Created)` on
one row: `database/sql` allocates a fresh `Metadata` for the nil field and
calls its `Scan` with the stored column. -/
def scanRow (r : Row) : Except GoError Config :=
  match Metadata.Scan none (.bytes r.metadata) with
  | .error e => .error e
  | .ok m => .ok { ID := r.id, Name := r.name, Metadata := some m, Created := r.created_at }

/-- `INSERT INTO configs (name, metadata, created_at) VALUES (?, ?, datetime('now'))`
at clock reading `now`; returns the new database and `LastInsertId`. -/
def Database.InsertConfig (db : Database) (now : Nat) (cfg : Config) :
    Database × Except GoError Int :=
  match Metadata.Value cfg.Metadata with
  | .error e => (db, .error e)
  | .ok text =>
    let id := max db.seq ((db.rows.map Row.id).foldl max 0) + 1
    ({ rows := db.rows ++ [{ id := id, name := cfg.Name, metadata := text, created_at := now }],
       seq := id }, .ok id)

/-- `SELECT ... FROM configs WHERE id = ?` read with `QueryRow`/`Scan`: the
first matching row, `sql.ErrNoRows` when there is none. -/
def Database.GetConfigById (db : Database) (id : Int) : Except GoError Config :=
  match db.rows.find? (fun r => r.id = id) with
  | none => .error .errNoRows
  | some r => scanRow r

/-- `SELECT ... FROM configs WHERE name = ?` read with `QueryRow`/`Scan`. -/
def Database.GetConfigByName (db : Database) (name : String) : Except GoError Config :=
  match db.rows.find? (fun r => r.name = name) with
  | none => .error .errNoRows
  | some r => scanRow r

/-- Scans rows one after the other; the first failing scan ends the query. -/
def scanRows : List Row → Except GoError (List Config)
  | [] => .ok []
  | r :: rs =>
    match scanRow r with
    | .error e => .error e
    | .ok c =>
      match scanRows rs with
      | .error e => .error e
      | .ok cs => .ok (c :: cs)

/-- `SELECT ... FROM configs ORDER BY created_at ASC` read with `Select`: rows
by ascending `created_at`, rows of equal time in scan order. -/
def Database.GetConfigs (db : Database) : Except GoError (List Config) :=
  scanRows (db.rows.insertionSort (fun a b => a.created_at ≤ b.created_at))

/-- `DELETE FROM configs WHERE name = ?`. -/
def Database.DeleteConfigByName (db : Database) (name : String) :
    Database × Option GoError :=
  ({ db with rows := db.rows.filter (fun r => ¬ r.name = name) }, none)

/-- `UPDATE configs SET metadata = ? WHERE name = ?` with `cfg.Metadata` as the
new value. -/
def Database.UpdateConfigByName (db : Database) (name : String) (cfg : Config) :
    Database × Option GoError :=
  match Metadata.Value cfg.Metadata with
  | .error e => (db, some e)
  | .ok text =>
    let rows := db.rows.map (fun r => if r.name = name then { r with metadata := text } else r)
    ({ db with rows := rows }, none)

/-! ## Decoding a request body into a `Config` (`json.Decoder.Decode`) -/

/-- ASCII lower case of a character. -/
def lowerChar (c : Char) : Char :=
  if 65 ≤ c.toNat ∧ c.toNat ≤ 90 then Char.ofNat (c.toNat + 32) else c

/-- Match of a JSON key with a struct field name: exact or differing in case
only (none of the field names holds a letter with a non-ASCII case variant). -/
def fieldMatches (key : String) (field : String) : Bool :=
  key.data.map lowerChar = field.data

/-- Value of a run of decimal digits read left to right from `acc`. -/
def digitsValue (acc : Nat) : List Char → Option Nat
  | [] => some acc
  | c :: cs => if c.isDigit then digitsValue (acc * 10 + (c.toNat - 48)) cs else none

/-- Go `strconv.ParseInt(lit, 10, 64)` on a JSON number literal: `none` when
the literal is not an integer or does not fit 64 bits. -/
def parseInt64 (lit : List Char) : Option Int :=
  match lit with
  | [] => none
  | c :: cs =>
    if c = '-' then
      match cs, digitsValue 0 cs with
      | _ :: _, some n => if n ≤ 9223372036854775808 then some (-(n : Int)) else none
      | _, _ => none
    else
      match digitsValue 0 (c :: cs) with
      | some n => if n < 9223372036854775808 then some (n : Int) else none
      | none => none

/-- Stores one member of the body object into the `Config` being decoded;
`none` when the member's value does not fit the field it names.  Members that
name no field are skipped; `null` leaves numbers and strings alone and resets
the `Metadata` pointer; `created` is never read (`json:"-"`). -/
def storeField (cfg : Config) (key : String) (v : JValue) : Option Config :=
  if fieldMatches key "id" then
    match v with
    | .null => some cfg
    | .number lit =>
      match parseInt64 lit.data with
      | some i => some { cfg with ID := i }
      | none => none
    | _ => none
  else if fieldMatches key "name" then
    match v with
    | .null => some cfg
    | .string s => some { cfg with Name := s }
    | _ => none
  else if fieldMatches key "metadata" then
    match v with
    | .null => some { cfg with Metadata := none }
    | .object ms =>
      some { cfg with Metadata := some (some (mapInsertAll ((cfg.Metadata.getD none).getD []) ms)) }
    | _ => none
  else some cfg

/-- Stores the members of the body object in text order. -/
def storeFields (cfg : Config) : List (String × JValue) → Option Config
  | [] => some cfg
  | (k, v) :: rest =>
    match storeField cfg k v with
    | none => none
    | some cfg' => storeFields cfg' rest

/-- The zero `Config` of `var cfg Config`. -/
def Config.zero : Config := { ID := 0, Name := "", Metadata := none, Created := 0 }

/-- The call `json.NewDecoder(r.Body).Decode(&cfg)` on a zero `cfg`: reads the
first JSON value of the body (what follows it is not looked at) and stores it
into the struct.  Fails on a body that does not start with a well-formed
value (an empty one included), on a value that is neither an object nor
`null`, and on a member that does not fit its field. -/
def jsonDecodeConfig (body : List Char) : Except GoError Config :=
  match skipSpace body with
  | [] => .error (.other "EOF")
  | c :: rest =>
    if c = '{' then
      match skipSpace rest with
      | [] => .error jsonSyntaxError
      | d :: rest' =>
        if d = '}' then .ok Config.zero
        else
          match parseMembers (2 * body.length + 2) (d :: rest') with
          | none => .error jsonSyntaxError
          | some (ms, _) =>
            match storeFields Config.zero ms with
            | none => .error jsonTypeError
            | some cfg => .ok cfg
    else
      match parseValue (2 * body.length + 2) (c :: rest) with
      | none => .error jsonSyntaxError
      | some (.null, _) => .ok Config.zero
      | some _ => .error jsonTypeError

/-- Decimal text of an integer. -/
def encodeInt (i : Int) : List Char := (toString i).data

/-- JSON text written by `json.Marshal` for a `*Config` (`none` the nil
pointer): fields `id`, `name`, `metadata` in declaration order. -/
def encodeConfig : Option Config → List Char
  | none => "null".data
  | some cfg =>
    "\x7b\"id\":".data ++ encodeInt cfg.ID ++ ",\"name\":".data ++ encodeString cfg.Name
      ++ ",\"metadata\":".data ++ jsonMarshal cfg.Metadata ++ ['}']

/-! ## Store abstraction and request handlers (`db.go`, `handlers.go`) -/

/-- Go `type DatabaseStore interface`, over a store state `σ`.  Every method
takes the state and returns the state it leaves; a returned pointer may be
nil (`none`). -/
structure DatabaseStore (σ : Type) where
  IsConnected : σ → σ × Bool
  InsertConfig : σ → Config → σ × Except GoError Int
  GetConfigById : σ → Int → σ × Except GoError (Option Config)
  GetConfigByName : σ → String → σ × Except GoError (Option Config)
  GetConfigs : σ → σ × Except GoError (Option (List Config))
  DeleteConfigByName : σ → String → σ × Option GoError
  UpdateConfigByName : σ → String → Config → σ × Option GoError

/-- One call of a store method, with its arguments. -/
inductive StoreCall where
  | IsConnected
  | InsertConfig (cfg : Config)
  | GetConfigById (id : Int)
  | GetConfigByName (name : String)
  | GetConfigs
  | DeleteConfigByName (name : String)
  | UpdateConfigByName (name : String) (cfg : Config)

/-- The part of an `*http.Request` the handlers read: the route variable
`mux.Vars(r)["name"]` (empty when absent) and the body. -/
structure Request where
  name : String
  body : List Char

/-- What a handler leaves in the `http.ResponseWriter`: status code, the
`Content-Type` header set by the handler or by `http.Error`, and the body. -/
structure Response where
  status : Nat
  contentType : Option String
  body : String
  deriving DecidableEq

/-- Outcome of serving one request: the response, the store state left behind
and the store calls made, in order. -/
structure Served (σ : Type) where
  resp : Response
  state : σ
  calls : List StoreCall

/-- Go `http.Error(w, msg, code)`: plain-text response of the given status
whose body is the message followed by a newline. -/
def httpError (msg : String) (code : Nat) : Response :=
  { status := code, contentType := some "text/plain; charset=utf-8", body := msg ++ "\n" }

/-- Go `fmt.Fprint(w, text)` on a fresh writer: status 200 with the text as
body. -/
def fprint (text : String) : Response :=
  { status := 200, contentType := none, body := text }

/-- Go `json.NewEncoder(w).Encode(cfg)` after the header
`Content-Type: application/json`: the JSON text followed by a newline. -/
def encodeJSONResponse (cfg : Option Config) : Response :=
  { status := 200, contentType := some "application/json",
    body := String.mk (encodeConfig cfg ++ ['\n']) }

/-- Handler of `GET /healthz`. -/
def healthGetHandler {σ : Type} (store : DatabaseStore σ) (s : σ) (_r : Request) : Served σ :=
  match store.IsConnected s with
  | (s', false) => ⟨{ status := 500, contentType := none, body := "notok" }, s', [.IsConnected]⟩
  | (s', true) => ⟨fprint "ok", s', [.IsConnected]⟩

/-- Handler of `POST /configs`. -/
def configsPostHandler {σ : Type} (store : DatabaseStore σ) (s : σ) (r : Request) : Served σ :=
  match jsonDecodeConfig r.body with
  | .error err => ⟨httpError err.Error 400, s, []⟩
  | .ok cfg =>
    ⟨fprint "new configuration item has successfully been added",
      (store.InsertConfig s cfg).1, [.InsertConfig cfg]⟩

/-- Handler of `GET /configs/{name}`. -/
def configsGetOneHandler {σ : Type} (store : DatabaseStore σ) (s : σ) (r : Request) : Served σ :=
  if r.name = "" then ⟨httpError "configuration item was not found" 404, s, []⟩
  else
    match store.GetConfigByName s r.name with
    | (s', .error err) =>
      if err.isErrNoRows then
        ⟨httpError "configuration item was not found" 404, s', [.GetConfigByName r.name]⟩
      else ⟨httpError err.Error 500, s', [.GetConfigByName r.name]⟩
    | (s', .ok cfg) => ⟨encodeJSONResponse cfg, s', [.GetConfigByName r.name]⟩

/-- Handler of `PUT`/`PATCH /configs/{name}`. -/
def configsUpdateOneHandler {σ : Type} (store : DatabaseStore σ) (s : σ) (r : Request) : Served σ :=
  match jsonDecodeConfig r.body with
  | .error err => ⟨httpError err.Error 400, s, []⟩
  | .ok cfg =>
    if r.name = "" then ⟨httpError "configuration item was not found" 404, s, []⟩
    else
      ⟨fprint "new configuration item has successfully been updated",
        (store.UpdateConfigByName s r.name cfg).1, [.UpdateConfigByName r.name cfg]⟩

/-- Handler of `DELETE /configs/{name}`. -/
def configsDeleteOneHandler {σ : Type} (store : DatabaseStore σ) (s : σ) (r : Request) : Served σ :=
  if r.name = "" then ⟨httpError "configuration item was not found" 404, s, []⟩
  else
    match store.DeleteConfigByName s r.name with
    | (s', some err) => ⟨httpError err.Error 500, s', [.DeleteConfigByName r.name]⟩
    | (s', none) =>
      ⟨fprint "configuration item has successfully been erased", s', [.DeleteConfigByName r.name]⟩

/-- Go `unicode.IsSpace`. -/
def isUnicodeSpace (c : Char) : Bool :=
  (9 ≤ c.toNat ∧ c.toNat ≤ 13) ∨ c.toNat = 32 ∨ c.toNat = 133 ∨ c.toNat = 160
    ∨ c.toNat = 5760 ∨ (8192 ≤ c.toNat ∧ c.toNat ≤ 8202) ∨ c.toNat = 8232 ∨ c.toNat = 8233
    ∨ c.toNat = 8239 ∨ c.toNat = 8287 ∨ c.toNat = 12288

/-- Go `strings.TrimSpace`. -/
def trimSpace (s : String) : String :=
  String.mk ((s.data.dropWhile isUnicodeSpace).reverse.dropWhile isUnicodeSpace).reverse

/-- Comparison made by the test helper `assertResponseBody`: the body with
surrounding white space trimmed equals the wanted text. -/
def assertResponseBody (got want : String) : Bool :=
  trimSpace got = want

/-- The storage engine as a `DatabaseStore`, with the clock reading used by
inserts. -/
def Database.store (now : Nat) : DatabaseStore Database where
  IsConnected := fun db => (db, true)
  InsertConfig := fun db cfg => db.InsertConfig now cfg
  GetConfigById := fun db id => (db, (db.GetConfigById id).map some)
  GetConfigByName := fun db name => (db, (db.GetConfigByName name).map some)
  GetConfigs := fun db => (db, db.GetConfigs.map some)
  DeleteConfigByName := fun db name => db.DeleteConfigByName name
  UpdateConfigByName := fun db name cfg => db.UpdateConfigByName name cfg

/-- A store whose reads fail with the given error and whose writes fail with it
too, leaving its (trivial) state alone; used to exercise the error paths. -/
def failingStore (err : GoError) : DatabaseStore Unit where
  IsConnected := fun s => (s, false)
  InsertConfig := fun s _ => (s, .error err)
  GetConfigById := fun s _ => (s, .error err)
  GetConfigByName := fun s _ => (s, .error err)
  GetConfigs := fun s => (s, .error err)
  DeleteConfigByName := fun s _ => (s, some err)
  UpdateConfigByName := fun s _ _ => (s, some err)

/-- A database holding the single entry `abc` of the handler tests. -/
def sampleDb : Database :=
  { rows := [{ id := 1, name := "abc",
               metadata := "\x7b\"limits\":\x7b\"cpu\":\x7b\"enabled\":true,\"value\":\"300m\"\x7d\x7d,\"monitoring\":\x7b\"enabled\":true\x7d\x7d".data,
               created_at := 100 }],
    seq := 1 }

/-! ## Metadata documents -/

mutual
/-- A value of a metadata document: a boolean, a string, or an object of such
values whose keys are strictly ascending (the map listing). -/
def JValue.isDoc : JValue → Bool
  | .bool _ => true
  | .string _ => true
  | .object ms => membersDoc ms
  | _ => false
/-- Members of a metadata document: every value is one, keys strictly ascending. -/
def membersDoc : List (String × JValue) → Bool
  | [] => true
  | (k, v) :: rest =>
    v.isDoc && membersDoc rest &&
      (match rest with
       | [] => true
       | (k2, _) :: _ => decide (keyLt k k2))
end

/-- What `encodeMembers` writes after a member. -/
def encodeRest : List (String × JValue) → List Char
  | [] => ['}']
  | m :: ms => ',' :: encodeMembers (m :: ms)

/-- A `Metadata` that is a metadata document of the data model (the nil map
counts as the empty document). -/
def Metadata.isDoc (m : Metadata) : Bool := membersDoc (m.getD [])

/-- Continuation of the string reader after one decoded character. -/
def consChar (c : Char) : Option (List Char × List Char) → Option (List Char × List Char)
  | none => none
  | some (s, rest) => some (c :: s, rest)

/-- The metadata document used by the handler tests. -/
def sampleMetadata : JMap :=
  [("limits", .object [("cpu", .object [("enabled", .bool true), ("value", .string "300m")])]),
   ("monitoring", .object [("enabled", .bool true)])]

/-- A database of two entries whose scan order is not the order of creation. -/
def sampleDb2 : Database :=
  { rows := [{ id := 1, name := "late", metadata := "\x7b\"a\":true\x7d".data, created_at := 200 },
             { id := 2, name := "early", metadata := "null".data, created_at := 100 }],
    seq := 2 }

/-! ## Well-formed JSON text (RFC 8259) -/

/-- A run of JSON white space. -/
def IsWs (w : List Char) : Prop := ∀ c ∈ w, isSpace c = true

/-- A hexadecimal digit. -/
def IsHex (c : Char) : Prop := (hexVal c).isSome = true

/-- Body of a JSON string literal (RFC 8259, section 7): unescaped characters
other than the quote, the backslash and control characters; two-character
escapes; `\u` followed by four hexadecimal digits. -/
inductive StringBody : List Char → Prop where
  | done : StringBody []
  | plain (c : Char) (b : List Char) : c ≠ '"' → c ≠ '\\' → 32 ≤ c.toNat →
      StringBody b → StringBody (c :: b)
  | escape (e : Char) (b : List Char) : (unescape e).isSome = true →
      StringBody b → StringBody ('\\' :: e :: b)
  | unicode (h1 h2 h3 h4 : Char) (b : List Char) : IsHex h1 → IsHex h2 → IsHex h3 → IsHex h4 →
      StringBody b → StringBody ('\\' :: 'u' :: h1 :: h2 :: h3 :: h4 :: b)

/-- A non-empty run of decimal digits. -/
def IsDigits (ds : List Char) : Prop := ds ≠ [] ∧ ∀ c ∈ ds, c.isDigit = true

/-- A JSON number literal (RFC 8259, section 6): optional minus, integer part
that is `0` or starts with a non-zero digit, optional fraction, optional
exponent. -/
def NumberLit (t : List Char) : Prop :=
  ∃ sign int frac exp : List Char, t = sign ++ int ++ frac ++ exp ∧
    (sign = [] ∨ sign = ['-']) ∧
    IsDigits int ∧ (int.head? = some '0' → int.length = 1) ∧
    (frac = [] ∨ ∃ ds, IsDigits ds ∧ frac = '.' :: ds) ∧
    (exp = [] ∨ ∃ e sg ds, (e = 'e' ∨ e = 'E') ∧ (sg = [] ∨ sg = ['+'] ∨ sg = ['-']) ∧
      IsDigits ds ∧ exp = e :: (sg ++ ds))

mutual
/-- Text of one JSON value (RFC 8259, sections 3 to 7), without surrounding
white space. -/
inductive ValueText : List Char → Prop where
  | null : ValueText ['n', 'u', 'l', 'l']
  | litTrue : ValueText ['t', 'r', 'u', 'e']
  | litFalse : ValueText ['f', 'a', 'l', 's', 'e']
  | number (t : List Char) : NumberLit t → ValueText t
  | string (b : List Char) : StringBody b → ValueText ('"' :: (b ++ ['"']))
  | emptyArray (w : List Char) : IsWs w → ValueText ('[' :: (w ++ [']']))
  | array (w es : List Char) : IsWs w → ElementsText es → ValueText ('[' :: (w ++ es ++ [']']))
  | emptyObject (w : List Char) : IsWs w → ValueText ('{' :: (w ++ ['}']))
  | object (w ms : List Char) : IsWs w → MembersText ms → ValueText ('{' :: (w ++ ms ++ ['}']))
/-- Text between the brackets of a non-empty array. -/
inductive ElementsText : List Char → Prop where
  | last (w1 v w2 : List Char) : IsWs w1 → ValueText v → IsWs w2 →
      ElementsText (w1 ++ (v ++ w2))
  | more (w1 v w2 es : List Char) : IsWs w1 → ValueText v → IsWs w2 → ElementsText es →
      ElementsText (w1 ++ (v ++ (w2 ++ ',' :: es)))
/-- Text between the braces of a non-empty object. -/
inductive MembersText : List Char → Prop where
  | last (w1 k w2 w3 v w4 : List Char) : IsWs w1 → StringBody k → IsWs w2 → IsWs w3 →
      ValueText v → IsWs w4 →
      MembersText (w1 ++ '"' :: (k ++ '"' :: (w2 ++ ':' :: (w3 ++ (v ++ w4)))))
  | more (w1 k w2 w3 v w4 ms : List Char) : IsWs w1 → StringBody k → IsWs w2 → IsWs w3 →
      ValueText v → IsWs w4 → MembersText ms →
      MembersText (w1 ++ '"' :: (k ++ '"' :: (w2 ++ ':' :: (w3 ++ (v ++ (w4 ++ ',' :: ms))))))
end

/-- A well-formed JSON text: one value with optional white space around it. -/
def JSONText (t : List Char) : Prop :=
  ∃ w1 v w2 : List Char, IsWs w1 ∧ ValueText v ∧ IsWs w2 ∧ t = w1 ++ v ++ w2

/-! ## Test double (`handlers_test.go`) -/

/-- Go `type DatabaseStub struct`: `Config` lists the elements of the slice. -/
structure DatabaseStub where
  Connected : Bool
  Config : List Config

/-- A run-time panic, with its message. -/
structure GoPanic where
  text : String
  deriving DecidableEq

/-- `func (d *DatabaseStub) GetConfigById(id int) (*Config, error)`: indexes the
slice and panics on an index out of range. -/
def DatabaseStub.GetConfigById (d : DatabaseStub) (id : Int) :
    Except GoPanic (Option Homework.Config × Option GoError) :=
  if 0 ≤ id ∧ id.toNat < d.Config.length then .ok (d.Config[id.toNat]?, none)
  else .error ⟨"runtime error: index out of range"⟩

/-- `func (d *DatabaseStub) GetConfigByName(name string) (*Config, error)`: the
first entry of that name with a nil error, and `nil, nil` when the loop ends
without a match. -/
def DatabaseStub.GetConfigByName (d : DatabaseStub) (name : String) :
    Option Homework.Config × Option GoError :=
  match d.Config.find? (fun cfg => cfg.Name = name) with
  | some cfg => (some cfg, none)
  | none => (none, none)

/-- `func (d *DatabaseStub) GetConfigs() (*[]Config, error)`. -/
def DatabaseStub.GetConfigs (d : DatabaseStub) : Option (List Homework.Config) × Option GoError :=
  (some d.Config, none)

/-- `func (d *DatabaseStub) InsertConfig(cfg *Config) (int, error)`. -/
def DatabaseStub.InsertConfig (d : DatabaseStub) (cfg : Homework.Config) :
    DatabaseStub × Int × Option GoError :=
  ({ d with Config := d.Config ++ [cfg] }, ((d.Config ++ [cfg]).length : Int), none)

/-- The loop of the stub's `DeleteConfigByName`.  `range d.Config` fixes the
number of iterations and the array read from at entry; `arr` holds the cells of
that array, `len` is the current length of `d.Config`, `idx` the loop index
and the first argument the number of iterations left.  On a match the body
runs `d.Config = append(d.Config[0:idx], d.Config[idx+1:]...)`: slicing
`d.Config[idx+1:]` panics when `idx+1` exceeds the current length, otherwise
the cells after `idx` move down by one inside the same array and the length
drops by one. -/
def stubDeleteLoop (name : String) :
    Nat → Nat → List Homework.Config → Nat → Except GoPanic (List Homework.Config × Nat)
  | 0, _, arr, len => .ok (arr, len)
  | left + 1, idx, arr, len =>
    match arr[idx]? with
    | none => .ok (arr, len)
    | some cfg =>
      if cfg.Name = name then
        if idx + 1 ≤ len then
          stubDeleteLoop name left (idx + 1)
            (arr.take idx ++ ((arr.drop (idx + 1)).take (len - (idx + 1)) ++ arr.drop (len - 1)))
            (len - 1)
        else
          .error ⟨"runtime error: slice bounds out of range [" ++ toString (idx + 1) ++ ":"
            ++ toString len ++ "]"⟩
      else stubDeleteLoop name left (idx + 1) arr len

/-- `func (d *DatabaseStub) DeleteConfigByName(name string) error`: the stub
left behind and the (nil) error, or the panic that ends the call. -/
def DatabaseStub.DeleteConfigByName (d : DatabaseStub) (name : String) :
    Except GoPanic (DatabaseStub × Option GoError) :=
  match stubDeleteLoop name d.Config.length 0 d.Config d.Config.length with
  | .error p => .error p
  | .ok (arr, len) => .ok ({ d with Config := arr.take len }, none)

/-- The copies of the entries held by the loop variable `cfg` of the stub's
`UpdateConfigByName` after the body `cfg.Metadata = newCfg.Metadata` has run
on the matching ones. -/
def stubUpdateLoopCopies (entries : List Homework.Config) (name : String) (newCfg : Homework.Config) :
    List Homework.Config :=
  entries.map (fun cfg => if cfg.Name = name then { cfg with Metadata := newCfg.Metadata } else cfg)

/-- `func (d *DatabaseStub) UpdateConfigByName(name string, newCfg *Config) error`:
`for _, cfg := range d.Config` assigns to the loop variable, a copy of the
entry, so the slice of the stub is left as it was; the error is nil. -/
def DatabaseStub.UpdateConfigByName (d : DatabaseStub) (name : String) (newCfg : Homework.Config) :
    DatabaseStub × Option GoError :=
  let _copies := stubUpdateLoopCopies d.Config name newCfg
  (d, none)

/-- `func (d *DatabaseStub) IsConnected() bool`. -/
def DatabaseStub.IsConnected (d : DatabaseStub) : Bool := d.Connected

/-- The test double as a `DatabaseStore`.  The interface model has no panics:
a call that panics (`GetConfigById` out of range, `DeleteConfigByName` on a
slice bound) is rendered here as leaving the stub alone and returning the
panic's message as an error; no theorem about a handler goes through these
two fields on a panicking input. -/
def DatabaseStub.store : DatabaseStore DatabaseStub where
  IsConnected := fun d => (d, d.IsConnected)
  InsertConfig := fun d cfg => ((d.InsertConfig cfg).1, .ok (d.InsertConfig cfg).2.1)
  GetConfigById := fun d id =>
    match d.GetConfigById id with
    | .ok (cfg, _) => (d, .ok cfg)
    | .error p => (d, .error (.other p.text))
  GetConfigByName := fun d name => (d, .ok (d.GetConfigByName name).1)
  GetConfigs := fun d => (d, .ok (d.GetConfigs).1)
  DeleteConfigByName := fun d name =>
    match d.DeleteConfigByName name with
    | .ok r => r
    | .error p => (d, some (.other p.text))
  UpdateConfigByName := fun d name cfg => d.UpdateConfigByName name cfg


/-! ## Environment and start-up (`utils.go`, `server.go`) -/

/-- The process environment as `os.LookupEnv` reads it: `none` for a variable
that is not set. -/
abbrev Env := String → Option String

/-- Go `strconv.Atoi` where `int` has 64 bits: an optional sign followed by at
least one decimal digit and nothing else, the value within the range of `int`.
The wording of its errors is not modelled. -/
def strconvAtoi (s : String) : Except GoError Int :=
  match s.data with
  | [] => .error (.other "strconv.Atoi: invalid syntax")
  | c :: cs =>
    if c = '-' then
      match cs, digitsValue 0 cs with
      | _ :: _, some n =>
        if n ≤ 9223372036854775808 then .ok (-(n : Int))
        else .error (.other "strconv.Atoi: value out of range")
      | _, _ => .error (.other "strconv.Atoi: invalid syntax")
    else
      match (if c = '+' then cs else c :: cs),
        digitsValue 0 (if c = '+' then cs else c :: cs) with
      | _ :: _, some n =>
        if n < 9223372036854775808 then .ok (n : Int)
        else .error (.other "strconv.Atoi: value out of range")
      | _, _ => .error (.other "strconv.Atoi: invalid syntax")

/-- One character inside Go's `%q` rendering of a string: the quote, the
backslash and the control characters with a one-letter escape are escaped;
other characters are passed through (the numeric escapes Go writes for the
remaining non-printable characters are not modelled). -/
def quoteChar (c : Char) : List Char :=
  if c = '"' then ['\\', '"']
  else if c = '\\' then ['\\', '\\']
  else if c.toNat = 7 then ['\\', 'a']
  else if c.toNat = 8 then ['\\', 'b']
  else if c.toNat = 12 then ['\\', 'f']
  else if c = '\n' then ['\\', 'n']
  else if c = '\r' then ['\\', 'r']
  else if c = '\t' then ['\\', 't']
  else if c.toNat = 11 then ['\\', 'v']
  else [c]

/-- Characters of Go's `%q` rendering between the quotes. -/
def quoteChars : List Char → List Char
  | [] => []
  | c :: cs => quoteChar c ++ quoteChars cs

/-- Go's `%q` rendering of a string. -/
def quoteString (s : String) : String :=
  String.mk ('"' :: (quoteChars s.data ++ ['"']))

/-- `func getStringOrDefault(name, defValue string) string`. -/
def getStringOrDefault (env : Env) (name defValue : String) : String :=
  match env name with
  | none => defValue
  | some v => v

/-- `func getIntOrDefault(name string, defValue int) int`. -/
def getIntOrDefault (env : Env) (name : String) (defValue : Int) : Int :=
  match env name with
  | none => defValue
  | some v =>
    match strconvAtoi v with
    | .error _ => defValue
    | .ok i => i

/-- `func getIntOrFail(name string) (int, error)`. -/
def getIntOrFail (env : Env) (name : String) : Except GoError Int :=
  match env name with
  | none => .error (.other ("environment variable " ++ quoteString name ++ " was not set"))
  | some v =>
    match strconvAtoi v with
    | .error _ =>
      .error (.other ("environment variable " ++ quoteString name ++ " is not integer"))
    | .ok i => .ok i

/-- `func existDir(path string) bool`, over the set of paths on which `os.Stat`
fails with a not-exist error. -/
def existDir (notExist : String → Bool) (path : String) : Bool :=
  if notExist path then false else true

/-- A `*zap.Logger`: the profile it was built from and the fields added with
`With`. -/
structure Logger where
  profile : String
  fields : List (String × String)
  deriving DecidableEq

/-- `func createLogger() (*zap.Logger, error)`.  `zapNew` gives the error, if
any, with which `zap.NewProduction` and `zap.NewDevelopment` fail. -/
def createLogger (env : Env) (zapNew : String → Option GoError) : Except GoError Logger :=
  if getStringOrDefault env "SERVE_LOG_ENV" "development" = "production" then
    match zapNew "production" with
    | some e => .error e
    | none => .ok { profile := "production", fields := [] }
  else if getStringOrDefault env "SERVE_LOG_ENV" "development" = "development" then
    match zapNew "development" with
    | some e => .error e
    | none => .ok { profile := "development", fields := [] }
  else .ok { profile := "nop", fields := [] }

/-- Go `net.JoinHostPort`: a host holding a colon is put in brackets. -/
def joinHostPort (host port : String) : String :=
  if ':' ∈ host.data then "[" ++ host ++ "]:" ++ port else host ++ ":" ++ port

/-- Seconds of `genericWebServerTimeout`. -/
def genericWebServerTimeout : Nat := 15

/-- Go `type WebServer struct`, as far as `NewWebServer` fills it: the logger,
the store, the address and the four equal timeouts of the embedded
`http.Server` (the routes registered by `initRoutes` are the handlers
above). -/
structure WebServer (σ : Type) where
  log : Logger
  store : DatabaseStore σ
  Addr : String
  timeout : Nat

/-- `func NewWebServer(store DatabaseStore) (*WebServer, error)`; `tagRelease`
is the package variable, returned with the value the call leaves in it. -/
def NewWebServer {σ : Type} (env : Env) (zapNew : String → Option GoError)
    (tagRelease : String) (store : DatabaseStore σ) : Except GoError (WebServer σ × String) :=
  match getIntOrFail env "SERVE_PORT" with
  | .error err => .error err
  | .ok port =>
    match createLogger env zapNew with
    | .error err => .error err
    | .ok log =>
      .ok ({ log := { log with fields := log.fields ++
                        [("release", if tagRelease.length = 0 then "dev" else tagRelease)] },
             store := store,
             Addr := joinHostPort (getStringOrDefault env "SERVE_HOST" "localhost") (toString port),
             timeout := genericWebServerTimeout },
           if tagRelease.length = 0 then "dev" else tagRelease)


/-! ## Opening the store (`db.go`, `memdb.go`) -/

/-- Go `const databaseFile`. -/
def databaseFile : String := "state.db"

/-- Errors, if any, returned by the driver calls made while a store is opened:
`sqlx.Open`, `Ping`, `Begin`, the `Exec` of the table definition and the `Exec`
of the seed insert made in the given turn of the loop. -/
structure DriverOutcomes where
  openErr : Option GoError
  pingErr : Option GoError
  beginErr : Option GoError
  ddlErr : Option GoError
  seedErr : Nat → Option GoError

/-- How the transaction of `initializeDb` ended. -/
inductive TxEnd where
  | notStarted
  | committed
  | rolledBack
  deriving DecidableEq

/-- The seed rows of `initializeDb` in the order of the map keys: name,
metadata text and days before now. -/
def seedData : List (String × List Char × Nat) :=
  [("datacenter-1",
    "\x7b\"monitoring\":\x7b\"enabled\":\"true\"\x7d,\"limits\":\x7b\"cpu\":\x7b\"enabled\":\"false\",\"value\":\"300m\"\x7d\x7d\x7d".data,
    60),
   ("datacenter-2",
    "\x7b\"monitoring\":\x7b\"enabled\":\"true\"\x7d,\"limits\":\x7b\"cpu\":\x7b\"enabled\":\"true\",\"value\":\"250m\"\x7d\x7d\x7d".data,
    14)]

/-- The loop `for _, v := range dc` of `initializeDb` at its turn `turn`, over
the seeds still to insert: each turn executes one insert at clock reading
`now` (`datetime('now', '-N days')`) and stops at the first error. -/
def insertSeeds (o : DriverOutcomes) (now : Nat) :
    Nat → List (String × List Char × Nat) → Database → Option GoError × Database
  | _, [], db => (none, db)
  | turn, (name, text, days) :: rest, db =>
    match o.seedErr turn with
    | some e => (some e, db)
    | none =>
      insertSeeds o now (turn + 1) rest
        { rows := db.rows ++ [{ id := db.seq + 1, name := name, metadata := text,
                                created_at := now - days * 86400 }],
          seq := db.seq + 1 }

/-- `func initializeDb(db *sqlx.DB) error` on a database without tables.
`seeds` lists the seed rows in the order in which the map `dc` happens to be
ranged over.  Returns the error, how the transaction ended (the deferred
function rolls back when `err` is set and commits otherwise) and the content
of the database afterwards. -/
def initializeDb (o : DriverOutcomes) (now : Nat) (seeds : List (String × List Char × Nat)) :
    Option GoError × TxEnd × Database :=
  match o.beginErr with
  | some e => (some e, .notStarted, { rows := [], seq := 0 })
  | none =>
    match o.ddlErr with
    | some e => (some e, .rolledBack, { rows := [], seq := 0 })
    | none =>
      match insertSeeds o now 0 seeds { rows := [], seq := 0 } with
      | (some e, _) => (some e, .rolledBack, { rows := [], seq := 0 })
      | (none, db) => (none, .committed, db)

/-- What a call that opens a store leaves behind: the returned store (`none`
for nil; the cleaner function is returned with it), the returned error,
whether a database handle was opened, whether `Close` has been called on it
by the time the call returns, and how the initializing transaction ended. -/
structure StoreOpening where
  store : Option Database
  err : Option GoError
  opened : Bool
  closed : Bool
  tx : TxEnd

/-- The deferred `func() { if err != nil { openFileDB.Close() } }`: run at
return with the value then held by the variable `err` of the enclosing
function; gives whether the handle is closed afterwards. -/
def closeOnError (err : Option GoError) : Bool := err.isSome

/-- `func NewDatabaseStore() (*Database, func(), error)`.  `existing` is the
content of the database file when it is already there.  The comments name the
value of the function's variable `err` on each path: `err = openFileDB.Ping()`
assigns it, while `if err := initializeDb(openFileDB); ...` declares a new
`err` in the scope of the `if` and leaves the function's variable nil. -/
def NewDatabaseStore (env : Env) (notExist : String → Bool) (o : DriverOutcomes) (now : Nat)
    (seeds : List (String × List Char × Nat)) (existing : Database) : StoreOpening :=
  match o.openErr with
  | some e =>
    -- `return nil, nil, err` before the `defer` statement
    { store := none, err := some e, opened := false, closed := false, tx := .notStarted }
  | none =>
    match o.pingErr with
    | some e =>
      -- the function's `err` is `e`
      { store := none, err := some e, opened := true, closed := closeOnError (some e),
        tx := .notStarted }
    | none =>
      -- the function's `err` is nil from here on
      if !existDir notExist (getStringOrDefault env "SERVE_DATA" databaseFile) then
        match initializeDb o now seeds with
        | (some e, tx, _) =>
          { store := none, err := some e, opened := true, closed := closeOnError none, tx := tx }
        | (none, tx, db) =>
          { store := some db, err := none, opened := true, closed := closeOnError none, tx := tx }
      else
        { store := some existing, err := none, opened := true, closed := closeOnError none,
          tx := .notStarted }

/-- `func NewMemDatabaseStore(initFunction InitializerFunc) (*Database, func(), error)`
on a fresh in-memory database; `initFunction` is `none` for nil.  Here
`err = initFunction(db)` assigns the function's variable `err`. -/
def NewMemDatabaseStore (o : DriverOutcomes)
    (initFunction : Option (Database → Database × Option GoError)) : StoreOpening :=
  match o.openErr with
  | some e =>
    { store := none, err := some e, opened := false, closed := false, tx := .notStarted }
  | none =>
    match o.pingErr with
    | some e =>
      { store := none, err := some e, opened := true, closed := closeOnError (some e),
        tx := .notStarted }
    | none =>
      match initFunction with
      | none =>
        { store := some { rows := [], seq := 0 }, err := none, opened := true,
          closed := closeOnError none, tx := .notStarted }
      | some f =>
        match f { rows := [], seq := 0 } with
        | (_, some e) =>
          { store := none, err := some e, opened := true, closed := closeOnError (some e),
            tx := .notStarted }
        | (db, none) =>
          { store := some db, err := none, opened := true, closed := closeOnError none,
            tx := .notStarted }

/-- Driver calls that all succeed. -/
def driverOk : DriverOutcomes :=
  { openErr := none, pingErr := none, beginErr := none, ddlErr := none, seedErr := fun _ => none }

/-! ## Fixtures of the test double -/

/-- A stub holding the single entry `abc`, the counterpart of `sampleDb`. -/
def sampleStub : DatabaseStub :=
  { Connected := true,
    Config := [{ ID := 1, Name := "abc", Metadata := some (some sampleMetadata), Created := 100 }] }

/-- An entry of the given id and name without metadata. -/
def plainEntry (id : Int) (name : String) : Config :=
  { ID := id, Name := name, Metadata := none, Created := 0 }

/-- A request body entry carrying the metadata document `on: false`. -/
def switchedOff : Config :=
  { ID := 0, Name := "", Metadata := some (some [("on", .bool false)]), Created := 0 }


/-! ## Decimal integers -/

/-- Number written by a run of decimal digits. -/
def decimalValue (ds : List Char) : Nat :=
  ds.foldl (fun acc c => acc * 10 + (c.toNat - 48)) 0

/-- The text is a decimal integer that fits a 64-bit `int` and denotes `i`: an
optional sign `+` or `-` followed by one or more decimal digits. -/
def IsDecimalInt (v : String) (i : Int) : Prop :=
  ∃ ds : List Char, ds ≠ [] ∧ (∀ c ∈ ds, c.isDigit = true) ∧
    (((v.data = ds ∨ v.data = '+' :: ds) ∧ i = (decimalValue ds : Int) ∧
        decimalValue ds < 9223372036854775808) ∨
     (v.data = '-' :: ds ∧ i = -(decimalValue ds : Int) ∧
        decimalValue ds ≤ 9223372036854775808))

/-- An environment that sets `SERVE_PORT` to `8080` and nothing else. -/
def portEnv : Env := fun name => if name = "SERVE_PORT" then some "8080" else none

/-! ## Go values and the table states the engine produces -/

mutual
/-- The listing stands for a Go value: every number literal is a JSON number
(what `json.Marshal` writes for a number and what the reader keeps of one), and
the keys of every map are strictly ascending (a Go map holds a key once, and
the listing is by ascending key). -/
def JValue.wellFormed : JValue → Bool
  | .null => true
  | .bool _ => true
  | .number lit => decide (scanNumber lit.data = some (lit.data, []))
  | .string _ => true
  | .array xs => elementsWellFormed xs
  | .object ms => membersWellFormed ms
/-- Elements of an array that lists a Go slice. -/
def elementsWellFormed : List JValue → Bool
  | [] => true
  | v :: rest => v.wellFormed && elementsWellFormed rest
/-- Members of a map listing: every value well formed, keys strictly ascending. -/
def membersWellFormed : List (String × JValue) → Bool
  | [] => true
  | (k, v) :: rest =>
    v.wellFormed && membersWellFormed rest &&
      (match rest with
       | [] => true
       | (k2, _) :: _ => decide (keyLt k k2))
end

/-- What `encodeElements` writes after an element. -/
def encodeElementsRest : List JValue → List Char
  | [] => [']']
  | v :: vs => ',' :: encodeElements (v :: vs)

/-- A metadata map that lists a Go map (`none` is the nil map). -/
def Metadata.wellFormed (m : Metadata) : Bool := membersWellFormed (m.getD [])

/-- An entry whose metadata, when the pointer is set, lists a Go map. -/
def Config.wellFormed (cfg : Config) : Bool :=
  match cfg.Metadata with
  | none => true
  | some m => m.wellFormed

/-- Table states the engine produces: the table as created, the table as
seeded by `initializeDb` (the seeds ranged over in some order), and what
`InsertConfig` (at any clock reading), `UpdateConfigByName` and
`DeleteConfigByName` make of such a state. -/
inductive Database.Reachable : Database → Prop where
  | created : Database.Reachable { rows := [], seq := 0 }
  | seeded (o : DriverOutcomes) (now : Nat) (seeds : List (String × List Char × Nat)) :
      seeds.Perm seedData → Database.Reachable (initializeDb o now seeds).2.2
  | insert (db : Database) (now : Nat) (cfg : Config) :
      Database.Reachable db → cfg.wellFormed = true →
      Database.Reachable (db.InsertConfig now cfg).1
  | update (db : Database) (name : String) (cfg : Config) :
      Database.Reachable db → cfg.wellFormed = true →
      Database.Reachable (db.UpdateConfigByName name cfg).1
  | delete (db : Database) (name : String) :
      Database.Reachable db → Database.Reachable (db.DeleteConfigByName name).1

/-- An entry of the given name carrying the metadata document of the handler tests. -/
def sampleEntry (name : String) : Config :=
  { ID := 0, Name := name, Metadata := some (some sampleMetadata), Created := 0 }

/-! ## Theorems: request handlers -/

/-- The "not found" body written by `http.Error` passes `assertResponseBody`
against the bare message. -/
theorem notFound_body_trimmed :
    assertResponseBody (httpError "configuration item was not found" 404).body
      "configuration item was not found" = true := by decide

/-- C1: `configsGetOneHandler` answers 404 with the fixed message, without
calling the store, when the name is empty; 404 with the fixed message when
`GetConfigByName` fails with `sql.ErrNoRows`; 500 with the error text when it
fails otherwise; 200 with the JSON encoding of the entry when it succeeds.
Bodies written by `http.Error` and by the JSON encoder end in a newline, which
the test helper `assertResponseBody` trims. -/
theorem configsGetOneHandler_responses {σ : Type} (store : DatabaseStore σ) (s : σ)
    (r : Request) :
    (r.name = "" →
      (configsGetOneHandler store s r).resp.status = 404 ∧
      (configsGetOneHandler store s r).resp.body = "configuration item was not found\n" ∧
      assertResponseBody (configsGetOneHandler store s r).resp.body
        "configuration item was not found" = true ∧
      (configsGetOneHandler store s r).calls = [] ∧
      (configsGetOneHandler store s r).state = s) ∧
    (r.name ≠ "" → ∀ s' err, store.GetConfigByName s r.name = (s', .error err) →
      (err.isErrNoRows = true →
        (configsGetOneHandler store s r).resp.status = 404 ∧
        (configsGetOneHandler store s r).resp.body = "configuration item was not found\n" ∧
        assertResponseBody (configsGetOneHandler store s r).resp.body
          "configuration item was not found" = true) ∧
      (err.isErrNoRows = false →
        (configsGetOneHandler store s r).resp.status = 500 ∧
        (configsGetOneHandler store s r).resp.body = err.Error ++ "\n")) ∧
    (r.name ≠ "" → ∀ s' cfg, store.GetConfigByName s r.name = (s', .ok cfg) →
      (configsGetOneHandler store s r).resp.status = 200 ∧
      (configsGetOneHandler store s r).resp.body = String.mk (encodeConfig cfg ++ ['\n'])) := by
  refine ⟨fun h => ?_, fun h s' err hg => ⟨fun he => ?_, fun he => ?_⟩, fun h s' cfg hg => ?_⟩
  · have e : configsGetOneHandler store s r
        = ⟨httpError "configuration item was not found" 404, s, []⟩ := by
      simp only [configsGetOneHandler, h, if_true]
    rw [e]
    exact ⟨rfl, rfl, notFound_body_trimmed, rfl, rfl⟩
  · have e : configsGetOneHandler store s r
        = ⟨httpError "configuration item was not found" 404, s', [.GetConfigByName r.name]⟩ := by
      simp only [configsGetOneHandler, h, if_false, hg, he, if_true]
    rw [e]
    exact ⟨rfl, rfl, notFound_body_trimmed⟩
  · have e : configsGetOneHandler store s r
        = ⟨httpError err.Error 500, s', [.GetConfigByName r.name]⟩ := by
      simp [configsGetOneHandler, h, hg, he]
    rw [e]
    exact ⟨rfl, rfl⟩
  · have e : configsGetOneHandler store s r
        = ⟨encodeJSONResponse cfg, s', [.GetConfigByName r.name]⟩ := by
      simp only [configsGetOneHandler, h, if_false, hg]
    rw [e]
    exact ⟨rfl, rfl⟩

/-- Witness for C1: the four outcomes on concrete stores and requests. -/
theorem configsGetOneHandler_responses_witness :
    (configsGetOneHandler (Database.store 0) sampleDb ⟨"", []⟩).resp.status = 404 ∧
    (configsGetOneHandler (Database.store 0) sampleDb ⟨"missing", []⟩).resp.status = 404 ∧
    (configsGetOneHandler (failingStore (.other "disk I/O error")) () ⟨"abc", []⟩).resp.body
      = "disk I/O error\n" ∧
    (configsGetOneHandler (Database.store 0) sampleDb ⟨"abc", []⟩).resp.status = 200 :=
  ⟨((configsGetOneHandler_responses (Database.store 0) sampleDb ⟨"", []⟩).1 rfl).1,
   (((configsGetOneHandler_responses (Database.store 0) sampleDb ⟨"missing", []⟩).2.1
      (by decide) sampleDb .errNoRows rfl).1 rfl).1,
   (((configsGetOneHandler_responses (failingStore (.other "disk I/O error")) () ⟨"abc", []⟩).2.1
      (by decide) () (.other "disk I/O error") rfl).2 rfl).2,
   ((configsGetOneHandler_responses (Database.store 0) sampleDb ⟨"abc", []⟩).2.2
      (by decide) sampleDb _ rfl).1⟩

/-- Counterexample to C8 as stated: with an empty name and the malformed body
`{`, `configsUpdateOneHandler` answers 400 (the body is decoded before the
name is looked at), not 404. -/
theorem configsUpdateOneHandler_malformed_body_empty_name :
    (configsUpdateOneHandler (Database.store 0) sampleDb ⟨"", ['{']⟩).resp.status = 400 ∧
    ¬ ((configsUpdateOneHandler (Database.store 0) sampleDb ⟨"", ['{']⟩).resp.status = 404 ∧
       (configsUpdateOneHandler (Database.store 0) sampleDb ⟨"", ['{']⟩).resp.body
         = "configuration item was not found\n") := by
  decide

/-- C8 (amended): for a request with an empty name, `configsUpdateOneHandler`
never calls the store; it answers 404 with the fixed message when the body
decodes as a JSON entry, and 400 with the decode error's text when it does
not. -/
theorem configsUpdateOneHandler_empty_name {σ : Type} (store : DatabaseStore σ) (s : σ)
    (r : Request) (h : r.name = "") :
    (configsUpdateOneHandler store s r).calls = [] ∧
    (configsUpdateOneHandler store s r).state = s ∧
    (∀ cfg, jsonDecodeConfig r.body = .ok cfg →
      (configsUpdateOneHandler store s r).resp.status = 404 ∧
      (configsUpdateOneHandler store s r).resp.body = "configuration item was not found\n" ∧
      assertResponseBody (configsUpdateOneHandler store s r).resp.body
        "configuration item was not found" = true) ∧
    (∀ err, jsonDecodeConfig r.body = .error err →
      (configsUpdateOneHandler store s r).resp.status = 400 ∧
      (configsUpdateOneHandler store s r).resp.body = err.Error ++ "\n") := by
  cases hd : jsonDecodeConfig r.body with
  | error e =>
    have e1 : configsUpdateOneHandler store s r = ⟨httpError e.Error 400, s, []⟩ := by
      simp only [configsUpdateOneHandler, hd]
    rw [e1]
    refine ⟨rfl, rfl, fun cfg hc => (by cases hc), fun err he => ?_⟩
    cases he
    exact ⟨rfl, rfl⟩
  | ok c =>
    have e1 : configsUpdateOneHandler store s r
        = ⟨httpError "configuration item was not found" 404, s, []⟩ := by
      simp only [configsUpdateOneHandler, hd, h, if_true]
    rw [e1]
    exact ⟨rfl, rfl, fun _ _ => ⟨rfl, rfl, notFound_body_trimmed⟩, fun err he => (by cases he)⟩

/-- Witness for C8 (amended): an empty name with the body `{}` is answered 404,
with the malformed body `{` it is answered 400; the store is not called. -/
theorem configsUpdateOneHandler_empty_name_witness :
    (configsUpdateOneHandler (Database.store 0) sampleDb ⟨"", ['{', '}']⟩).calls = [] ∧
    (configsUpdateOneHandler (Database.store 0) sampleDb ⟨"", ['{', '}']⟩).resp.status = 404 ∧
    (configsUpdateOneHandler (Database.store 0) sampleDb ⟨"", ['{']⟩).resp.status = 400 :=
  ⟨(configsUpdateOneHandler_empty_name (Database.store 0) sampleDb ⟨"", ['{', '}']⟩ rfl).1,
   ((configsUpdateOneHandler_empty_name (Database.store 0) sampleDb ⟨"", ['{', '}']⟩ rfl).2.2.1
      Config.zero rfl).1,
   ((configsUpdateOneHandler_empty_name (Database.store 0) sampleDb ⟨"", ['{']⟩ rfl).2.2.2
      jsonSyntaxError rfl).1⟩

/-- C9: `configsPostHandler` answers 400 without calling `InsertConfig` when
the body cannot be decoded; otherwise it calls `InsertConfig` exactly once,
with the decoded entry, and answers 200 with the fixed confirmation whatever
that call returns. -/
theorem configsPostHandler_responses {σ : Type} (store : DatabaseStore σ) (s : σ)
    (r : Request) :
    (∀ err, jsonDecodeConfig r.body = .error err →
      (configsPostHandler store s r).resp.status = 400 ∧
      (configsPostHandler store s r).resp.body = err.Error ++ "\n" ∧
      (configsPostHandler store s r).calls = [] ∧
      (configsPostHandler store s r).state = s) ∧
    (∀ cfg, jsonDecodeConfig r.body = .ok cfg →
      (configsPostHandler store s r).calls = [.InsertConfig cfg] ∧
      (configsPostHandler store s r).state = (store.InsertConfig s cfg).1 ∧
      (configsPostHandler store s r).resp.status = 200 ∧
      (configsPostHandler store s r).resp.body
        = "new configuration item has successfully been added") := by
  cases hd : jsonDecodeConfig r.body with
  | error e =>
    have e1 : configsPostHandler store s r = ⟨httpError e.Error 400, s, []⟩ := by
      simp only [configsPostHandler, hd]
    rw [e1]
    refine ⟨fun err he => ?_, fun cfg hc => (by cases hc)⟩
    cases he
    exact ⟨rfl, rfl, rfl, rfl⟩
  | ok c =>
    have e1 : configsPostHandler store s r
        = ⟨fprint "new configuration item has successfully been added",
            (store.InsertConfig s c).1, [.InsertConfig c]⟩ := by
      simp only [configsPostHandler, hd]
    rw [e1]
    refine ⟨fun err he => (by cases he), fun cfg hc => ?_⟩
    cases hc
    exact ⟨rfl, rfl, rfl, rfl⟩

/-- Witness for C9: a malformed body is answered 400; a well-formed one is
answered 200 even when the store's insert fails. -/
theorem configsPostHandler_responses_witness :
    (configsPostHandler (Database.store 0) sampleDb ⟨"", ['{']⟩).resp.status = 400 ∧
    (configsPostHandler (failingStore (.other "disk I/O error")) () ⟨"", ['{', '}']⟩).resp.status
      = 200 :=
  ⟨((configsPostHandler_responses (Database.store 0) sampleDb ⟨"", ['{']⟩).1
      jsonSyntaxError rfl).1,
   ((configsPostHandler_responses (failingStore (.other "disk I/O error")) () ⟨"", ['{', '}']⟩).2
      Config.zero rfl).2.2.1⟩

/-- C10: `configsDeleteOneHandler` answers 404 with the fixed message, without
calling the store, when the name is empty; otherwise it calls
`DeleteConfigByName` exactly once, with the name, and answers 500 with the
error text when that call fails and 200 with the fixed confirmation when it
succeeds. -/
theorem configsDeleteOneHandler_responses {σ : Type} (store : DatabaseStore σ) (s : σ)
    (r : Request) :
    (r.name = "" →
      (configsDeleteOneHandler store s r).resp.status = 404 ∧
      (configsDeleteOneHandler store s r).resp.body = "configuration item was not found\n" ∧
      assertResponseBody (configsDeleteOneHandler store s r).resp.body
        "configuration item was not found" = true ∧
      (configsDeleteOneHandler store s r).calls = [] ∧
      (configsDeleteOneHandler store s r).state = s) ∧
    (r.name ≠ "" →
      (configsDeleteOneHandler store s r).calls = [.DeleteConfigByName r.name] ∧
      (configsDeleteOneHandler store s r).state = (store.DeleteConfigByName s r.name).1 ∧
      (∀ err, (store.DeleteConfigByName s r.name).2 = some err →
        (configsDeleteOneHandler store s r).resp.status = 500 ∧
        (configsDeleteOneHandler store s r).resp.body = err.Error ++ "\n") ∧
      ((store.DeleteConfigByName s r.name).2 = none →
        (configsDeleteOneHandler store s r).resp.status = 200 ∧
        (configsDeleteOneHandler store s r).resp.body
          = "configuration item has successfully been erased")) := by
  refine ⟨fun h => ?_, fun h => ?_⟩
  · have e1 : configsDeleteOneHandler store s r
        = ⟨httpError "configuration item was not found" 404, s, []⟩ := by
      simp only [configsDeleteOneHandler, h, if_true]
    rw [e1]
    exact ⟨rfl, rfl, notFound_body_trimmed, rfl, rfl⟩
  · rcases hd : store.DeleteConfigByName s r.name with ⟨s', _ | e⟩
    · have e1 : configsDeleteOneHandler store s r
          = ⟨fprint "configuration item has successfully been erased", s',
              [.DeleteConfigByName r.name]⟩ := by
        simp only [configsDeleteOneHandler, h, if_false, hd]
      rw [e1]
      exact ⟨rfl, rfl, fun err he => (by cases he), fun _ => ⟨rfl, rfl⟩⟩
    · have e1 : configsDeleteOneHandler store s r
          = ⟨httpError e.Error 500, s', [.DeleteConfigByName r.name]⟩ := by
        simp only [configsDeleteOneHandler, h, if_false, hd]
      rw [e1]
      refine ⟨rfl, rfl, fun err he => ?_, fun he => (by cases he)⟩
      cases he
      exact ⟨rfl, rfl⟩

/-- Witness for C10: the three outcomes on concrete stores and requests. -/
theorem configsDeleteOneHandler_responses_witness :
    (configsDeleteOneHandler (Database.store 0) sampleDb ⟨"", []⟩).resp.status = 404 ∧
    (configsDeleteOneHandler (failingStore (.other "disk I/O error")) () ⟨"abc", []⟩).resp.body
      = "disk I/O error\n" ∧
    (configsDeleteOneHandler (Database.store 0) sampleDb ⟨"abc", []⟩).resp.body
      = "configuration item has successfully been erased" :=
  ⟨((configsDeleteOneHandler_responses (Database.store 0) sampleDb ⟨"", []⟩).1 rfl).1,
   (((configsDeleteOneHandler_responses (failingStore (.other "disk I/O error")) ()
      ⟨"abc", []⟩).2 (by decide)).2.2.1 (.other "disk I/O error") rfl).2,
   (((configsDeleteOneHandler_responses (Database.store 0) sampleDb ⟨"abc", []⟩).2
      (by decide)).2.2.2 rfl).2⟩

/-! ## Lemmas: JSON text of a document reads back -/

/-- A hexadecimal digit written by the encoder reads back as its value. -/
theorem hexVal_hexDigit : ∀ n, n < 16 → hexVal (hexDigit n) = some n := by decide

/-- The four digits the encoder writes for a code below 65536 read back as that code. -/
theorem hex4_digits (n : Nat) (h : n < 65536) (cs : List Char) :
    hex4 (hexDigit (n / 4096 % 16) :: hexDigit (n / 256 % 16) :: hexDigit (n / 16 % 16)
      :: hexDigit (n % 16) :: cs) = some (n, cs) := by
  have h1 := hexVal_hexDigit (n / 4096 % 16) (by omega)
  have h2 := hexVal_hexDigit (n / 256 % 16) (by omega)
  have h3 := hexVal_hexDigit (n / 16 % 16) (by omega)
  have h4 := hexVal_hexDigit (n % 16) (by omega)
  simp only [hex4, h1, h2, h3, h4]
  congr 2
  omega

/-- A code below the surrogate range denotes its own character. -/
theorem decodeU_plain (c : Char) (h : c.toNat < 55296) (cs : List Char) :
    decodeU c.toNat cs = (c, cs) := by
  have : ¬ (55296 ≤ c.toNat ∧ c.toNat < 57344) := by omega
  simp only [decodeU, this, if_false, Char.ofNat_toNat]

/-- Reading a one-letter escape yields the character it denotes. -/
theorem parseStringBody_short (fuel : Nat) (e ch : Char) (cs : List Char)
    (he : e ≠ 'u') (hu : unescape e = some ch) :
    parseStringBody (fuel + 1) ('\\' :: e :: cs) = consChar ch (parseStringBody fuel cs) := by
  have h1 : ¬ ('\\' = '"') := by decide
  simp only [parseStringBody, h1, if_false, if_true, he, hu]
  cases parseStringBody fuel cs with
  | none => rfl
  | some p => rfl

/-- Reading the `\u` escape the encoder writes for a character yields that character. -/
theorem parseStringBody_unicode (fuel : Nat) (c : Char) (cs : List Char)
    (h : c.toNat < 55296) :
    parseStringBody (fuel + 1) ('\\' :: 'u' :: hexDigit (c.toNat / 4096 % 16)
      :: hexDigit (c.toNat / 256 % 16) :: hexDigit (c.toNat / 16 % 16)
      :: hexDigit (c.toNat % 16) :: cs) = consChar c (parseStringBody fuel cs) := by
  have h1 : ¬ ('\\' = '"') := by decide
  simp only [parseStringBody, h1, if_false, if_true, hex4_digits c.toNat (by omega) cs,
    decodeU_plain c h cs]
  cases parseStringBody fuel cs with
  | none => rfl
  | some p => rfl

/-- Reading an unescaped character yields that character. -/
theorem parseStringBody_raw (fuel : Nat) (c : Char) (cs : List Char)
    (h1 : c ≠ '"') (h2 : c ≠ '\\') (h3 : ¬ c.toNat < 32) :
    parseStringBody (fuel + 1) (c :: cs) = consChar c (parseStringBody fuel cs) := by
  simp only [parseStringBody, h1, h2, h3, if_false]
  cases parseStringBody fuel cs with
  | none => rfl
  | some p => rfl

/-- Reading the escaped form of a character yields that character. -/
theorem parseStringBody_escapeChar (fuel : Nat) (c : Char) (cs : List Char) :
    parseStringBody (fuel + 1) (escapeChar c ++ cs) = consChar c (parseStringBody fuel cs) := by
  unfold escapeChar
  split_ifs with h1 h2 h3 h4 h5 h6
  · subst h1; exact parseStringBody_short fuel _ _ cs (by decide) (by decide)
  · subst h2; exact parseStringBody_short fuel _ _ cs (by decide) (by decide)
  · subst h3; exact parseStringBody_short fuel _ _ cs (by decide) (by decide)
  · subst h4; exact parseStringBody_short fuel _ _ cs (by decide) (by decide)
  · subst h5; exact parseStringBody_short fuel _ _ cs (by decide) (by decide)
  · have hc : c.toNat < 55296 := by
      rcases h6 with h | h | h | h | h | h
      · omega
      · subst h; decide
      · subst h; decide
      · subst h; decide
      · omega
      · omega
    exact parseStringBody_unicode fuel c cs hc
  · have h7 : ¬ c.toNat < 32 := fun h => h6 (Or.inl h)
    exact parseStringBody_raw fuel c cs h1 h2 h7

/-- Reading an escaped string body up to its quote yields the string, given a budget above its length. -/
theorem parseStringBody_escapeChars (s : List Char) :
    ∀ (fuel : Nat) (rest : List Char), s.length < fuel →
      parseStringBody fuel (escapeChars s ++ '"' :: rest) = some (s, rest) := by
  induction s with
  | nil =>
    intro fuel rest h
    obtain ⟨f, rfl⟩ : ∃ f, fuel = f + 1 := ⟨fuel - 1, by simp at h; omega⟩
    simp [escapeChars, parseStringBody]
  | cons c s ih =>
    intro fuel rest h
    obtain ⟨f, rfl⟩ : ∃ f, fuel = f + 1 := ⟨fuel - 1, by simp at h; omega⟩
    have hf : s.length < f := by simp at h; omega
    rw [escapeChars, List.append_assoc, parseStringBody_escapeChar, ih f rest hf]
    rfl

/-- Escaping does not shorten a string. -/
theorem length_le_escapeChars (s : List Char) : s.length ≤ (escapeChars s).length := by
  induction s with
  | nil => simp [escapeChars]
  | cons c s ih =>
    have : 1 ≤ (escapeChar c).length := by
      unfold escapeChar; split_ifs <;> simp
    simp [escapeChars]; omega

/-- A string literal written by the encoder reads back as the string. -/
theorem parseString_escapeChars (s : String) (rest : List Char) :
    parseString (escapeChars s.data ++ '"' :: rest) = some (s, rest) := by
  have h := parseStringBody_escapeChars s.data (escapeChars s.data ++ '"' :: rest).length rest
    (by have := length_le_escapeChars s.data; simp only [List.length_append, List.length_cons]; omega)
  simp only [parseString, h]


/-- The text of a non-empty member list: first member, then the rest. -/
theorem encodeMembers_cons (k : String) (v : JValue) (ms : List (String × JValue)) :
    encodeMembers ((k, v) :: ms) = encodeString k ++ ':' :: encodeValue v ++ encodeRest ms := by
  cases ms with
  | nil => simp [encodeMembers, encodeRest]
  | cons m ms => simp [encodeMembers, encodeRest]

/-- Nothing is skipped before a character that is not white space. -/
theorem skipSpace_cons (c : Char) (cs : List Char) (h : isSpace c = false) :
    skipSpace (c :: cs) = c :: cs := by
  simp [skipSpace, h]

/-- The literal `true` reads as the boolean. -/
theorem parseValue_true (f : Nat) (rest : List Char) :
    parseValue (f + 1) ("true".data ++ rest) = some (.bool true, rest) := by
  simp [parseValue, skipSpace, isSpace, dropLiteral]

/-- The literal `false` reads as the boolean. -/
theorem parseValue_false (f : Nat) (rest : List Char) :
    parseValue (f + 1) ("false".data ++ rest) = some (.bool false, rest) := by
  simp [parseValue, skipSpace, isSpace, dropLiteral]

/-- An encoded string reads as the string value. -/
theorem parseValue_string (f : Nat) (s : String) (rest : List Char) :
    parseValue (f + 1) (encodeString s ++ rest) = some (.string s, rest) := by
  have h : encodeString s ++ rest = '"' :: (escapeChars s.data ++ '"' :: rest) := by
    simp [encodeString]
  rw [h]
  simp [parseValue, skipSpace, isSpace, parseString_escapeChars]

/-- The text of the empty object reads as the empty object. -/
theorem parseValue_empty_object (f : Nat) (rest : List Char) :
    parseValue (f + 1) ('{' :: '}' :: rest) = some (.object [], rest) := by
  simp [parseValue, skipSpace, isSpace]

/-- An object whose members read as `ms` reads as the map built from `ms`. -/
theorem parseValue_object (f : Nat) (cs r : List Char) (ms : List (String × JValue))
    (h : parseMembers f ('"' :: cs) = some (ms, r)) :
    parseValue (f + 1) ('{' :: '"' :: cs) = some (.object (mapInsertAll [] ms), r) := by
  simp [parseValue, skipSpace, isSpace, h]

/-- Reading the last member of an object. -/
theorem parseMembers_last (f : Nat) (k : String) (v : JValue) (cs r : List Char)
    (h : parseValue f cs = some (v, '}' :: r)) :
    parseMembers (f + 1) (encodeString k ++ ':' :: cs) = some ([(k, v)], r) := by
  have e : encodeString k ++ ':' :: cs = '"' :: (escapeChars k.data ++ '"' :: ':' :: cs) := by
    simp [encodeString]
  rw [e]
  simp [parseMembers, skipSpace, isSpace, parseString_escapeChars, h]

/-- Reading a member that is followed by further members. -/
theorem parseMembers_more (f : Nat) (k : String) (v : JValue) (cs r r' : List Char)
    (ms : List (String × JValue))
    (h : parseValue f cs = some (v, ',' :: r)) (h2 : parseMembers f r = some (ms, r')) :
    parseMembers (f + 1) (encodeString k ++ ':' :: cs) = some ((k, v) :: ms, r') := by
  have e : encodeString k ++ ':' :: cs = '"' :: (escapeChars k.data ++ '"' :: ':' :: cs) := by
    simp [encodeString]
  rw [e]
  simp [parseMembers, skipSpace, isSpace, parseString_escapeChars, h, h2]


/-- The key order is the order of strings. -/
theorem keyLt_iff (a b : String) : keyLt a b ↔ a < b := by
  unfold keyLt; exact String.lt_iff_toList_lt.symm

/-- A key above all keys of a map is added at its end. -/
theorem mapInsert_last (k : String) (v : JValue) (acc : JMap)
    (h : ∀ p ∈ acc, keyLt p.1 k) : mapInsert k v acc = acc ++ [(k, v)] := by
  induction acc with
  | nil => rfl
  | cons p acc ih =>
    obtain ⟨k', v'⟩ := p
    have hk : k' < k := (keyLt_iff _ _).1 (h (k', v') (List.mem_cons_self _ _))
    have h1 : ¬ k = k' := fun e => lt_irrefl k (e ▸ hk)
    have h2 : ¬ keyLt k k' := fun e => lt_asymm hk ((keyLt_iff _ _).1 e)
    have ih' := ih (fun p hp => h p (List.mem_cons_of_mem _ hp))
    simp only [mapInsert, h1, h2, if_false, ih', List.cons_append]

/-- Storing members of ascending keys, all above the keys of the map, appends them. -/
theorem mapInsertAll_sorted (ms : List (String × JValue)) :
    ∀ acc : JMap, (acc ++ ms).Pairwise (fun a b => keyLt a.1 b.1) →
      mapInsertAll acc ms = acc ++ ms := by
  induction ms with
  | nil => intro acc _; simp [mapInsertAll]
  | cons m ms ih =>
    intro acc h
    have hlast : ∀ p ∈ acc, keyLt p.1 m.1 := by
      intro p hp
      exact (List.pairwise_append.1 h).2.2 p hp m (List.mem_cons_self _ _)
    have h' : ((acc ++ [m]) ++ ms).Pairwise (fun a b => keyLt a.1 b.1) := by
      simpa using h
    have := ih (acc ++ [m]) h'
    simp only [mapInsertAll, List.foldl_cons] at this ⊢
    rw [mapInsert_last m.1 m.2 acc hlast]
    simpa using this

/-- What it takes for a non-empty member list to be that of a document. -/
theorem membersDoc_cons (k : String) (v : JValue) (rest : List (String × JValue)) :
    membersDoc ((k, v) :: rest) = true ↔
      v.isDoc = true ∧ membersDoc rest = true ∧ (∀ p, rest.head? = some p → keyLt k p.1) := by
  cases rest with
  | nil => simp [membersDoc]
  | cons p rest => simp [membersDoc, and_assoc]

/-- The keys of a document are pairwise ascending. -/
theorem membersDoc_pairwise (ms : List (String × JValue)) (h : membersDoc ms = true) :
    ms.Pairwise (fun a b => keyLt a.1 b.1) := by
  induction ms with
  | nil => exact List.Pairwise.nil
  | cons m ms ih =>
    obtain ⟨k, v⟩ := m
    obtain ⟨_, hr, hk⟩ := (membersDoc_cons k v ms).1 h
    have hp := ih hr
    refine List.Pairwise.cons ?_ hp
    cases ms with
    | nil => intro p hp; cases hp
    | cons m2 ms =>
      have h2 : keyLt k m2.1 := hk m2 rfl
      intro p hp
      rcases List.mem_cons.1 hp with rfl | hp'
      · exact h2
      · have h3 : keyLt m2.1 p.1 := (List.pairwise_cons.1 ‹_›).1 p hp'
        exact (keyLt_iff _ _).2 (lt_trans ((keyLt_iff _ _).1 h2) ((keyLt_iff _ _).1 h3))

/-- Storing the members of a document into the empty map yields its member list. -/
theorem mapInsertAll_doc (ms : List (String × JValue)) (h : membersDoc ms = true) :
    mapInsertAll [] ms = ms := by
  simpa using mapInsertAll_sorted ms [] (by simpa using membersDoc_pairwise ms h)


/-- An encoded string starts with a quote. -/
theorem encodeString_head (s : String) (cs : List Char) :
    encodeString s ++ cs = '"' :: (escapeChars s.data ++ '"' :: cs) := by
  simp [encodeString]

/-- The text of a document value is not empty. -/
theorem encodeValue_length_pos (v : JValue) (h : v.isDoc = true) :
    1 ≤ (encodeValue v).length := by
  cases v with
  | bool b => cases b <;> simp [encodeValue]
  | string s => simp [encodeValue, encodeString]
  | object ms => simp [encodeValue]
  | null => simp [JValue.isDoc] at h
  | number l => simp [JValue.isDoc] at h
  | array xs => simp [JValue.isDoc] at h

/-- The text of a document value, and of a non-empty member list of a document, reads back as that value or list, leaving what follows, for any budget of at least the length of the text. -/
theorem parse_encode_fuel (fuel : Nat) :
    (∀ (v : JValue) (rest : List Char), v.isDoc = true → (encodeValue v).length ≤ fuel →
      parseValue fuel (encodeValue v ++ rest) = some (v, rest)) ∧
    (∀ (k : String) (v : JValue) (ms : List (String × JValue)) (rest : List Char),
      membersDoc ((k, v) :: ms) = true → (encodeMembers ((k, v) :: ms)).length ≤ fuel →
      parseMembers fuel (encodeMembers ((k, v) :: ms) ++ rest) = some ((k, v) :: ms, rest)) := by
  induction fuel with
  | zero =>
    refine ⟨fun v rest hd hl => ?_, fun k v ms rest hd hl => ?_⟩
    · have := encodeValue_length_pos v hd
      omega
    · rw [encodeMembers_cons] at hl
      simp [encodeString] at hl
  | succ f ih =>
    obtain ⟨ihv, ihm⟩ := ih
    refine ⟨fun v rest hd hl => ?_, fun k v ms rest hd hl => ?_⟩
    · cases v with
      | null => simp [JValue.isDoc] at hd
      | number l => simp [JValue.isDoc] at hd
      | array xs => simp [JValue.isDoc] at hd
      | bool b =>
        cases b
        · simpa [encodeValue] using parseValue_false f rest
        · simpa [encodeValue] using parseValue_true f rest
      | string s => simpa [encodeValue] using parseValue_string f s rest
      | object ms =>
        cases ms with
        | nil => simpa [encodeValue, encodeMembers] using parseValue_empty_object f rest
        | cons m ms =>
          obtain ⟨k, w⟩ := m
          have hm : membersDoc ((k, w) :: ms) = true := by simpa [JValue.isDoc] using hd
          have hl' : (encodeMembers ((k, w) :: ms)).length ≤ f := by
            simp only [encodeValue, List.length_cons] at hl
            omega
          have h1 := ihm k w ms rest hm hl'
          have e : encodeValue (.object ((k, w) :: ms)) ++ rest
              = '{' :: '"' :: (escapeChars k.data ++ '"' :: (':' :: encodeValue w
                  ++ encodeRest ms) ++ rest) := by
            simp [encodeValue, encodeMembers_cons, encodeString]
          have e2 : encodeMembers ((k, w) :: ms) ++ rest
              = '"' :: (escapeChars k.data ++ '"' :: (':' :: encodeValue w
                  ++ encodeRest ms) ++ rest) := by
            simp [encodeMembers_cons, encodeString]
          rw [e2] at h1
          rw [e, parseValue_object f _ _ _ h1, mapInsertAll_doc _ hm]
    · obtain ⟨hv, hr, _⟩ := (membersDoc_cons k v ms).1 hd
      rw [encodeMembers_cons] at hl
      have hlen : (encodeValue v).length + (encodeRest ms).length + 3 ≤ f + 1 := by
        simp only [encodeString, List.length_append, List.length_cons, List.length_nil] at hl
        omega
      have hval : ∀ tail, parseValue f (encodeValue v ++ tail) = some (v, tail) :=
        fun tail => ihv v tail hv (by omega)
      have e : encodeMembers ((k, v) :: ms) ++ rest
          = encodeString k ++ ':' :: (encodeValue v ++ (encodeRest ms ++ rest)) := by
        simp [encodeMembers_cons]
      rw [e]
      cases ms with
      | nil =>
        exact parseMembers_last f k v _ rest (by simpa [encodeRest] using hval ('}' :: rest))
      | cons m ms =>
        obtain ⟨k2, v2⟩ := m
        have hl2 : (encodeMembers ((k2, v2) :: ms)).length ≤ f := by
          simp only [encodeRest, List.length_cons] at hlen
          omega
        have h2 := ihm k2 v2 ms rest hr hl2
        exact parseMembers_more f k v _ _ rest _
          (by simpa [encodeRest] using hval (',' :: (encodeMembers ((k2, v2) :: ms) ++ rest))) h2


/-! ## Lemmas: JSON text of a well-formed value reads back -/

/-- The digits are split off a text the same way when a character that is no digit follows it. -/
theorem takeDigits_append (sep : Char) (rest : List Char) (h : sep.isDigit = false) :
    ∀ l : List Char, takeDigits (l ++ sep :: rest)
      = ((takeDigits l).1, (takeDigits l).2 ++ sep :: rest) := by
  intro l
  induction l with
  | nil => simp [takeDigits, h]
  | cons c l ih =>
    by_cases hc : c.isDigit = true
    · simp [takeDigits, hc, ih]
    · simp [takeDigits, hc]

/-- The sign is split off a text the same way when a character other than a minus follows it. -/
theorem takeSign_append (sep : Char) (rest : List Char) (h : sep ≠ '-') (l : List Char) :
    takeSign (l ++ sep :: rest) = ((takeSign l).1, (takeSign l).2 ++ sep :: rest) := by
  cases l with
  | nil => simp [takeSign, h]
  | cons c l =>
    by_cases hc : c = '-'
    · simp [takeSign, hc]
    · simp [takeSign, hc]

/-- The fraction is split off a text the same way when a separator follows it. -/
theorem takeFraction_append (sep : Char) (rest : List Char) (h : sep ≠ '.')
    (hd : sep.isDigit = false) (l : List Char) :
    takeFraction (l ++ sep :: rest)
      = (takeFraction l).map (fun p => (p.1, p.2 ++ sep :: rest)) := by
  cases l with
  | nil => simp [takeFraction, h]
  | cons c l =>
    by_cases hc : c = '.'
    · by_cases he : (takeDigits l).1 = []
      · simp [takeFraction, hc, takeDigits_append sep rest hd, he]
      · simp [takeFraction, hc, takeDigits_append sep rest hd, he]
    · simp [takeFraction, hc]

/-- The sign of an exponent is split off a text the same way when a separator follows it. -/
theorem takeExpSign_append (sep : Char) (rest : List Char) (h1 : sep ≠ '+') (h2 : sep ≠ '-')
    (l : List Char) :
    takeExpSign (l ++ sep :: rest) = ((takeExpSign l).1, (takeExpSign l).2 ++ sep :: rest) := by
  cases l with
  | nil => simp [takeExpSign, h1, h2]
  | cons c l =>
    by_cases hc : c = '+' ∨ c = '-'
    · simp [takeExpSign, hc]
    · simp [takeExpSign, hc]

/-- The exponent is split off a text the same way when a separator follows it. -/
theorem takeExponent_append (sep : Char) (rest : List Char) (h1 : sep ≠ '+') (h2 : sep ≠ '-')
    (h3 : sep ≠ 'e') (h4 : sep ≠ 'E') (hd : sep.isDigit = false) (l : List Char) :
    takeExponent (l ++ sep :: rest)
      = (takeExponent l).map (fun p => (p.1, p.2 ++ sep :: rest)) := by
  cases l with
  | nil => simp [takeExponent, h3, h4]
  | cons c l =>
    by_cases hc : c = 'e' ∨ c = 'E'
    · by_cases he : (takeDigits (takeExpSign l).2).1 = []
      · simp [takeExponent, hc, takeExpSign_append sep rest h1 h2, takeDigits_append sep rest hd, he]
      · simp [takeExponent, hc, takeExpSign_append sep rest h1 h2, takeDigits_append sep rest hd, he]
    · simp [takeExponent, hc]

/-- A number is read off a text the same way when a separator of the encoder
(comma, closing brace or closing bracket) follows the text. -/
theorem scanNumber_append (sep : Char) (rest : List Char)
    (hs : sep = ',' ∨ sep = '}' ∨ sep = ']') (l p r : List Char)
    (h : scanNumber l = some (p, r)) :
    scanNumber (l ++ sep :: rest) = some (p, r ++ sep :: rest) := by
  have hd : sep.isDigit = false := by rcases hs with rfl | rfl | rfl <;> decide
  have h1 : sep ≠ '+' := by rcases hs with rfl | rfl | rfl <;> decide
  have h2 : sep ≠ '-' := by rcases hs with rfl | rfl | rfl <;> decide
  have h3 : sep ≠ 'e' := by rcases hs with rfl | rfl | rfl <;> decide
  have h4 : sep ≠ 'E' := by rcases hs with rfl | rfl | rfl <;> decide
  have h5 : sep ≠ '.' := by rcases hs with rfl | rfl | rfl <;> decide
  unfold scanNumber at h ⊢
  rw [takeSign_append sep rest h2]
  simp only [takeDigits_append sep rest hd]
  split_ifs at h ⊢ with hc
  rw [takeFraction_append sep rest h5 hd]
  cases hf : takeFraction (takeDigits (takeSign l).2).2 with
  | none => simp [hf] at h
  | some q =>
    obtain ⟨fp, r1⟩ := q
    simp only [hf, Option.map_some'] at h ⊢
    rw [takeExponent_append sep rest h1 h2 h3 h4 hd]
    cases he : takeExponent r1 with
    | none => simp [he] at h
    | some q2 =>
      obtain ⟨ep, r2⟩ := q2
      simp only [he, Option.map_some'] at h ⊢
      simp only [Option.some.injEq, Prod.mk.injEq] at h ⊢
      exact ⟨h.1, by rw [h.2]⟩

/-- A text that starts with a number starts with a minus sign or a digit. -/
theorem scanNumber_head (l p r : List Char) (h : scanNumber l = some (p, r)) :
    ∃ c cs, l = c :: cs ∧ (c = '-' ∨ c.isDigit = true) := by
  cases l with
  | nil => simp [scanNumber, takeSign, takeDigits] at h
  | cons c cs =>
    refine ⟨c, cs, rfl, ?_⟩
    by_cases hc : c = '-'
    · exact Or.inl hc
    · by_cases hd : c.isDigit = true
      · exact Or.inr hd
      · simp [scanNumber, takeSign, takeDigits, hc, hd] at h


/-- The literal `null` reads as the nil value. -/
theorem parseValue_null (f : Nat) (rest : List Char) :
    parseValue (f + 1) ("null".data ++ rest) = some (.null, rest) := by
  simp [parseValue, skipSpace, isSpace, dropLiteral]

/-- A number literal followed by a separator, or by nothing, reads as the number. -/
theorem parseValue_number (f : Nat) (lit : String) (rest : List Char)
    (hl : scanNumber lit.data = some (lit.data, []))
    (hr : ∀ c r, rest = c :: r → c = ',' ∨ c = '}' ∨ c = ']') :
    parseValue (f + 1) (lit.data ++ rest) = some (.number lit, rest) := by
  obtain ⟨l⟩ := lit
  simp only at hl ⊢
  have hscan : scanNumber (l ++ rest) = some (l, rest) := by
    cases rest with
    | nil => simpa using hl
    | cons c r => simpa using scanNumber_append c r (hr c r rfl) _ _ _ hl
  obtain ⟨c, cs, hc, hd⟩ := scanNumber_head _ _ _ hl
  subst hc
  have hsp : isSpace c = false := by
    rcases hd with rfl | hd
    · decide
    · cases hs : isSpace c with
      | false => rfl
      | true =>
        simp only [isSpace, decide_eq_true_eq] at hs
        rcases hs with rfl | rfl | rfl | rfl <;> simp at hd
  have hne : ∀ x : Char, x.isDigit = false → x ≠ '-' → c ≠ x := by
    intro x hx hx2 e
    subst e
    rcases hd with rfl | hd
    · exact hx2 rfl
    · rw [hx] at hd; cases hd
  have h1 := hne '{' (by decide) (by decide)
  have h2 := hne '[' (by decide) (by decide)
  have h3 := hne '"' (by decide) (by decide)
  have h4 := hne 't' (by decide) (by decide)
  have h5 := hne 'f' (by decide) (by decide)
  have h6 := hne 'n' (by decide) (by decide)
  have hcons : c :: cs ++ rest = c :: (cs ++ rest) := rfl
  rw [hcons] at hscan ⊢
  simp [parseValue, skipSpace, hsp, h1, h2, h3, h4, h5, h6, hscan]

/-- The text of an array, first element then the rest. -/
theorem encodeElements_cons (v : JValue) (xs : List JValue) :
    encodeElements (v :: xs) = encodeValue v ++ encodeElementsRest xs := by
  cases xs with
  | nil => simp [encodeElements, encodeElementsRest]
  | cons m ms => simp [encodeElements, encodeElementsRest]

/-- What it takes for a non-empty member list to be well formed. -/
theorem membersWellFormed_cons (k : String) (v : JValue) (rest : List (String × JValue)) :
    membersWellFormed ((k, v) :: rest) = true ↔
      v.wellFormed = true ∧ membersWellFormed rest = true ∧
        (∀ p, rest.head? = some p → keyLt k p.1) := by
  cases rest with
  | nil => simp [membersWellFormed]
  | cons p rest => simp [membersWellFormed, and_assoc]

/-- The keys of a well-formed member list are pairwise ascending. -/
theorem membersWellFormed_pairwise (ms : List (String × JValue))
    (h : membersWellFormed ms = true) : ms.Pairwise (fun a b => keyLt a.1 b.1) := by
  induction ms with
  | nil => exact List.Pairwise.nil
  | cons m ms ih =>
    obtain ⟨k, v⟩ := m
    obtain ⟨_, hr, hk⟩ := (membersWellFormed_cons k v ms).1 h
    have hp := ih hr
    refine List.Pairwise.cons ?_ hp
    cases ms with
    | nil => intro p hp; cases hp
    | cons m2 ms =>
      have h2 : keyLt k m2.1 := hk m2 rfl
      intro p hp
      rcases List.mem_cons.1 hp with rfl | hp'
      · exact h2
      · have h3 : keyLt m2.1 p.1 := (List.pairwise_cons.1 ‹_›).1 p hp'
        exact (keyLt_iff _ _).2 (lt_trans ((keyLt_iff _ _).1 h2) ((keyLt_iff _ _).1 h3))

/-- Storing well-formed members into the empty map yields the member list. -/
theorem mapInsertAll_wellFormed (ms : List (String × JValue)) (h : membersWellFormed ms = true) :
    mapInsertAll [] ms = ms := by
  simpa using mapInsertAll_sorted ms [] (by simpa using membersWellFormed_pairwise ms h)

/-- The text of a well-formed value starts with a character that is neither
white space nor a closing bracket. -/
theorem encodeValue_head (v : JValue) (h : v.wellFormed = true) :
    ∃ c cs, encodeValue v = c :: cs ∧ isSpace c = false ∧ c ≠ ']' := by
  cases v with
  | null => exact ⟨'n', _, rfl, by decide, by decide⟩
  | bool b => cases b <;> exact ⟨_, _, rfl, by decide, by decide⟩
  | string s => exact ⟨'"', _, rfl, by decide, by decide⟩
  | object ms => exact ⟨'{', encodeMembers ms, by simp [encodeValue], by decide, by decide⟩
  | array xs => exact ⟨'[', encodeElements xs, by simp [encodeValue], by decide, by decide⟩
  | number lit =>
    have hl : scanNumber lit.data = some (lit.data, []) := by
      simpa [JValue.wellFormed] using h
    obtain ⟨c, cs, hc, hd⟩ := scanNumber_head _ _ _ hl
    refine ⟨c, cs, by simp [encodeValue, hc], ?_, ?_⟩
    · rcases hd with rfl | hd
      · decide
      · cases hs : isSpace c with
        | false => rfl
        | true =>
          simp only [isSpace, decide_eq_true_eq] at hs
          rcases hs with rfl | rfl | rfl | rfl <;> simp at hd
    · rintro rfl
      rcases hd with hd | hd
      · cases hd
      · simp at hd

/-- The text of the empty array reads as the empty array. -/
theorem parseValue_empty_array (f : Nat) (rest : List Char) :
    parseValue (f + 1) ('[' :: ']' :: rest) = some (.array [], rest) := by
  simp [parseValue, skipSpace, isSpace]

/-- An array whose elements read as `xs` reads as the array of `xs`. -/
theorem parseValue_array (f : Nat) (c : Char) (cs r : List Char) (xs : List JValue)
    (hsp : isSpace c = false) (hc : c ≠ ']')
    (h : parseElements f (c :: cs) = some (xs, r)) :
    parseValue (f + 1) ('[' :: c :: cs) = some (.array xs, r) := by
  have h0 : isSpace '[' = false := by decide
  simp [parseValue, skipSpace, h0, hsp, hc, h]

/-- Reading the last element of an array. -/
theorem parseElements_last (f : Nat) (v : JValue) (cs r : List Char)
    (h : parseValue f cs = some (v, ']' :: r)) :
    parseElements (f + 1) cs = some ([v], r) := by
  simp [parseElements, skipSpace, isSpace, h]

/-- Reading an element that is followed by further elements. -/
theorem parseElements_more (f : Nat) (v : JValue) (cs r r' : List Char) (xs : List JValue)
    (h : parseValue f cs = some (v, ',' :: r)) (h2 : parseElements f r = some (xs, r')) :
    parseElements (f + 1) cs = some (v :: xs, r') := by
  simp [parseElements, skipSpace, isSpace, h, h2]


/-- The text of a well-formed value is not empty. -/
theorem encodeValue_length_pos_wellFormed (v : JValue) (h : v.wellFormed = true) :
    1 ≤ (encodeValue v).length := by
  obtain ⟨c, cs, hc, _⟩ := encodeValue_head v h
  simp [hc]

/-- The text of a well-formed value reads back as that value when a separator
or nothing follows it, and so do the texts of a non-empty member list and of a
non-empty element list, for any budget of at least the length of the text. -/
theorem parse_encode_wellFormed_fuel (fuel : Nat) :
    (∀ (v : JValue) (rest : List Char), v.wellFormed = true →
      (∀ c r, rest = c :: r → c = ',' ∨ c = '}' ∨ c = ']') →
      (encodeValue v).length ≤ fuel →
      parseValue fuel (encodeValue v ++ rest) = some (v, rest)) ∧
    (∀ (k : String) (v : JValue) (ms : List (String × JValue)) (rest : List Char),
      membersWellFormed ((k, v) :: ms) = true → (encodeMembers ((k, v) :: ms)).length ≤ fuel →
      parseMembers fuel (encodeMembers ((k, v) :: ms) ++ rest) = some ((k, v) :: ms, rest)) ∧
    (∀ (v : JValue) (xs : List JValue) (rest : List Char),
      elementsWellFormed (v :: xs) = true → (encodeElements (v :: xs)).length ≤ fuel →
      parseElements fuel (encodeElements (v :: xs) ++ rest) = some (v :: xs, rest)) := by
  induction fuel with
  | zero =>
    refine ⟨fun v rest hd _ hl => ?_, fun k v ms rest hd hl => ?_, fun v xs rest hd hl => ?_⟩
    · have := encodeValue_length_pos_wellFormed v hd
      omega
    · rw [encodeMembers_cons] at hl
      simp [encodeString] at hl
    · rw [encodeElements_cons] at hl
      have hv : v.wellFormed = true := by
        simp only [elementsWellFormed, Bool.and_eq_true] at hd
        exact hd.1
      have := encodeValue_length_pos_wellFormed v hv
      simp only [List.length_append] at hl
      omega
  | succ f ih =>
    obtain ⟨ihv, ihm, ihe⟩ := ih
    refine ⟨fun v rest hd hrest hl => ?_, fun k v ms rest hd hl => ?_, fun v xs rest hd hl => ?_⟩
    · cases v with
      | null => simpa [encodeValue] using parseValue_null f rest
      | number l =>
        have hlit : scanNumber l.data = some (l.data, []) := by
          simpa [JValue.wellFormed] using hd
        simpa [encodeValue] using parseValue_number f l rest hlit hrest
      | array xs =>
        cases xs with
        | nil => simpa [encodeValue, encodeElements] using parseValue_empty_array f rest
        | cons x xs =>
          have hx : elementsWellFormed (x :: xs) = true := by simpa [JValue.wellFormed] using hd
          have hxv : x.wellFormed = true := by
            simp only [elementsWellFormed, Bool.and_eq_true] at hx
            exact hx.1
          have hl' : (encodeElements (x :: xs)).length ≤ f := by
            simp only [encodeValue, List.length_cons] at hl
            omega
          have h1 := ihe x xs rest hx hl'
          obtain ⟨c, cs, hc, hsp, hne⟩ := encodeValue_head x hxv
          have e2 : encodeElements (x :: xs) ++ rest = c :: (cs ++ encodeElementsRest xs ++ rest) := by
            simp [encodeElements_cons, hc]
          have e : encodeValue (.array (x :: xs)) ++ rest
              = '[' :: c :: (cs ++ encodeElementsRest xs ++ rest) := by
            simp [encodeValue, encodeElements_cons, hc]
          rw [e2] at h1
          rw [e, parseValue_array f c _ _ _ hsp hne h1]
      | bool b =>
        cases b
        · simpa [encodeValue] using parseValue_false f rest
        · simpa [encodeValue] using parseValue_true f rest
      | string s => simpa [encodeValue] using parseValue_string f s rest
      | object ms =>
        cases ms with
        | nil => simpa [encodeValue, encodeMembers] using parseValue_empty_object f rest
        | cons m ms =>
          obtain ⟨k, w⟩ := m
          have hm : membersWellFormed ((k, w) :: ms) = true := by
            simpa [JValue.wellFormed] using hd
          have hl' : (encodeMembers ((k, w) :: ms)).length ≤ f := by
            simp only [encodeValue, List.length_cons] at hl
            omega
          have h1 := ihm k w ms rest hm hl'
          have e : encodeValue (.object ((k, w) :: ms)) ++ rest
              = '{' :: '"' :: (escapeChars k.data ++ '"' :: (':' :: encodeValue w
                  ++ encodeRest ms) ++ rest) := by
            simp [encodeValue, encodeMembers_cons, encodeString]
          have e2 : encodeMembers ((k, w) :: ms) ++ rest
              = '"' :: (escapeChars k.data ++ '"' :: (':' :: encodeValue w
                  ++ encodeRest ms) ++ rest) := by
            simp [encodeMembers_cons, encodeString]
          rw [e2] at h1
          rw [e, parseValue_object f _ _ _ h1, mapInsertAll_wellFormed _ hm]
    · obtain ⟨hv, hr, _⟩ := (membersWellFormed_cons k v ms).1 hd
      rw [encodeMembers_cons] at hl
      have hlen : (encodeValue v).length + (encodeRest ms).length + 3 ≤ f + 1 := by
        simp only [encodeString, List.length_append, List.length_cons, List.length_nil] at hl
        omega
      have hval : ∀ tail, (∀ c r, tail = c :: r → c = ',' ∨ c = '}' ∨ c = ']') →
          parseValue f (encodeValue v ++ tail) = some (v, tail) :=
        fun tail ht => ihv v tail hv ht (by omega)
      have e : encodeMembers ((k, v) :: ms) ++ rest
          = encodeString k ++ ':' :: (encodeValue v ++ (encodeRest ms ++ rest)) := by
        simp [encodeMembers_cons]
      rw [e]
      cases ms with
      | nil =>
        have hlast := hval ('}' :: rest) (fun c r h => by cases h; exact Or.inr (Or.inl rfl))
        exact parseMembers_last f k v _ rest (by simpa [encodeRest] using hlast)
      | cons m ms =>
        obtain ⟨k2, v2⟩ := m
        have hl2 : (encodeMembers ((k2, v2) :: ms)).length ≤ f := by
          simp only [encodeRest, List.length_cons] at hlen
          omega
        have h2 := ihm k2 v2 ms rest hr hl2
        have hmore := hval (',' :: (encodeMembers ((k2, v2) :: ms) ++ rest))
          (fun c r h => by cases h; exact Or.inl rfl)
        exact parseMembers_more f k v _ _ rest _ (by simpa [encodeRest] using hmore) h2
    · have hv : v.wellFormed = true ∧ elementsWellFormed xs = true := by
        simpa [elementsWellFormed] using hd
      rw [encodeElements_cons] at hl
      have hpos := encodeValue_length_pos_wellFormed v hv.1
      have hlen : (encodeValue v).length + (encodeElementsRest xs).length ≤ f + 1 := by
        simpa [List.length_append] using hl
      have hrl : 1 ≤ (encodeElementsRest xs).length := by
        cases xs <;> simp [encodeElementsRest]
      have hval : ∀ tail, (∀ c r, tail = c :: r → c = ',' ∨ c = '}' ∨ c = ']') →
          parseValue f (encodeValue v ++ tail) = some (v, tail) :=
        fun tail ht => ihv v tail hv.1 ht (by omega)
      have e : encodeElements (v :: xs) ++ rest
          = encodeValue v ++ (encodeElementsRest xs ++ rest) := by
        simp [encodeElements_cons]
      rw [e]
      cases xs with
      | nil =>
        have hlast := hval (']' :: rest) (fun c r h => by cases h; exact Or.inr (Or.inr rfl))
        exact parseElements_last f v _ rest (by simpa [encodeElementsRest] using hlast)
      | cons x xs =>
        have hl2 : (encodeElements (x :: xs)).length ≤ f := by
          simp only [encodeElementsRest, List.length_cons] at hlen
          omega
        have h2 := ihe x xs rest hv.2 hl2
        have hmore := hval (',' :: (encodeElements (x :: xs) ++ rest))
          (fun c r h => by cases h; exact Or.inl rfl)
        exact parseElements_more f v _ _ rest _ (by simpa [encodeElementsRest] using hmore) h2

/-- The text of a well-formed value parses back to the value. -/
theorem parseJSON_encodeValue_wellFormed (v : JValue) (h : v.wellFormed = true) :
    parseJSON (encodeValue v) = some v := by
  have h1 := (parse_encode_wellFormed_fuel (2 * (encodeValue v).length + 2)).1 v [] h
    (fun c r e => by cases e) (by omega)
  rw [List.append_nil] at h1
  simp [parseJSON, h1, skipSpace]


/-! ## Lemmas: the reading budget never cuts a parse short -/

/-- Skipping white space does not lengthen the text. -/
theorem skipSpace_length_le (cs : List Char) : (skipSpace cs).length ≤ cs.length := by
  induction cs with
  | nil => simp [skipSpace]
  | cons c cs ih =>
    unfold skipSpace
    split_ifs
    · simp only [List.length_cons]; omega
    · exact le_refl _

/-- Reading four hexadecimal digits consumes four characters. -/
theorem hex4_length (cs r : List Char) (n : Nat) (h : hex4 cs = some (n, r)) :
    r.length + 4 = cs.length := by
  match cs, h with
  | a :: b :: c :: d :: rest, h =>
    simp only [hex4] at h
    cases ha : hexVal a <;> cases hb : hexVal b <;> cases hc : hexVal c <;>
      cases hd : hexVal d <;> simp [ha, hb, hc, hd] at h
    obtain ⟨_, rfl⟩ := h
    simp
  | [], h => simp [hex4] at h
  | [_], h => simp [hex4] at h
  | [_, _], h => simp [hex4] at h
  | [_, _, _], h => simp [hex4] at h

/-- Decoding a `\u` escape does not lengthen the remaining text. -/
theorem decodeU_length_le (r : Nat) (cs : List Char) :
    (decodeU r cs).2.length ≤ cs.length := by
  unfold decodeU
  split_ifs with h1
  · split
    · rename_i b u cs'
      split_ifs with h2
      · split
        · rename_i r2 cs'' hh
          have := hex4_length _ _ _ hh
          split_ifs
          · simp only [List.length_cons]; omega
          · exact le_refl _
        · exact le_refl _
      · exact le_refl _
    · exact le_refl _
  · exact le_refl _

/-- Reading a string body consumes at least one character. -/
theorem parseStringBody_length_lt (f : Nat) :
    ∀ (cs s r : List Char), parseStringBody f cs = some (s, r) → r.length < cs.length := by
  induction f with
  | zero => intro cs s r h; simp [parseStringBody] at h
  | succ f ih =>
    intro cs s r h
    cases cs with
    | nil => simp [parseStringBody] at h
    | cons c cs =>
      unfold parseStringBody at h
      split_ifs at h with h1 h2 h3
      · cases h; simp
      · split at h
        · cases h
        · rename_i e cs'
          split_ifs at h with h4
          · split at h
            · cases h
            · rename_i n cs'' hh
              have hl := hex4_length _ _ _ hh
              have hd := decodeU_length_le n cs''
              split at h
              · cases h
              · rename_i s' rest' hp
                cases h
                have := ih _ _ _ hp
                simp only [List.length_cons]; omega
          · split at h
            · cases h
            · split at h
              · cases h
              · rename_i s' rest' hp
                cases h
                have := ih _ _ _ hp
                simp only [List.length_cons]; omega
      · split at h
        · cases h
        · rename_i s' rest' hp
          cases h
          have := ih _ _ _ hp
          simp only [List.length_cons]; omega

/-- A budget of the length of the text is as good as a larger one for reading a string body. -/
theorem parseStringBody_fuel (f : Nat) :
    ∀ cs : List Char, cs.length ≤ f → parseStringBody (f + 1) cs = parseStringBody f cs := by
  induction f with
  | zero =>
    intro cs h
    have : cs = [] := List.length_eq_zero.1 (by omega)
    subst this
    simp [parseStringBody]
  | succ f ih =>
    intro cs h
    cases cs with
    | nil => simp [parseStringBody]
    | cons c cs =>
      have hcs : cs.length ≤ f := by simp only [List.length_cons] at h; omega
      conv_lhs => unfold parseStringBody
      conv_rhs => unfold parseStringBody
      simp only [ih cs hcs]
      cases cs with
      | nil => rfl
      | cons e cs' =>
        have h1 : cs'.length ≤ f := by simp only [List.length_cons] at hcs; omega
        simp only [ih cs' h1]
        cases hh : hex4 cs' with
        | none => rfl
        | some p =>
          obtain ⟨n, cs''⟩ := p
          have hl := hex4_length _ _ _ hh
          have hd := decodeU_length_le n cs''
          simp only [ih (decodeU n cs'').2 (by omega)]


/-- Reading a string literal consumes at least one character. -/
theorem parseString_length_lt (cs r : List Char) (s : String)
    (h : parseString cs = some (s, r)) : r.length < cs.length := by
  unfold parseString at h
  split at h
  · cases h
  · rename_i s' rest hp
    cases h
    exact parseStringBody_length_lt _ _ _ _ hp

/-- Dropping a literal does not lengthen the text. -/
theorem dropLiteral_length_le (p : List Char) :
    ∀ cs r : List Char, dropLiteral p cs = some r → r.length ≤ cs.length := by
  induction p with
  | nil => intro cs r h; simp [dropLiteral] at h; subst h; exact le_refl _
  | cons a p ih =>
    intro cs r h
    cases cs with
    | nil => simp [dropLiteral] at h
    | cons c cs =>
      unfold dropLiteral at h
      split_ifs at h
      have := ih cs r h
      simp only [List.length_cons]; omega

/-- `takeDigits` splits the text. -/
theorem takeDigits_length (cs : List Char) :
    (takeDigits cs).1.length + (takeDigits cs).2.length = cs.length := by
  induction cs with
  | nil => simp [takeDigits]
  | cons c cs ih =>
    unfold takeDigits
    split_ifs
    · simp only [List.length_cons]; omega
    · simp

/-- `takeSign` splits the text. -/
theorem takeSign_length (cs : List Char) :
    (takeSign cs).1.length + (takeSign cs).2.length = cs.length := by
  cases cs with
  | nil => simp [takeSign]
  | cons c cs =>
    simp only [takeSign]
    split_ifs
    · simp only [List.length_cons, List.length_nil]; omega
    · simp

/-- `takeExpSign` splits the text. -/
theorem takeExpSign_length (cs : List Char) :
    (takeExpSign cs).1.length + (takeExpSign cs).2.length = cs.length := by
  cases cs with
  | nil => simp [takeExpSign]
  | cons c cs =>
    simp only [takeExpSign]
    split_ifs
    · simp only [List.length_cons, List.length_nil]; omega
    · simp

/-- `takeFraction` splits the text. -/
theorem takeFraction_length (cs fp r : List Char) (h : takeFraction cs = some (fp, r)) :
    fp.length + r.length = cs.length := by
  cases cs with
  | nil => simp [takeFraction] at h; obtain ⟨rfl, rfl⟩ := h; rfl
  | cons c cs =>
    simp only [takeFraction] at h
    have := takeDigits_length cs
    split_ifs at h
    · cases h; simp only [List.length_cons]; omega
    · cases h; simp

/-- `takeExponent` splits the text. -/
theorem takeExponent_length (cs ep r : List Char) (h : takeExponent cs = some (ep, r)) :
    ep.length + r.length = cs.length := by
  cases cs with
  | nil => simp [takeExponent] at h; obtain ⟨rfl, rfl⟩ := h; rfl
  | cons c cs =>
    simp only [takeExponent] at h
    have h1 := takeExpSign_length cs
    have h2 := takeDigits_length (takeExpSign cs).2
    split_ifs at h
    · cases h; simp only [List.length_cons, List.length_append]; omega
    · cases h; simp

/-- Reading a number consumes at least one character. -/
theorem scanNumber_length_lt (cs lit r : List Char) (h : scanNumber cs = some (lit, r)) :
    r.length < cs.length := by
  unfold scanNumber at h
  have h1 := takeSign_length cs
  have h2 := takeDigits_length (takeSign cs).2
  split_ifs at h with hc
  split at h
  · cases h
  · rename_i fp r1 hf
    have h3 := takeFraction_length _ _ _ hf
    split at h
    · cases h
    · rename_i ep r2 he
      have h4 := takeExponent_length _ _ _ he
      cases h
      have hpos : 0 < (takeDigits (takeSign cs).2).1.length := by
        rcases hl : (takeDigits (takeSign cs).2).1 with _ | ⟨a, l⟩
        · exact absurd (Or.inl hl) hc
        · simp
      omega

/-- Reading a value, a member list or an element list consumes at least one character. -/
theorem parse_length_lt (f : Nat) :
    (∀ (cs r : List Char) (v : JValue), parseValue f cs = some (v, r) → r.length < cs.length) ∧
    (∀ (cs r : List Char) (ms : List (String × JValue)),
      parseMembers f cs = some (ms, r) → r.length < cs.length) ∧
    (∀ (cs r : List Char) (xs : List JValue),
      parseElements f cs = some (xs, r) → r.length < cs.length) := by
  induction f with
  | zero =>
    refine ⟨fun cs r v h => ?_, fun cs r ms h => ?_, fun cs r xs h => ?_⟩
    · simp [parseValue] at h
    · simp [parseMembers] at h
    · simp [parseElements] at h
  | succ f ih =>
    obtain ⟨ihv, ihm, ihe⟩ := ih
    refine ⟨fun cs r v h => ?_, fun cs r ms h => ?_, fun cs r xs h => ?_⟩
    · have hsk := skipSpace_length_le cs
      simp only [parseValue] at h
      split at h
      · cases h
      · rename_i c rest hs
        rw [hs] at hsk
        simp only [List.length_cons] at hsk
        have hsk2 := skipSpace_length_le rest
        split_ifs at h
        · split at h
          · cases h
          · rename_i d rest' hs2
            rw [hs2] at hsk2
            simp only [List.length_cons] at hsk2
            split_ifs at h
            · cases h; omega
            · split at h
              · cases h
              · rename_i ms r' hp
                cases h
                have := ihm _ _ _ hp
                simp only [List.length_cons] at this
                omega
        · split at h
          · cases h
          · rename_i d rest' hs2
            rw [hs2] at hsk2
            simp only [List.length_cons] at hsk2
            split_ifs at h
            · cases h; omega
            · split at h
              · cases h
              · rename_i xs r' hp
                cases h
                have := ihe _ _ _ hp
                simp only [List.length_cons] at this
                omega
        · split at h
          · cases h
          · rename_i s r' hp
            cases h
            have := parseString_length_lt _ _ _ hp
            omega
        · split at h
          · cases h
          · rename_i r' hp
            cases h
            have := dropLiteral_length_le _ _ _ hp
            omega
        · split at h
          · cases h
          · rename_i r' hp
            cases h
            have := dropLiteral_length_le _ _ _ hp
            omega
        · split at h
          · cases h
          · rename_i r' hp
            cases h
            have := dropLiteral_length_le _ _ _ hp
            omega
        · split at h
          · cases h
          · rename_i lit r' hp
            cases h
            have := scanNumber_length_lt _ _ _ hp
            simp only [List.length_cons] at this
            omega
    · have hsk := skipSpace_length_le cs
      simp only [parseMembers] at h
      split at h
      · cases h
      · rename_i q rest hs
        rw [hs] at hsk
        simp only [List.length_cons] at hsk
        split_ifs at h
        split at h
        · cases h
        · rename_i k r1 hk
          have h1 := parseString_length_lt _ _ _ hk
          have hsk1 := skipSpace_length_le r1
          split at h
          · cases h
          · rename_i colon r2 hs1
            rw [hs1] at hsk1
            simp only [List.length_cons] at hsk1
            split_ifs at h
            split at h
            · cases h
            · rename_i v r3 hv
              have h3 := ihv _ _ _ hv
              have hsk3 := skipSpace_length_le r3
              split at h
              · cases h
              · rename_i sep r4 hs3
                rw [hs3] at hsk3
                simp only [List.length_cons] at hsk3
                split_ifs at h
                · cases h; omega
                · split at h
                  · cases h
                  · rename_i ms' r5 hm
                    cases h
                    have := ihm _ _ _ hm
                    omega
    · simp only [parseElements] at h
      split at h
      · cases h
      · rename_i v r1 hv
        have h1 := ihv _ _ _ hv
        have hsk1 := skipSpace_length_le r1
        split at h
        · cases h
        · rename_i sep r2 hs1
          rw [hs1] at hsk1
          simp only [List.length_cons] at hsk1
          split_ifs at h
          · cases h; omega
          · split at h
            · cases h
            · rename_i xs' r3 he
              cases h
              have := ihe _ _ _ he
              omega

/-- Above twice the length of the text (plus a constant), one more unit of budget changes nothing. -/
theorem parse_fuel_step (f : Nat) :
    (∀ cs : List Char, 2 * cs.length + 2 ≤ f → parseValue (f + 1) cs = parseValue f cs) ∧
    (∀ cs : List Char, 2 * cs.length + 1 ≤ f → parseMembers (f + 1) cs = parseMembers f cs) ∧
    (∀ cs : List Char, 2 * cs.length + 3 ≤ f → parseElements (f + 1) cs = parseElements f cs) := by
  induction f with
  | zero =>
    refine ⟨fun cs h => ?_, fun cs h => ?_, fun cs h => ?_⟩ <;> omega
  | succ f ih =>
    obtain ⟨ihv, ihm, ihe⟩ := ih
    refine ⟨fun cs hb => ?_, fun cs hb => ?_, fun cs hb => ?_⟩
    · have hsk := skipSpace_length_le cs
      simp only [parseValue]
      cases hs : skipSpace cs with
      | nil => rfl
      | cons c rest =>
        rw [hs] at hsk
        simp only [List.length_cons] at hsk
        have hsk2 := skipSpace_length_le rest
        simp only
        cases hs2 : skipSpace rest with
        | nil => rfl
        | cons d rest' =>
          rw [hs2] at hsk2
          simp only [List.length_cons] at hsk2
          simp only
          rw [ihm (d :: rest') (by simp only [List.length_cons]; omega),
            ihe (d :: rest') (by simp only [List.length_cons]; omega)]
    · have hsk := skipSpace_length_le cs
      conv_lhs => rw [parseMembers]
      conv_rhs => rw [parseMembers]
      cases hs : skipSpace cs with
      | nil => rfl
      | cons q rest =>
        rw [hs] at hsk
        simp only [List.length_cons] at hsk
        simp only
        cases hk : parseString rest with
        | none => rfl
        | some p =>
          obtain ⟨k, r1⟩ := p
          have h1 := parseString_length_lt _ _ _ hk
          have hsk1 := skipSpace_length_le r1
          simp only
          cases hs1 : skipSpace r1 with
          | nil => rfl
          | cons colon r2 =>
            rw [hs1] at hsk1
            simp only [List.length_cons] at hsk1
            simp only
            rw [ihv r2 (by omega)]
            cases hv : parseValue f r2 with
            | none => rfl
            | some p2 =>
              obtain ⟨v, r3⟩ := p2
              have h3 := (parse_length_lt f).1 _ _ _ hv
              have hsk3 := skipSpace_length_le r3
              simp only
              cases hs3 : skipSpace r3 with
              | nil => rfl
              | cons sep r4 =>
                rw [hs3] at hsk3
                simp only [List.length_cons] at hsk3
                simp only
                rw [ihm r4 (by omega)]
    · conv_lhs => rw [parseElements]
      conv_rhs => rw [parseElements]
      rw [ihv cs (by omega)]
      cases hv : parseValue f cs with
      | none => rfl
      | some p =>
        obtain ⟨v, r1⟩ := p
        have h1 := (parse_length_lt f).1 _ _ _ hv
        have hsk1 := skipSpace_length_le r1
        simp only
        cases hs1 : skipSpace r1 with
        | nil => rfl
        | cons sep r2 =>
          rw [hs1] at hsk1
          simp only [List.length_cons] at hsk1
          simp only
          rw [ihe r2 (by omega)]

/-- The budget `parseJSON` gives `parseValue` is as good as any larger one: no parse is cut short. -/
theorem parseValue_fuel_stable (cs : List Char) (f : Nat) (h : 2 * cs.length + 2 ≤ f) :
    parseValue f cs = parseValue (2 * cs.length + 2) cs := by
  induction f with
  | zero => omega
  | succ f ih =>
    rcases Nat.lt_or_ge f (2 * cs.length + 2) with hlt | hge
    · have : f + 1 = 2 * cs.length + 2 := by omega
      rw [this]
    · rw [(parse_fuel_step f).1 cs hge, ih hge]

/-- The budget `parseString` gives is as good as any larger one. -/
theorem parseStringBody_fuel_stable (cs : List Char) (f : Nat) (h : cs.length ≤ f) :
    parseStringBody f cs = parseStringBody cs.length cs := by
  induction f with
  | zero =>
    have : cs.length = 0 := by omega
    rw [this]
  | succ f ih =>
    rcases Nat.lt_or_ge f cs.length with hlt | hge
    · have : f + 1 = cs.length := by omega
      rw [this]
    · rw [parseStringBody_fuel f cs hge, ih hge]

/-- A budget of twice the length of the text plus one is as good as any larger one for reading members. -/
theorem parseMembers_fuel_stable (cs : List Char) (f : Nat) (h : 2 * cs.length + 1 ≤ f) :
    parseMembers f cs = parseMembers (2 * cs.length + 1) cs := by
  induction f with
  | zero => omega
  | succ f ih =>
    rcases Nat.lt_or_ge f (2 * cs.length + 1) with hlt | hge
    · have : f + 1 = 2 * cs.length + 1 := by omega
      rw [this]
    · rw [(parse_fuel_step f).2.1 cs hge, ih hge]

/-! ## Lemmas: the reader accepts well-formed JSON text only -/

/-- What `skipSpace` drops is a run of white space. -/
theorem skipSpace_split (cs : List Char) :
    ∃ w, IsWs w ∧ cs = w ++ skipSpace cs := by
  induction cs with
  | nil => exact ⟨[], fun _ h => (by cases h), rfl⟩
  | cons c cs ih =>
    obtain ⟨w, hw, he⟩ := ih
    unfold skipSpace
    split_ifs with h
    · refine ⟨c :: w, ?_, by rw [List.cons_append, ← he]⟩
      intro x hx
      rcases List.mem_cons.1 hx with rfl | hx
      · exact h
      · exact hw x hx
    · exact ⟨[], fun _ h => (by cases h), rfl⟩

/-- What `hex4` reads is four hexadecimal digits. -/
theorem hex4_split (cs r : List Char) (n : Nat) (h : hex4 cs = some (n, r)) :
    ∃ h1 h2 h3 h4, IsHex h1 ∧ IsHex h2 ∧ IsHex h3 ∧ IsHex h4 ∧ cs = h1 :: h2 :: h3 :: h4 :: r := by
  match cs, h with
  | a :: b :: c :: d :: rest, h =>
    simp only [hex4] at h
    cases ha : hexVal a <;> cases hb : hexVal b <;> cases hc : hexVal c <;>
      cases hd : hexVal d <;> simp [ha, hb, hc, hd] at h
    obtain ⟨_, rfl⟩ := h
    exact ⟨a, b, c, d, by simp [IsHex, ha], by simp [IsHex, hb], by simp [IsHex, hc],
      by simp [IsHex, hd], rfl⟩
  | [], h => simp [hex4] at h
  | [_], h => simp [hex4] at h
  | [_, _], h => simp [hex4] at h
  | [_, _, _], h => simp [hex4] at h

/-- What `decodeU` consumes is nothing or one further `\u` escape. -/
theorem decodeU_split (r : Nat) (cs : List Char) :
    (decodeU r cs).2 = cs ∨
    ∃ h1 h2 h3 h4, IsHex h1 ∧ IsHex h2 ∧ IsHex h3 ∧ IsHex h4 ∧
      cs = '\\' :: 'u' :: h1 :: h2 :: h3 :: h4 :: (decodeU r cs).2 := by
  unfold decodeU
  split_ifs with h1
  · split
    · rename_i b u cs'
      split_ifs with h2
      · split
        · rename_i r2 cs'' hh
          obtain ⟨a, b', c, d, ha, hb, hc, hd, he⟩ := hex4_split _ _ _ hh
          split_ifs
          · right
            obtain ⟨rfl, rfl, _⟩ := h2
            exact ⟨a, b', c, d, ha, hb, hc, hd, by rw [he]⟩
          · left; rfl
        · left; rfl
      · left; rfl
    · left; rfl
  · left; rfl

/-- What the string reader consumes is a string body followed by the closing quote. -/
theorem parseStringBody_sound (f : Nat) :
    ∀ (cs s r : List Char), parseStringBody f cs = some (s, r) →
      ∃ b, StringBody b ∧ cs = b ++ '"' :: r := by
  induction f with
  | zero => intro cs s r h; simp [parseStringBody] at h
  | succ f ih =>
    intro cs s r h
    cases cs with
    | nil => simp [parseStringBody] at h
    | cons c cs =>
      unfold parseStringBody at h
      split_ifs at h with h1 h2 h3
      · cases h
        subst h1
        exact ⟨[], StringBody.done, rfl⟩
      · subst h2
        split at h
        · cases h
        · rename_i e cs'
          split_ifs at h with h4
          · subst h4
            split at h
            · cases h
            · rename_i n cs'' hh
              obtain ⟨a, b', c', d, ha, hb, hc, hd, he⟩ := hex4_split _ _ _ hh
              split at h
              · cases h
              · rename_i s' rest' hp
                cases h
                obtain ⟨body, hbody, hcs⟩ := ih _ _ _ hp
                rcases decodeU_split n cs'' with hd0 | ⟨a2, b2, c2, d2, ha2, hb2, hc2, hd2, he2⟩
                · refine ⟨'\\' :: 'u' :: a :: b' :: c' :: d :: body,
                    StringBody.unicode _ _ _ _ _ ha hb hc hd hbody, ?_⟩
                  rw [he, ← hd0, hcs]
                  rfl
                · refine ⟨'\\' :: 'u' :: a :: b' :: c' :: d ::
                    '\\' :: 'u' :: a2 :: b2 :: c2 :: d2 :: body,
                    StringBody.unicode _ _ _ _ _ ha hb hc hd
                      (StringBody.unicode _ _ _ _ _ ha2 hb2 hc2 hd2 hbody), ?_⟩
                  rw [he, he2, hcs]
                  rfl
          · split at h
            · cases h
            · rename_i ch hu
              split at h
              · cases h
              · rename_i s' rest' hp
                cases h
                obtain ⟨body, hbody, hcs⟩ := ih _ _ _ hp
                refine ⟨'\\' :: e :: body, StringBody.escape _ _ (by simp [hu]) hbody, ?_⟩
                rw [hcs]
                rfl
      · split at h
        · cases h
        · rename_i s' rest' hp
          cases h
          obtain ⟨body, hbody, hcs⟩ := ih _ _ _ hp
          refine ⟨c :: body, StringBody.plain _ _ h1 h2 (by omega) hbody, ?_⟩
          rw [hcs]
          rfl


/-- `takeDigits` splits off a run of digits. -/
theorem takeDigits_split (cs : List Char) :
    cs = (takeDigits cs).1 ++ (takeDigits cs).2 ∧ ∀ c ∈ (takeDigits cs).1, c.isDigit = true := by
  induction cs with
  | nil => simp [takeDigits]
  | cons c cs ih =>
    unfold takeDigits
    split_ifs with h
    · refine ⟨by simp only [List.cons_append]; rw [← ih.1], ?_⟩
      intro x hx
      rcases List.mem_cons.1 hx with rfl | hx
      · exact h
      · exact ih.2 x hx
    · exact ⟨rfl, fun _ hx => (by cases hx)⟩

/-- `takeSign` splits off nothing or a minus sign. -/
theorem takeSign_split (cs : List Char) :
    cs = (takeSign cs).1 ++ (takeSign cs).2 ∧ ((takeSign cs).1 = [] ∨ (takeSign cs).1 = ['-']) := by
  cases cs with
  | nil => simp [takeSign]
  | cons c cs =>
    simp only [takeSign]
    split_ifs with h
    · subst h; exact ⟨rfl, Or.inr rfl⟩
    · exact ⟨rfl, Or.inl rfl⟩

/-- `takeExpSign` splits off nothing or a sign. -/
theorem takeExpSign_split (cs : List Char) :
    cs = (takeExpSign cs).1 ++ (takeExpSign cs).2 ∧
      ((takeExpSign cs).1 = [] ∨ (takeExpSign cs).1 = ['+'] ∨ (takeExpSign cs).1 = ['-']) := by
  cases cs with
  | nil => simp [takeExpSign]
  | cons c cs =>
    simp only [takeExpSign]
    split_ifs with h
    · rcases h with rfl | rfl
      · exact ⟨rfl, Or.inr (Or.inl rfl)⟩
      · exact ⟨rfl, Or.inr (Or.inr rfl)⟩
    · exact ⟨rfl, Or.inl rfl⟩

/-- `takeFraction` splits off nothing or a dot with digits. -/
theorem takeFraction_split (cs fp r : List Char) (h : takeFraction cs = some (fp, r)) :
    cs = fp ++ r ∧ (fp = [] ∨ ∃ ds, IsDigits ds ∧ fp = '.' :: ds) := by
  cases cs with
  | nil => simp [takeFraction] at h; obtain ⟨rfl, rfl⟩ := h; exact ⟨rfl, Or.inl rfl⟩
  | cons c cs =>
    simp only [takeFraction] at h
    have hd := takeDigits_split cs
    split_ifs at h with h1 h2
    · cases h
      subst h1
      refine ⟨by simp only [List.cons_append]; rw [← hd.1], Or.inr ⟨_, ⟨h2, hd.2⟩, rfl⟩⟩
    · cases h; exact ⟨rfl, Or.inl rfl⟩

/-- `takeExponent` splits off nothing or an exponent. -/
theorem takeExponent_split (cs ep r : List Char) (h : takeExponent cs = some (ep, r)) :
    cs = ep ++ r ∧ (ep = [] ∨ ∃ e sg ds, (e = 'e' ∨ e = 'E') ∧
      (sg = [] ∨ sg = ['+'] ∨ sg = ['-']) ∧ IsDigits ds ∧ ep = e :: (sg ++ ds)) := by
  cases cs with
  | nil => simp [takeExponent] at h; obtain ⟨rfl, rfl⟩ := h; exact ⟨rfl, Or.inl rfl⟩
  | cons c cs =>
    simp only [takeExponent] at h
    have hs := takeExpSign_split cs
    have hd := takeDigits_split (takeExpSign cs).2
    split_ifs at h with h1 h2
    · cases h
      refine ⟨?_, Or.inr ⟨c, _, _, h1, hs.2, ⟨h2, hd.2⟩, rfl⟩⟩
      simp only [List.cons_append, List.append_assoc]
      rw [← hd.1, ← hs.1]
    · cases h; exact ⟨rfl, Or.inl rfl⟩

/-- What `scanNumber` reads is a number literal. -/
theorem scanNumber_sound (cs lit r : List Char) (h : scanNumber cs = some (lit, r)) :
    cs = lit ++ r ∧ NumberLit lit := by
  unfold scanNumber at h
  have h1 := takeSign_split cs
  have h2 := takeDigits_split (takeSign cs).2
  split_ifs at h with hc
  split at h
  · cases h
  · rename_i fp r1 hf
    have h3 := takeFraction_split _ _ _ hf
    split at h
    · cases h
    · rename_i ep r2 he
      have h4 := takeExponent_split _ _ _ he
      cases h
      refine ⟨?_, _, _, _, _, rfl, h1.2, ⟨fun e => hc (Or.inl e), h2.2⟩, ?_, h3.2, h4.2⟩
      · simp only [List.append_assoc]
        rw [← h4.1, ← h3.1, ← h2.1, ← h1.1]
      · intro h0
        by_contra hne
        exact hc (Or.inr ⟨h0, hne⟩)


/-- `dropLiteral` drops exactly the literal. -/
theorem dropLiteral_split (p : List Char) :
    ∀ cs r : List Char, dropLiteral p cs = some r → cs = p ++ r := by
  induction p with
  | nil => intro cs r h; simp [dropLiteral] at h; subst h; rfl
  | cons a p ih =>
    intro cs r h
    cases cs with
    | nil => simp [dropLiteral] at h
    | cons c cs =>
      unfold dropLiteral at h
      split_ifs at h with hac
      rw [hac, ih cs r h]
      rfl

/-- What `parseString` consumes is a string body followed by the closing quote. -/
theorem parseString_sound (cs r : List Char) (s : String)
    (h : parseString cs = some (s, r)) : ∃ b, StringBody b ∧ cs = b ++ '"' :: r := by
  unfold parseString at h
  split at h
  · cases h
  · rename_i s' rest hp
    cases h
    exact parseStringBody_sound _ _ _ _ hp

/-- What the value reader consumes is white space and the text of a value; what the member and element readers consume is the inside of an object or array up to its closing bracket. -/
theorem parse_sound (f : Nat) :
    (∀ (cs r : List Char) (v : JValue), parseValue f cs = some (v, r) →
      ∃ w t, IsWs w ∧ ValueText t ∧ cs = w ++ (t ++ r)) ∧
    (∀ (cs r : List Char) (ms : List (String × JValue)), parseMembers f cs = some (ms, r) →
      ∃ t, MembersText t ∧ cs = t ++ '}' :: r) ∧
    (∀ (cs r : List Char) (xs : List JValue), parseElements f cs = some (xs, r) →
      ∃ t, ElementsText t ∧ cs = t ++ ']' :: r) := by
  induction f with
  | zero =>
    refine ⟨fun cs r v h => ?_, fun cs r ms h => ?_, fun cs r xs h => ?_⟩
    · simp [parseValue] at h
    · simp [parseMembers] at h
    · simp [parseElements] at h
  | succ f ih =>
    obtain ⟨ihv, ihm, ihe⟩ := ih
    refine ⟨fun cs r v h => ?_, fun cs r ms h => ?_, fun cs r xs h => ?_⟩
    · obtain ⟨w, hw, hcs⟩ := skipSpace_split cs
      simp only [parseValue] at h
      split at h
      · cases h
      · rename_i c rest hs
        rw [hs] at hcs
        obtain ⟨w2, hw2, hrest⟩ := skipSpace_split rest
        split_ifs at h with hc1 hc2 hc3 hc4 hc5 hc6
        · subst hc1
          split at h
          · cases h
          · rename_i d rest' hs2
            rw [hs2] at hrest
            split_ifs at h with hd
            · cases h
              subst hd
              refine ⟨w, _, hw, ValueText.emptyObject w2 hw2, ?_⟩
              rw [hcs, hrest]; simp
            · split at h
              · cases h
              · rename_i ms r' hp
                cases h
                obtain ⟨t, ht, he⟩ := ihm _ _ _ hp
                refine ⟨w, _, hw, ValueText.object w2 t hw2 ht, ?_⟩
                rw [hcs, hrest, he]; simp
        · subst hc2
          split at h
          · cases h
          · rename_i d rest' hs2
            rw [hs2] at hrest
            split_ifs at h with hd
            · cases h
              subst hd
              refine ⟨w, _, hw, ValueText.emptyArray w2 hw2, ?_⟩
              rw [hcs, hrest]; simp
            · split at h
              · cases h
              · rename_i xs r' hp
                cases h
                obtain ⟨t, ht, he⟩ := ihe _ _ _ hp
                refine ⟨w, _, hw, ValueText.array w2 t hw2 ht, ?_⟩
                rw [hcs, hrest, he]; simp
        · subst hc3
          split at h
          · cases h
          · rename_i s r' hp
            cases h
            obtain ⟨b, hb, he⟩ := parseString_sound _ _ _ hp
            refine ⟨w, _, hw, ValueText.string b hb, ?_⟩
            rw [hcs, he]; simp
        · subst hc4
          split at h
          · cases h
          · rename_i r' hp
            cases h
            refine ⟨w, _, hw, ValueText.litTrue, ?_⟩
            rw [hcs, dropLiteral_split _ _ _ hp]; rfl
        · subst hc5
          split at h
          · cases h
          · rename_i r' hp
            cases h
            refine ⟨w, _, hw, ValueText.litFalse, ?_⟩
            rw [hcs, dropLiteral_split _ _ _ hp]; rfl
        · subst hc6
          split at h
          · cases h
          · rename_i r' hp
            cases h
            refine ⟨w, _, hw, ValueText.null, ?_⟩
            rw [hcs, dropLiteral_split _ _ _ hp]; rfl
        · split at h
          · cases h
          · rename_i lit r' hp
            cases h
            obtain ⟨he, hn⟩ := scanNumber_sound _ _ _ hp
            exact ⟨w, lit, hw, ValueText.number lit hn, by rw [hcs, he]⟩
    · obtain ⟨w1, hw1, hcs⟩ := skipSpace_split cs
      simp only [parseMembers] at h
      split at h
      · cases h
      · rename_i q rest hs
        rw [hs] at hcs
        split_ifs at h with hq
        subst hq
        split at h
        · cases h
        · rename_i k r1 hk
          obtain ⟨kb, hkb, hrest⟩ := parseString_sound _ _ _ hk
          obtain ⟨w2, hw2, hr1⟩ := skipSpace_split r1
          split at h
          · cases h
          · rename_i colon r2 hs1
            rw [hs1] at hr1
            split_ifs at h with hcolon
            subst hcolon
            split at h
            · cases h
            · rename_i v r3 hv
              obtain ⟨w3, t, hw3, ht, hr2⟩ := ihv _ _ _ hv
              obtain ⟨w4, hw4, hr3⟩ := skipSpace_split r3
              split at h
              · cases h
              · rename_i sep r4 hs3
                rw [hs3] at hr3
                split_ifs at h with hsep1 hsep2
                · cases h
                  subst hsep1
                  refine ⟨_, MembersText.last w1 kb w2 w3 t w4 hw1 hkb hw2 hw3 ht hw4, ?_⟩
                  rw [hcs, hrest, hr1, hr2, hr3]; simp
                · split at h
                  · cases h
                  · rename_i ms' r5 hm
                    cases h
                    subst hsep2
                    obtain ⟨t', ht', hr4⟩ := ihm _ _ _ hm
                    refine ⟨_, MembersText.more w1 kb w2 w3 t w4 t' hw1 hkb hw2 hw3 ht hw4 ht', ?_⟩
                    rw [hcs, hrest, hr1, hr2, hr3, hr4]; simp
    · simp only [parseElements] at h
      split at h
      · cases h
      · rename_i v r1 hv
        obtain ⟨w1, t, hw1, ht, hcs⟩ := ihv _ _ _ hv
        obtain ⟨w2, hw2, hr1⟩ := skipSpace_split r1
        split at h
        · cases h
        · rename_i sep r2 hs1
          rw [hs1] at hr1
          split_ifs at h with hsep1 hsep2
          · cases h
            subst hsep1
            refine ⟨_, ElementsText.last w1 t w2 hw1 ht hw2, ?_⟩
            rw [hcs, hr1]; simp
          · split at h
            · cases h
            · rename_i xs' r3 he
              cases h
              subst hsep2
              obtain ⟨t', ht', hr2⟩ := ihe _ _ _ he
              refine ⟨_, ElementsText.more w1 t w2 t' hw1 ht hw2 ht', ?_⟩
              rw [hcs, hr1, hr2]; simp

/-- Every text `parseJSON` accepts is a well-formed JSON text. -/
theorem parseJSON_sound (text : List Char) (v : JValue) (h : parseJSON text = some v) :
    JSONText text := by
  unfold parseJSON at h
  split at h
  · cases h
  · rename_i v' rest hp
    split_ifs at h with hr
    obtain ⟨w, t, hw, ht, he⟩ := (parse_sound _).1 _ _ _ hp
    obtain ⟨w2, hw2, hrest⟩ := skipSpace_split rest
    rw [hr, List.append_nil] at hrest
    exact ⟨w, t, rest, hw, ht, hrest ▸ hw2, by rw [he]; simp⟩


/-- The text `{` alone is not well-formed JSON. -/
theorem not_JSONText_open_brace : ¬ JSONText ['{'] := by
  rintro ⟨w1, v, w2, hw1, hv, hw2, he⟩
  have hv1 : v = ['{'] := by
    cases w1 with
    | cons c w1 =>
      simp only [List.cons_append, List.cons.injEq] at he
      have := hw1 c (List.mem_cons_self _ _)
      rw [← he.1] at this
      exact absurd this (by decide)
    | nil =>
      cases v with
      | nil =>
        exfalso
        generalize ht : ([] : List Char) = t at hv
        cases hv <;> simp at ht
        rename_i hn
        obtain ⟨sign, int, frac, exp, h0, _, hd, _⟩ := hn
        subst h0
        simp at ht
        exact hd.1 ht.2.1
      | cons c v =>
        simp only [List.nil_append, List.cons_append, List.cons.injEq] at he
        have hv0 : v = [] := by
          cases v with
          | nil => rfl
          | cons d v => simp at he
        rw [hv0, ← he.1]
  subst hv1
  generalize ht : ['{'] = t at hv
  cases hv <;> try simp at ht
  rename_i hn
  subst ht
  obtain ⟨sign, int, frac, exp, h0, hs, hd, _⟩ := hn
  rcases hs with rfl | rfl
  · rcases int with _ | ⟨d, int⟩
    · exact hd.1 rfl
    · simp only [List.nil_append, List.cons_append, List.cons.injEq] at h0
      have := hd.2 d (List.mem_cons_self _ _)
      rw [← h0.1] at this
      exact absurd this (by decide)
  · simp at h0

/-! ## Lemmas: decoded values are well formed -/

/-- A run of digits is split off whole when no digit follows it. -/
theorem takeDigits_digits (rest : List Char) (hr : ∀ c r, rest = c :: r → c.isDigit = false) :
    ∀ ds : List Char, (∀ c ∈ ds, c.isDigit = true) → takeDigits (ds ++ rest) = (ds, rest) := by
  intro ds
  induction ds with
  | nil =>
    intro _
    cases rest with
    | nil => rfl
    | cons c r => simp [takeDigits, hr c r rfl]
  | cons d ds ih =>
    intro hd
    have h1 := ih (fun c hc => hd c (List.mem_cons_of_mem _ hc))
    simp [takeDigits, hd d (List.mem_cons_self _ _), h1]

/-- The head of a run of digits is a digit. -/
theorem isDigits_head (ds : List Char) (h : IsDigits ds) :
    ∃ c cs, ds = c :: cs ∧ c.isDigit = true := by
  cases ds with
  | nil => exact absurd rfl h.1
  | cons c cs => exact ⟨c, cs, rfl, h.2 c (List.mem_cons_self _ _)⟩

/-- A number literal is read whole by `scanNumber`. -/
theorem scanNumber_complete (lit : List Char) (h : NumberLit lit) :
    scanNumber lit = some (lit, []) := by
  obtain ⟨sign, int, frac, exp, rfl, hsign, hint, hzero, hfrac, hexp⟩ := h
  obtain ⟨i0, is, hi, hi0⟩ := isDigits_head int hint
  -- what follows the exponent digits, the fraction digits and the integer digits
  have hexp_head : ∀ c r, exp = c :: r → c.isDigit = false ∧ c ≠ '.' := by
    intro c r hc
    rcases hexp with rfl | ⟨e, sg, ds, he, _, _, rfl⟩
    · cases hc
    · simp only [List.cons.injEq] at hc
      obtain ⟨rfl, _⟩ := hc
      rcases he with rfl | rfl <;> exact ⟨by decide, by decide⟩
  have hfe_head : ∀ c r, frac ++ exp = c :: r → c.isDigit = false := by
    intro c r hc
    rcases hfrac with rfl | ⟨ds, _, rfl⟩
    · exact (hexp_head c r (by simpa using hc)).1
    · simp only [List.cons_append, List.cons.injEq] at hc
      obtain ⟨rfl, _⟩ := hc
      decide
  have hs : takeSign (sign ++ int ++ frac ++ exp) = (sign, int ++ (frac ++ exp)) := by
    rcases hsign with rfl | rfl
    · have : i0 ≠ '-' := by rintro rfl; simp at hi0
      simp [hi, takeSign, this]
    · simp [takeSign]
  have hd : takeDigits (int ++ (frac ++ exp)) = (int, frac ++ exp) :=
    takeDigits_digits _ hfe_head int hint.2
  have hf : takeFraction (frac ++ exp) = some (frac, exp) := by
    rcases hfrac with rfl | ⟨ds, hds, rfl⟩
    · cases hx : exp with
      | nil => rfl
      | cons c r => simp [takeFraction, (hexp_head c r hx).2]
    · have := takeDigits_digits exp (fun c r hc => (hexp_head c r hc).1) ds hds.2
      simp [takeFraction, this, hds.1]
  have he : takeExponent exp = some (exp, []) := by
    rcases hexp with rfl | ⟨e, sg, ds, he, hsg, hds, rfl⟩
    · rfl
    · obtain ⟨d0, dr, hd0, hd0d⟩ := isDigits_head ds hds
      have hes : takeExpSign (sg ++ ds) = (sg, ds) := by
        rcases hsg with rfl | rfl | rfl
        · have h1 : d0 ≠ '+' := by rintro rfl; simp at hd0d
          have h2 : d0 ≠ '-' := by rintro rfl; simp at hd0d
          simp [hd0, takeExpSign, h1, h2]
        · simp [takeExpSign]
        · simp [takeExpSign]
      have hdd : takeDigits ds = (ds, []) := by
        simpa using takeDigits_digits [] (fun c r hc => by cases hc) ds hds.2
      simp [takeExponent, he, hes, hdd, hds.1]
  have hcond : ¬ (int = [] ∨ (int.head? = some '0' ∧ int.length ≠ 1)) := by
    rintro (h0 | ⟨h1, h2⟩)
    · exact hint.1 h0
    · exact h2 (hzero h1)
  unfold scanNumber
  simp only [hs, hd, hcond, if_false, hf, he]


/-- The first key of a map after `mapInsert` is the new key or the old first key. -/
theorem mapInsert_head (k : String) (v : JValue) (acc : JMap) (p : String × JValue)
    (h : (mapInsert k v acc).head? = some p) :
    p.1 = k ∨ ∃ q, acc.head? = some q ∧ q.1 = p.1 := by
  cases acc with
  | nil =>
    simp only [mapInsert, List.head?_cons, Option.some.injEq] at h
    exact Or.inl (by rw [← h])
  | cons q acc =>
    obtain ⟨k', v'⟩ := q
    simp only [mapInsert] at h
    split_ifs at h with h1 h2
    · simp only [List.head?_cons, Option.some.injEq] at h
      exact Or.inl (by rw [← h])
    · simp only [List.head?_cons, Option.some.injEq] at h
      exact Or.inl (by rw [← h])
    · simp only [List.head?_cons, Option.some.injEq] at h
      exact Or.inr ⟨(k', v'), rfl, by rw [← h]⟩

/-- Storing a well-formed value under a key keeps a map listing well formed. -/
theorem mapInsert_wellFormed (k : String) (v : JValue) (hv : v.wellFormed = true) :
    ∀ acc : JMap, membersWellFormed acc = true → membersWellFormed (mapInsert k v acc) = true := by
  intro acc
  induction acc with
  | nil =>
    intro _
    exact (membersWellFormed_cons k v []).2 ⟨hv, rfl, fun p hp => by cases hp⟩
  | cons q acc ih =>
    intro h
    obtain ⟨k', v'⟩ := q
    obtain ⟨hv', hr, hk⟩ := (membersWellFormed_cons k' v' acc).1 h
    simp only [mapInsert]
    split_ifs with h1 h2
    · subst h1
      exact (membersWellFormed_cons k v acc).2 ⟨hv, hr, hk⟩
    · refine (membersWellFormed_cons k v _).2 ⟨hv, h, fun p hp => ?_⟩
      simp only [List.head?_cons, Option.some.injEq] at hp
      rw [← hp]
      exact h2
    · refine (membersWellFormed_cons k' v' _).2 ⟨hv', ih hr, fun p hp => ?_⟩
      rcases mapInsert_head k v acc p hp with hpk | ⟨q, hq, hqp⟩
      · rw [hpk]
        have hlt : ¬ k < k' := fun e => h2 ((keyLt_iff _ _).2 e)
        have : k' < k := lt_of_le_of_ne (not_lt.1 hlt) (fun e => h1 e.symm)
        exact (keyLt_iff _ _).2 this
      · rw [← hqp]
        exact hk q hq

/-- Storing members with well-formed values keeps a map listing well formed. -/
theorem mapInsertAll_keeps_wellFormed (ms : List (String × JValue))
    (hms : ∀ p ∈ ms, p.2.wellFormed = true) :
    ∀ acc : JMap, membersWellFormed acc = true →
      membersWellFormed (mapInsertAll acc ms) = true := by
  induction ms with
  | nil => intro acc h; simpa [mapInsertAll] using h
  | cons m ms ih =>
    intro acc h
    have h1 := mapInsert_wellFormed m.1 m.2 (hms m (List.mem_cons_self _ _)) acc h
    have := ih (fun p hp => hms p (List.mem_cons_of_mem _ hp)) _ h1
    simpa [mapInsertAll] using this

/-- Every value the reader returns is well formed, and so are the values of
the members and the elements it returns. -/
theorem parse_wellFormed (f : Nat) :
    (∀ (cs : List Char) (v : JValue) (r : List Char),
      parseValue f cs = some (v, r) → v.wellFormed = true) ∧
    (∀ (cs : List Char) (ms : List (String × JValue)) (r : List Char),
      parseMembers f cs = some (ms, r) → ∀ p ∈ ms, p.2.wellFormed = true) ∧
    (∀ (cs : List Char) (xs : List JValue) (r : List Char),
      parseElements f cs = some (xs, r) → elementsWellFormed xs = true) := by
  induction f with
  | zero =>
    refine ⟨fun cs v r h => ?_, fun cs ms r h => ?_, fun cs xs r h => ?_⟩
    · simp [parseValue] at h
    · simp [parseMembers] at h
    · simp [parseElements] at h
  | succ f ih =>
    obtain ⟨ihv, ihm, ihe⟩ := ih
    refine ⟨fun cs v r h => ?_, fun cs ms r h => ?_, fun cs xs r h => ?_⟩
    · simp only [parseValue] at h
      split at h
      · cases h
      · rename_i c rest hs
        split_ifs at h with hc1 hc2 hc3 hc4 hc5 hc6
        · split at h
          · cases h
          · rename_i d rest' hs2
            split_ifs at h with hd
            · cases h; rfl
            · split at h
              · cases h
              · rename_i ms r' hp
                cases h
                have := mapInsertAll_keeps_wellFormed ms (ihm _ _ _ hp) [] rfl
                simpa [JValue.wellFormed] using this
        · split at h
          · cases h
          · rename_i d rest' hs2
            split_ifs at h with hd
            · cases h; rfl
            · split at h
              · cases h
              · rename_i xs r' hp
                cases h
                simpa [JValue.wellFormed] using ihe _ _ _ hp
        · split at h
          · cases h
          · cases h; rfl
        · split at h
          · cases h
          · cases h; rfl
        · split at h
          · cases h
          · cases h; rfl
        · split at h
          · cases h
          · cases h; rfl
        · split at h
          · cases h
          · rename_i lit r' hp
            cases h
            have hn := (scanNumber_sound _ _ _ hp).2
            simpa [JValue.wellFormed] using scanNumber_complete lit hn
    · simp only [parseMembers] at h
      split at h
      · cases h
      · rename_i q rest hs
        split_ifs at h with hq
        split at h
        · cases h
        · rename_i k r1 hk
          split at h
          · cases h
          · rename_i colon r2 hs1
            split_ifs at h with hcolon
            split at h
            · cases h
            · rename_i v r3 hv
              split at h
              · cases h
              · rename_i sep r4 hs3
                split_ifs at h with hsep1 hsep2
                · cases h
                  intro p hp
                  simp only [List.mem_singleton] at hp
                  subst hp
                  exact ihv _ _ _ hv
                · split at h
                  · cases h
                  · rename_i ms' r5 hm
                    cases h
                    intro p hp
                    rcases List.mem_cons.1 hp with rfl | hp
                    · exact ihv _ _ _ hv
                    · exact ihm _ _ _ hm p hp
    · simp only [parseElements] at h
      split at h
      · cases h
      · rename_i v r1 hv
        split at h
        · cases h
        · rename_i sep r2 hs1
          split_ifs at h with hsep1 hsep2
          · cases h
            simp [elementsWellFormed, ihv _ _ _ hv]
          · split at h
            · cases h
            · rename_i xs' r3 he
              cases h
              simp [elementsWellFormed, ihv _ _ _ hv, ihe _ _ _ he]

/-- Storing a member of a decoded body keeps the entry well formed. -/
theorem storeField_wellFormed (cfg cfg' : Config) (k : String) (v : JValue)
    (hv : v.wellFormed = true) (hc : cfg.wellFormed = true)
    (h : storeField cfg k v = some cfg') : cfg'.wellFormed = true := by
  unfold storeField at h
  split_ifs at h with h1 h2 h3
  · split at h
    · cases h; exact hc
    · split at h
      · cases h; exact hc
      · cases h
    · cases h
  · split at h
    · cases h; exact hc
    · cases h; exact hc
    · cases h
  · split at h
    · cases h; rfl
    · rename_i ms
      cases h
      have hms : ∀ p ∈ ms, p.2.wellFormed = true := by
        have hm : membersWellFormed ms = true := by simpa [JValue.wellFormed] using hv
        intro p hp
        clear hv
        induction ms with
        | nil => cases hp
        | cons m ms ih =>
          obtain ⟨k1, v1⟩ := m
          obtain ⟨hv1, hr, _⟩ := (membersWellFormed_cons k1 v1 ms).1 hm
          rcases List.mem_cons.1 hp with rfl | hp
          · exact hv1
          · exact ih hr hp
      have hacc : membersWellFormed ((cfg.Metadata.getD none).getD []) = true := by
        cases hmd : cfg.Metadata with
        | none => rfl
        | some m => simpa [Config.wellFormed, hmd, Metadata.wellFormed] using hc
      have := mapInsertAll_keeps_wellFormed ms hms _ hacc
      simpa [Config.wellFormed, Metadata.wellFormed] using this
    · cases h
  · cases h; exact hc

/-- Storing the members of a decoded body keeps the entry well formed. -/
theorem storeFields_wellFormed :
    ∀ (ms : List (String × JValue)) (cfg cfg' : Config),
      (∀ p ∈ ms, p.2.wellFormed = true) → cfg.wellFormed = true →
      storeFields cfg ms = some cfg' → cfg'.wellFormed = true := by
  intro ms
  induction ms with
  | nil => intro cfg cfg' _ hc h; simp only [storeFields] at h; cases h; exact hc
  | cons m ms ih =>
    intro cfg cfg' hms hc h
    obtain ⟨k, v⟩ := m
    simp only [storeFields] at h
    split at h
    · cases h
    · rename_i c1 hs
      exact ih c1 cfg' (fun p hp => hms p (List.mem_cons_of_mem _ hp))
        (storeField_wellFormed cfg c1 k v (hms (k, v) (List.mem_cons_self _ _)) hc hs) h

/-- An entry decoded from a request body is well formed. -/
theorem jsonDecodeConfig_wellFormed (body : List Char) (cfg : Config)
    (h : jsonDecodeConfig body = .ok cfg) : cfg.wellFormed = true := by
  unfold jsonDecodeConfig at h
  split at h
  · cases h
  · split_ifs at h with hc
    · split at h
      · cases h
      · split_ifs at h with hd
        · cases h; rfl
        · split at h
          · cases h
          · rename_i ms r hp
            split at h
            · cases h
            · rename_i c1 hs
              cases h
              exact storeFields_wellFormed ms Config.zero cfg
                ((parse_wellFormed _).2.1 _ _ _ hp) rfl hs
    · split at h
      · cases h
      · cases h; rfl
      · cases h

/-! ## Theorems: metadata codec -/

/-- The text of a document value parses back to the value. -/
theorem parseJSON_encodeValue (v : JValue) (h : v.isDoc = true) :
    parseJSON (encodeValue v) = some v := by
  have h1 := (parse_encode_fuel (2 * (encodeValue v).length + 2)).1 v [] h (by omega)
  rw [List.append_nil] at h1
  simp [parseJSON, h1, skipSpace]

/-- Scanning the bytes written for a non-nil map of a document into an empty `Metadata` yields that map. -/
theorem scan_marshal_doc (ms : JMap) (cur : Metadata) (h : membersDoc ms = true)
    (hcur : cur.getD [] = []) :
    Metadata.Scan cur (.bytes (jsonMarshal (some (some ms)))) = .ok (some ms) := by
  have hp := parseJSON_encodeValue (.object ms) (by simpa [JValue.isDoc] using h)
  simp only [Metadata.Scan, jsonUnmarshal, jsonMarshal, hp, hcur, mapInsertAll_doc ms h]

/-- Scanning the bytes written for a nil pointer or a nil map leaves the target as it is. -/
theorem scan_marshal_nil (cur : Metadata) (m : Option Metadata)
    (h : m = none ∨ m = some none) :
    Metadata.Scan cur (.bytes (jsonMarshal m)) = .ok cur := by
  have hp : parseJSON "null".data = some .null := by rfl
  rcases h with rfl | rfl <;> simp only [Metadata.Scan, jsonUnmarshal, jsonMarshal, hp]

/-- C6: for every metadata document (booleans, strings and nested objects),
`Metadata.Value` succeeds and `Metadata.Scan` of the bytes it wrote (or of the
same text as a string) into an empty `Metadata` succeeds and yields a document
with the same keys and values; for a non-nil map it yields the very same
map. -/
theorem metadata_value_scan_roundtrip (m cur : Metadata) (hdoc : Metadata.isDoc m = true)
    (hcur : cur.getD [] = []) :
    ∃ text m', Metadata.Value (some m) = .ok text ∧
      Metadata.Scan cur (.bytes text) = .ok m' ∧
      Metadata.Scan cur (.string (String.mk text)) = .ok m' ∧
      m'.getD [] = m.getD [] ∧ (m.isSome = true → m' = m) := by
  cases m with
  | none =>
    refine ⟨jsonMarshal (some none), cur, rfl, scan_marshal_nil cur _ (Or.inr rfl),
      scan_marshal_nil cur _ (Or.inr rfl), by simpa using hcur, fun h => (by cases h)⟩
  | some ms =>
    have h := scan_marshal_doc ms cur hdoc hcur
    exact ⟨jsonMarshal (some (some ms)), some ms, rfl, h, h, rfl, fun _ => rfl⟩


/-- Witness for C6: the metadata document of the handler tests. -/
theorem metadata_value_scan_roundtrip_witness :
    Metadata.isDoc (some sampleMetadata) = true ∧
    ∃ text m', Metadata.Value (some (some sampleMetadata)) = .ok text ∧
      Metadata.Scan none (.bytes text) = .ok m' ∧
      Metadata.Scan none (.string (String.mk text)) = .ok m' ∧
      m'.getD [] = sampleMetadata ∧
      ((some sampleMetadata : Metadata).isSome = true → m' = some sampleMetadata) :=
  ⟨by decide, metadata_value_scan_roundtrip (some sampleMetadata) none (by decide) rfl⟩

/-- C7: `Metadata.Scan` fails, producing no document, on nil, on an empty byte
sequence or string, on bytes or a string that are not well-formed JSON text
(by the grammar `JSONText`, and likewise by the library's own check
`jsonValid`), and on a value of any other driver type; on bytes and on a
string holding the same text it gives the same result. -/
theorem metadata_scan_errors (m : Metadata) :
    (∃ e, Metadata.Scan m .nil = .error e) ∧
    (∃ e, Metadata.Scan m (.bytes []) = .error e) ∧
    (∃ e, Metadata.Scan m (.string "") = .error e) ∧
    (∀ text : List Char, ¬ JSONText text →
      (∃ e, Metadata.Scan m (.bytes text) = .error e) ∧
      (∃ e, Metadata.Scan m (.string (String.mk text)) = .error e)) ∧
    (∀ text : List Char, jsonValid text = false →
      (∃ e, Metadata.Scan m (.bytes text) = .error e) ∧
      (∃ e, Metadata.Scan m (.string (String.mk text)) = .error e)) ∧
    (∀ i, ∃ e, Metadata.Scan m (.int64 i) = .error e) ∧
    (∀ x, ∃ e, Metadata.Scan m (.float64 x) = .error e) ∧
    (∀ b, ∃ e, Metadata.Scan m (.bool b) = .error e) ∧
    (∀ t, ∃ e, Metadata.Scan m (.time t) = .error e) ∧
    (∀ s : String, Metadata.Scan m (.bytes s.data) = Metadata.Scan m (.string s)) := by
  have hbad : ∀ text : List Char, jsonValid text = false →
      jsonUnmarshal text m = .error jsonSyntaxError := by
    intro text h
    have hp : parseJSON text = none := by
      simpa [jsonValid] using h
    simp only [jsonUnmarshal, hp]
  have hgram : ∀ text : List Char, ¬ JSONText text → jsonValid text = false := by
    intro text h
    cases hp : parseJSON text with
    | none => simp [jsonValid, hp]
    | some v => exact absurd (parseJSON_sound text v hp) h
  refine ⟨⟨_, rfl⟩, ⟨_, hbad [] (by decide)⟩, ⟨_, hbad [] (by decide)⟩, fun text h => ?_,
    fun text h => ?_, fun _ => ⟨_, rfl⟩, fun _ => ⟨_, rfl⟩, fun _ => ⟨_, rfl⟩, fun _ => ⟨_, rfl⟩,
    fun _ => rfl⟩
  · exact ⟨⟨_, hbad text (hgram text h)⟩, ⟨_, hbad text (hgram text h)⟩⟩
  · exact ⟨⟨_, hbad text h⟩, ⟨_, hbad text h⟩⟩

/-- Witness for C7: the text `{` is outside the grammar, the truncated text
`{"a":` fails the library's check; both are rejected. -/
theorem metadata_scan_errors_witness :
    (∃ e, Metadata.Scan none (.bytes ['{']) = .error e) ∧
    jsonValid ['{', '"', 'a', '"', ':'] = false ∧
    (∃ e, Metadata.Scan none (.bytes ['{', '"', 'a', '"', ':']) = .error e) :=
  ⟨((metadata_scan_errors none).2.2.2.1 ['{'] not_JSONText_open_brace).1,
   by decide,
   ((metadata_scan_errors none).2.2.2.2.1 ['{', '"', 'a', '"', ':'] (by decide)).1⟩

/-! ## Theorems: storage engine -/

/-- `find?` finds nothing when no element passes the test. -/
theorem find_none_of_forall_ne {α : Type} (l : List α) (p : α → Bool)
    (h : ∀ r ∈ l, p r = false) : l.find? p = none := by
  simp only [List.find?_eq_none]
  intro r hr
  simp [h r hr]

/-- `GetConfigByName` finds no row when no row has the name. -/
theorem getConfigByName_errNoRows (db : Database) (name : String)
    (h : ∀ r ∈ db.rows, r.name ≠ name) : db.GetConfigByName name = .error .errNoRows := by
  have : db.rows.find? (fun r => decide (r.name = name)) = none :=
    find_none_of_forall_ne _ _ (fun r hr => by simpa using h r hr)
  simp only [Database.GetConfigByName, this]

/-- `GetConfigById` finds no row when no row has the id. -/
theorem getConfigById_errNoRows (db : Database) (id : Int)
    (h : ∀ r ∈ db.rows, r.id ≠ id) : db.GetConfigById id = .error .errNoRows := by
  have : db.rows.find? (fun r => decide (r.id = id)) = none :=
    find_none_of_forall_ne _ _ (fun r hr => by simpa using h r hr)
  simp only [Database.GetConfigById, this]

/-- C5: `GetConfigByName` fails with `sql.ErrNoRows` whenever no row has the
name, and `GetConfigById` fails with `sql.ErrNoRows` whenever no row has the
id; an error result carries no entry. -/
theorem getConfig_not_found (db : Database) :
    (∀ name, (∀ r ∈ db.rows, r.name ≠ name) →
      db.GetConfigByName name = .error .errNoRows ∧
      GoError.isErrNoRows .errNoRows = true ∧
      ¬ ∃ cfg, db.GetConfigByName name = .ok cfg) ∧
    (∀ id, (∀ r ∈ db.rows, r.id ≠ id) →
      db.GetConfigById id = .error .errNoRows ∧
      ¬ ∃ cfg, db.GetConfigById id = .ok cfg) := by
  refine ⟨fun name h => ?_, fun id h => ?_⟩
  · have e := getConfigByName_errNoRows db name h
    refine ⟨e, rfl, ?_⟩
    rintro ⟨cfg, hc⟩
    rw [e] at hc
    cases hc
  · have e := getConfigById_errNoRows db id h
    refine ⟨e, ?_⟩
    rintro ⟨cfg, hc⟩
    rw [e] at hc
    cases hc

/-- Witness for C5: an absent name and an absent id on the sample database. -/
theorem getConfig_not_found_witness :
    sampleDb.GetConfigByName "missing" = .error .errNoRows ∧
    sampleDb.GetConfigById 7 = .error .errNoRows :=
  ⟨((getConfig_not_found sampleDb).1 "missing" (by decide)).1,
   ((getConfig_not_found sampleDb).2 7 (by decide)).1⟩

/-- C3: `DeleteConfigByName` returns no error and leaves exactly the prior rows
whose name differs, unchanged and in their order; the table is unchanged when
no row has the name; afterwards `GetConfigByName` of the name fails with
`sql.ErrNoRows`. -/
theorem deleteConfigByName_spec (db : Database) (name : String) :
    (db.DeleteConfigByName name).2 = none ∧
    (db.DeleteConfigByName name).1.rows = db.rows.filter (fun r => decide (r.name ≠ name)) ∧
    (∀ r, r ∈ (db.DeleteConfigByName name).1.rows ↔ r ∈ db.rows ∧ r.name ≠ name) ∧
    (db.DeleteConfigByName name).1.rows.Sublist db.rows ∧
    (db.DeleteConfigByName name).1.seq = db.seq ∧
    ((∀ r ∈ db.rows, r.name ≠ name) → (db.DeleteConfigByName name).1 = db) ∧
    (db.DeleteConfigByName name).1.GetConfigByName name = .error .errNoRows := by
  have hrows : (db.DeleteConfigByName name).1.rows
      = db.rows.filter (fun r => decide (r.name ≠ name)) := by
    simp [Database.DeleteConfigByName]
  have hmem : ∀ r, r ∈ (db.DeleteConfigByName name).1.rows ↔ r ∈ db.rows ∧ r.name ≠ name := by
    intro r
    rw [hrows]
    simp [List.mem_filter]
  refine ⟨rfl, hrows, hmem, ?_, rfl, fun h => ?_, ?_⟩
  · rw [hrows]
    exact List.filter_sublist _
  · have : db.rows.filter (fun r => decide (r.name ≠ name)) = db.rows :=
      List.filter_eq_self.2 (fun r hr => by simpa using h r hr)
    cases db with
    | mk rows seq =>
      simp only [Database.DeleteConfigByName, Database.mk.injEq, and_true]
      simpa using this
  · exact getConfigByName_errNoRows _ name (fun r hr => ((hmem r).1 hr).2)

/-- Witness for C3: deleting an absent name leaves the sample database as it
is; deleting `late` from the two-row database leaves the row `early`. -/
theorem deleteConfigByName_spec_witness :
    (sampleDb.DeleteConfigByName "missing").1 = sampleDb ∧
    (sampleDb2.DeleteConfigByName "late").1.rows = [⟨2, "early", "null".data, 100⟩] ∧
    (sampleDb2.DeleteConfigByName "late").1.GetConfigByName "late" = .error .errNoRows :=
  ⟨(deleteConfigByName_spec sampleDb "missing").2.2.2.2.2.1 (by decide),
   (deleteConfigByName_spec sampleDb2 "late").2.1.trans (by decide),
   (deleteConfigByName_spec sampleDb2 "late").2.2.2.2.2.2⟩

/-- The row written by `UPDATE configs SET metadata = ? WHERE name = ?`. -/
theorem updateRows (db : Database) (name : String) (cfg : Config) :
    (db.UpdateConfigByName name cfg).1.rows = db.rows.map
      (fun r => if r.name = name then { r with metadata := jsonMarshal cfg.Metadata } else r) := by
  simp [Database.UpdateConfigByName, Metadata.Value]

/-- Scanning the bytes written for a metadata document into a nil map yields the document. -/
theorem scan_marshal_metadata (md : Metadata) (h : Metadata.isDoc md = true) :
    Metadata.Scan none (.bytes (jsonMarshal (some md))) = .ok md := by
  cases md with
  | none => exact scan_marshal_nil none _ (Or.inr rfl)
  | some ms => exact scan_marshal_doc ms none h rfl

/-- A row holding the bytes written for a metadata document scans to an entry with that document. -/
theorem scanRow_marshal_doc (r : Row) (md : Metadata) (h : Metadata.isDoc md = true)
    (hr : r.metadata = jsonMarshal (some md)) :
    scanRow r = .ok { ID := r.id, Name := r.name, Metadata := some md,
                      Created := r.created_at } := by
  simp only [scanRow, hr, scan_marshal_metadata md h]

/-- C2: `UpdateConfigByName` returns no error; row by row, a row with the name
keeps its id, name and creation time and holds the serialized `cfg.Metadata`,
a row with another name is unchanged; the table is unchanged when no row has
the name; and, for a new metadata document, a following `GetConfigByName`
returns that document with the id and name of the (first) row of that name. -/
theorem updateConfigByName_spec (db : Database) (name : String) (cfg : Config) :
    (db.UpdateConfigByName name cfg).2 = none ∧
    (db.UpdateConfigByName name cfg).1.rows.length = db.rows.length ∧
    (db.UpdateConfigByName name cfg).1.seq = db.seq ∧
    (∀ (i : Nat) (r : Row), db.rows[i]? = some r →
      ∃ r', (db.UpdateConfigByName name cfg).1.rows[i]? = some r' ∧
        r'.id = r.id ∧ r'.name = r.name ∧ r'.created_at = r.created_at ∧
        (r.name = name → r'.metadata = jsonMarshal cfg.Metadata) ∧
        (r.name ≠ name → r' = r)) ∧
    ((∀ r ∈ db.rows, r.name ≠ name) → (db.UpdateConfigByName name cfg).1 = db) ∧
    (∀ (r : Row) (md : Metadata), db.rows.find? (fun r => decide (r.name = name)) = some r →
      cfg.Metadata = some md → Metadata.isDoc md = true →
      (db.UpdateConfigByName name cfg).1.GetConfigByName name
        = .ok { ID := r.id, Name := r.name, Metadata := some md,
                Created := r.created_at }) := by
  have hrows := updateRows db name cfg
  refine ⟨rfl, by rw [hrows, List.length_map], rfl, fun i r hi => ?_, fun h => ?_,
    fun r m hf hm hd => ?_⟩
  · rw [hrows, List.getElem?_map, hi]
    by_cases hn : r.name = name
    · refine ⟨{ r with metadata := jsonMarshal cfg.Metadata }, by simp [hn], rfl, rfl, rfl,
        fun _ => rfl, fun h => absurd hn h⟩
    · exact ⟨r, by simp [hn], rfl, rfl, rfl, fun h => absurd h hn, fun _ => rfl⟩
  · have hmap : db.rows.map
        (fun r => if r.name = name then { r with metadata := jsonMarshal cfg.Metadata } else r)
        = db.rows := by
      conv_rhs => rw [← List.map_id db.rows]
      apply List.map_congr_left
      intro r hr
      simp [h r hr]
    cases db with
    | mk rows seq =>
      simp only [Database.UpdateConfigByName, Metadata.Value, Database.mk.injEq, and_true]
      simpa using hmap
  · have hname : r.name = name := by
      have := List.find?_some hf
      simpa using this
    have hfind : (db.UpdateConfigByName name cfg).1.rows.find? (fun r => decide (r.name = name))
        = some { r with metadata := jsonMarshal cfg.Metadata } := by
      rw [hrows, List.find?_map]
      have hcomp : ((fun r : Row => decide (r.name = name)) ∘
          (fun r => if r.name = name then { r with metadata := jsonMarshal cfg.Metadata } else r))
          = (fun r : Row => decide (r.name = name)) := by
        funext r
        by_cases hn : r.name = name <;> simp [hn]
      rw [hcomp, hf]
      simp [hname]
    simp only [Database.GetConfigByName, hfind]
    exact scanRow_marshal_doc _ m hd (by rw [hm])

/-- Witness for C2: updating entry `abc` of the sample database and reading it
back; updating an absent name; the row-wise effect on the first row. -/
theorem updateConfigByName_spec_witness :
    (sampleDb.UpdateConfigByName "abc"
        ⟨0, "", some (some [("on", .bool false)]), 0⟩).1.GetConfigByName "abc"
      = .ok ⟨1, "abc", some (some [("on", .bool false)]), 100⟩ ∧
    (sampleDb.UpdateConfigByName "missing" ⟨0, "", some (some [("on", .bool false)]), 0⟩).1
      = sampleDb ∧
    (∃ r', (sampleDb2.UpdateConfigByName "early" ⟨0, "", none, 0⟩).1.rows[0]? = some r' ∧
      r'.id = 1 ∧ r'.name = "late" ∧ r'.created_at = 200 ∧
      ("late" = "early" → r'.metadata = jsonMarshal none) ∧
      ("late" ≠ "early" → r' = ⟨1, "late", "\x7b\"a\":true\x7d".data, 200⟩)) :=
  ⟨(updateConfigByName_spec sampleDb "abc"
      ⟨0, "", some (some [("on", .bool false)]), 0⟩).2.2.2.2.2
      _ (some [("on", .bool false)]) rfl rfl (by decide),
   (updateConfigByName_spec sampleDb "missing"
      ⟨0, "", some (some [("on", .bool false)]), 0⟩).2.2.2.2.1 (by decide),
   (updateConfigByName_spec sampleDb2 "early" ⟨0, "", none, 0⟩).2.2.2.1 0
      ⟨1, "late", "\x7b\"a\":true\x7d".data, 200⟩ rfl⟩

/-- A scanned entry carries the id, name and creation time of its row. -/
theorem scanRow_fields (r : Row) (c : Config) (h : scanRow r = .ok c) :
    c.ID = r.id ∧ c.Name = r.name ∧ c.Created = r.created_at := by
  unfold scanRow at h
  split at h
  · cases h
  · cases h; exact ⟨rfl, rfl, rfl⟩

/-- Rows that scan one by one scan as a list, entry by entry. -/
theorem scanRows_ok (rows : List Row) (hv : ∀ r ∈ rows, ∃ c, scanRow r = .ok c) :
    ∃ cfgs, scanRows rows = .ok cfgs ∧ List.Forall₂ (fun r c => scanRow r = .ok c) rows cfgs := by
  induction rows with
  | nil => exact ⟨[], rfl, List.Forall₂.nil⟩
  | cons r rs ih =>
    obtain ⟨c, hc⟩ := hv r (List.mem_cons_self _ _)
    obtain ⟨cs, hcs, hf⟩ := ih (fun x hx => hv x (List.mem_cons_of_mem _ hx))
    exact ⟨c :: cs, by simp only [scanRows, hc, hcs], List.Forall₂.cons hc hf⟩

/-- Entries scanned from rows of ascending creation time have ascending creation time. -/
theorem forall₂_sorted (rows : List Row) (cfgs : List Config)
    (hf : List.Forall₂ (fun r c => scanRow r = .ok c) rows cfgs)
    (hs : rows.Sorted (fun a b => a.created_at ≤ b.created_at)) :
    cfgs.Sorted (fun a b => a.Created ≤ b.Created) := by
  induction hf with
  | nil => exact List.sorted_nil
  | cons h _ ih =>
    rename_i r c rs cs hrest
    have hs' := List.sorted_cons.1 hs
    refine List.sorted_cons.2 ⟨fun c' hc' => ?_, ih hs'.2⟩
    obtain ⟨r', hr', hrc⟩ : ∃ r', r' ∈ rs ∧ scanRow r' = .ok c' := by
      clear ih hs hs'
      induction hrest with
      | nil => cases hc'
      | cons h2 _ ih2 =>
        rcases List.mem_cons.1 hc' with rfl | hm
        · exact ⟨_, List.mem_cons_self _ _, h2⟩
        · obtain ⟨x, hx, hxc⟩ := ih2 hm
          exact ⟨x, List.mem_cons_of_mem _ hx, hxc⟩
    rw [(scanRow_fields r c h).2.2, (scanRow_fields r' c' hrc).2.2]
    exact hs'.1 r' hr'

/-- A row holding what `Metadata.Value` writes for a nil pointer or for a
metadata document scans. -/
theorem scanRow_marshal_ok (r : Row) (m : Option Metadata)
    (h : ∀ md, m = some md → Metadata.isDoc md = true) (hr : r.metadata = jsonMarshal m) :
    ∃ c, scanRow r = .ok c := by
  cases m with
  | none =>
    refine ⟨{ ID := r.id, Name := r.name, Metadata := some none, Created := r.created_at }, ?_⟩
    simp only [scanRow, hr, scan_marshal_nil none none (Or.inl rfl)]
  | some md => exact ⟨_, scanRow_marshal_doc r md (h md rfl) hr⟩

/-- Inserting an entry whose metadata is nil or a document keeps every row of
the table readable. -/
theorem insertConfig_rows_scan (db : Database) (now : Nat) (cfg : Config)
    (hv : ∀ r ∈ db.rows, ∃ c, scanRow r = .ok c)
    (h : ∀ md, cfg.Metadata = some md → Metadata.isDoc md = true) :
    ∀ r ∈ (db.InsertConfig now cfg).1.rows, ∃ c, scanRow r = .ok c := by
  intro r hr
  simp only [Database.InsertConfig, Metadata.Value, List.mem_append, List.mem_singleton] at hr
  rcases hr with hr | rfl
  · exact hv r hr
  · exact scanRow_marshal_ok _ cfg.Metadata h rfl

/-- Updating with metadata that is nil or a document keeps every row of the
table readable. -/
theorem updateConfigByName_rows_scan (db : Database) (name : String) (cfg : Config)
    (hv : ∀ r ∈ db.rows, ∃ c, scanRow r = .ok c)
    (h : ∀ md, cfg.Metadata = some md → Metadata.isDoc md = true) :
    ∀ r ∈ (db.UpdateConfigByName name cfg).1.rows, ∃ c, scanRow r = .ok c := by
  intro r hr
  rw [updateRows, List.mem_map] at hr
  obtain ⟨r0, hr0, rfl⟩ := hr
  by_cases hn : r0.name = name
  · simp only [hn, if_true]
    exact scanRow_marshal_ok _ cfg.Metadata h rfl
  · simp only [hn, if_false]
    exact hv r0 hr0

/-- Deleting keeps every row of the table readable. -/
theorem deleteConfigByName_rows_scan (db : Database) (name : String)
    (hv : ∀ r ∈ db.rows, ∃ c, scanRow r = .ok c) :
    ∀ r ∈ (db.DeleteConfigByName name).1.rows, ∃ c, scanRow r = .ok c := by
  intro r hr
  simp only [Database.DeleteConfigByName, List.mem_filter] at hr
  exact hv r hr.1

/-- A metadata document is well formed. -/
theorem wellFormed_of_isDoc :
    (∀ v : JValue, v.isDoc = true → v.wellFormed = true) ∧
    (∀ ms : List (String × JValue), membersDoc ms = true → membersWellFormed ms = true) := by
  suffices h : ∀ n : Nat,
      (∀ v : JValue, sizeOf v ≤ n → v.isDoc = true → v.wellFormed = true) ∧
      (∀ ms : List (String × JValue), sizeOf ms ≤ n → membersDoc ms = true →
        membersWellFormed ms = true) from
    ⟨fun v => (h (sizeOf v)).1 v le_rfl, fun ms => (h (sizeOf ms)).2 ms le_rfl⟩
  intro n
  induction n with
  | zero =>
    refine ⟨fun v hs _ => ?_, fun ms hs _ => ?_⟩
    · cases v <;> simp at hs
    · cases ms with
      | nil => rfl
      | cons m ms => simp at hs
  | succ n ih =>
    refine ⟨fun v hs hd => ?_, fun ms hs hd => ?_⟩
    · cases v with
      | null => rfl
      | bool b => rfl
      | string s => rfl
      | number l => simp [JValue.isDoc] at hd
      | array xs => simp [JValue.isDoc] at hd
      | object ms =>
        have hm : membersDoc ms = true := by simpa [JValue.isDoc] using hd
        have : sizeOf ms ≤ n := by simp at hs; omega
        simpa [JValue.wellFormed] using ih.2 ms this hm
    · cases ms with
      | nil => rfl
      | cons m ms =>
        obtain ⟨k, v⟩ := m
        obtain ⟨hv, hr, hk⟩ := (membersDoc_cons k v ms).1 hd
        have h1 : sizeOf v ≤ n := by simp at hs; omega
        have h2 : sizeOf ms ≤ n := by simp at hs; omega
        exact (membersWellFormed_cons k v ms).2 ⟨ih.1 v h1 hv, ih.2 ms h2 hr, hk⟩

/-- A row holding what `Metadata.Value` writes for a well-formed metadata
scans to an entry carrying that metadata (the nil map for a nil pointer). -/
theorem scanRow_marshal_wellFormed (r : Row) (m : Option Metadata)
    (h : ∀ md, m = some md → md.wellFormed = true) (hr : r.metadata = jsonMarshal m) :
    scanRow r = .ok { ID := r.id, Name := r.name, Metadata := some (m.getD none),
                      Created := r.created_at } := by
  cases m with
  | none => simp only [scanRow, hr, scan_marshal_nil none none (Or.inl rfl), Option.getD_none]
  | some md =>
    cases md with
    | none =>
      simp only [scanRow, hr, scan_marshal_nil none (some none) (Or.inr rfl), Option.getD_some]
    | some ms =>
      have hm : membersWellFormed ms = true := by
        simpa [Metadata.wellFormed] using h (some ms) rfl
      have hp := parseJSON_encodeValue_wellFormed (.object ms)
        (by simpa [JValue.wellFormed] using hm)
      simp only [scanRow, hr, Metadata.Scan, jsonUnmarshal, jsonMarshal, hp, Option.getD_none,
        mapInsertAll_wellFormed ms hm, Option.getD_some]

/-- The metadata text of each seed row decodes. -/
theorem seedData_scan : ∀ s ∈ seedData, ∃ m, Metadata.Scan none (.bytes s.2.1) = .ok m := by
  intro s hs
  simp only [seedData, List.mem_cons, List.mem_singleton, List.not_mem_nil, or_false] at hs
  rcases hs with rfl | rfl
  · exact ⟨_, rfl⟩
  · exact ⟨_, rfl⟩

/-- The seeding loop keeps every row of the table readable. -/
theorem insertSeeds_rows_scan (o : DriverOutcomes) (now : Nat) :
    ∀ (seeds : List (String × List Char × Nat)) (turn : Nat) (db : Database),
      (∀ s ∈ seeds, s ∈ seedData) → (∀ r ∈ db.rows, ∃ c, scanRow r = .ok c) →
      ∀ r ∈ (insertSeeds o now turn seeds db).2.rows, ∃ c, scanRow r = .ok c := by
  intro seeds
  induction seeds with
  | nil => intro turn db _ hv; simpa [insertSeeds] using hv
  | cons s seeds ih =>
    intro turn db hs hv
    obtain ⟨name, text, days⟩ := s
    cases he : o.seedErr turn with
    | some e => simpa [insertSeeds, he] using hv
    | none =>
      simp only [insertSeeds, he]
      apply ih (turn + 1) _ (fun x hx => hs x (List.mem_cons_of_mem _ hx))
      intro r hr
      simp only [List.mem_append, List.mem_singleton] at hr
      rcases hr with hr | rfl
      · exact hv r hr
      · obtain ⟨m, hm⟩ := seedData_scan (name, text, days) (hs _ (List.mem_cons_self _ _))
        simp only at hm
        exact ⟨{ ID := db.seq + 1, Name := name, Metadata := some m,
                 Created := now - days * 86400 }, by simp only [scanRow, hm]⟩

/-- Every row of a table state the engine produces scans. -/
theorem reachable_rows_scan (db : Database) (h : db.Reachable) :
    ∀ r ∈ db.rows, ∃ c, scanRow r = .ok c := by
  induction h with
  | created => intro r hr; cases hr
  | seeded o now seeds hp =>
    have hmem : ∀ s ∈ seeds, s ∈ seedData := fun s hs => hp.mem_iff.1 hs
    have hins := insertSeeds_rows_scan o now seeds 0 { rows := [], seq := 0 } hmem
      (fun r hr => by cases hr)
    intro r hr
    unfold initializeDb at hr
    split at hr
    · cases hr
    · split at hr
      · cases hr
      · split at hr
        · cases hr
        · rename_i db hdb
          rw [hdb] at hins
          exact hins r hr
  | insert db now cfg _ hw ih =>
    intro r hr
    simp only [Database.InsertConfig, Metadata.Value, List.mem_append, List.mem_singleton] at hr
    rcases hr with hr | rfl
    · exact ih r hr
    · exact ⟨_, scanRow_marshal_wellFormed _ cfg.Metadata
        (fun md hmd => by simpa [Config.wellFormed, hmd] using hw) rfl⟩
  | update db name cfg _ hw ih =>
    intro r hr
    rw [updateRows, List.mem_map] at hr
    obtain ⟨r0, hr0, rfl⟩ := hr
    by_cases hn : r0.name = name
    · simp only [hn, if_true]
      exact ⟨_, scanRow_marshal_wellFormed _ cfg.Metadata
        (fun md hmd => by simpa [Config.wellFormed, hmd] using hw) rfl⟩
    · simp only [hn, if_false]
      exact ih r0 hr0
  | delete db name _ ih => exact deleteConfigByName_rows_scan db name ih

/-- Serving a request on the storage engine leads from a table state the
engine produces to another one, whichever handler serves it. -/
theorem handlers_keep_reachable (now : Nat) (db : Database) (r : Request) (h : db.Reachable) :
    (healthGetHandler (Database.store now) db r).state.Reachable ∧
    (configsPostHandler (Database.store now) db r).state.Reachable ∧
    (configsGetOneHandler (Database.store now) db r).state.Reachable ∧
    (configsUpdateOneHandler (Database.store now) db r).state.Reachable ∧
    (configsDeleteOneHandler (Database.store now) db r).state.Reachable := by
  refine ⟨h, ?_, ?_, ?_, ?_⟩
  · unfold configsPostHandler
    cases hd : jsonDecodeConfig r.body with
    | error e => exact h
    | ok cfg => exact Database.Reachable.insert db now cfg h (jsonDecodeConfig_wellFormed _ _ hd)
  · unfold configsGetOneHandler
    split_ifs with hn
    · exact h
    · simp only [Database.store]
      cases db.GetConfigByName r.name with
      | error e => simp only [Except.map]; split_ifs <;> exact h
      | ok c => exact h
  · unfold configsUpdateOneHandler
    cases hd : jsonDecodeConfig r.body with
    | error e => exact h
    | ok cfg =>
      simp only
      split_ifs with hn
      · exact h
      · exact Database.Reachable.update db r.name cfg h (jsonDecodeConfig_wellFormed _ _ hd)
  · unfold configsDeleteOneHandler
    split_ifs with hn
    · exact h
    · have hdel := Database.Reachable.delete db r.name h
      simp only [Database.store]
      have hnone : (db.DeleteConfigByName r.name).2 = none := rfl
      cases hx : db.DeleteConfigByName r.name with
      | mk s e =>
        rw [hx] at hdel hnone
        simp only at hnone
        subst hnone
        exact hdel

/-- Counterexample to C4 as stated: entries E1, E2, E3 inserted in that order
into an empty table, the wall clock read by `datetime('now')` being set back
after the first insert (readings 9, 5 and 7), make a table state that
`GetConfigs` lists as E2, E3, E1. -/
theorem getConfigs_clock_set_back :
    Database.Reachable
      ((((Database.mk [] 0).InsertConfig 9 (sampleEntry "E1")).1.InsertConfig 5
        (sampleEntry "E2")).1.InsertConfig 7 (sampleEntry "E3")).1 ∧
    ((((Database.mk [] 0).InsertConfig 9 (sampleEntry "E1")).1.InsertConfig 5
        (sampleEntry "E2")).1.InsertConfig 7 (sampleEntry "E3")).1.GetConfigs
      = .ok [⟨2, "E2", some (some sampleMetadata), 5⟩, ⟨3, "E3", some (some sampleMetadata), 7⟩,
             ⟨1, "E1", some (some sampleMetadata), 9⟩] :=
  ⟨Database.Reachable.insert _ 7 _ (Database.Reachable.insert _ 5 _
      (Database.Reachable.insert _ 9 _ Database.Reachable.created rfl) rfl) rfl, rfl⟩

/-- C4 (amended): on every table state the engine produces
(`Database.Reachable`), `GetConfigs` returns, without error, the entries of a
rearrangement of the stored rows (each row once) that is ascending in
`created_at`; three entries (any Go values, `Config.wellFormed`) inserted in
turn into an empty table, the clock not going backwards between the inserts,
are listed in insertion order with the ids, names, metadata and creation times
of the inserts; an empty table gives the empty list and no error. -/
theorem getConfigs_spec :
    (∀ db : Database, db.Reachable →
      ∃ rows cfgs, db.GetConfigs = .ok cfgs ∧ rows.Perm db.rows ∧
        rows.Sorted (fun a b => a.created_at ≤ b.created_at) ∧
        List.Forall₂ (fun r c => scanRow r = .ok c) rows cfgs ∧
        cfgs.Sorted (fun a b => a.Created ≤ b.Created)) ∧
    (∀ (seq : Int) (e1 e2 e3 : Config) (t1 t2 t3 : Nat),
      0 ≤ seq → e1.wellFormed = true → e2.wellFormed = true → e3.wellFormed = true →
      t1 ≤ t2 → t2 ≤ t3 →
      ((((Database.mk [] seq).InsertConfig t1 e1).1.InsertConfig t2 e2).1.InsertConfig
          t3 e3).1.GetConfigs
        = .ok [{ ID := seq + 1, Name := e1.Name, Metadata := some (e1.Metadata.getD none),
                 Created := t1 },
               { ID := seq + 2, Name := e2.Name, Metadata := some (e2.Metadata.getD none),
                 Created := t2 },
               { ID := seq + 3, Name := e3.Name, Metadata := some (e3.Metadata.getD none),
                 Created := t3 }]) ∧
    (∀ seq : Int, (Database.mk [] seq).GetConfigs = .ok []) := by
  refine ⟨fun db hr => ?_, ?_, fun seq => rfl⟩
  · have hv := reachable_rows_scan db hr
    haveI : IsTotal Row (fun a b => a.created_at ≤ b.created_at) :=
      ⟨fun a b => Nat.le_total a.created_at b.created_at⟩
    haveI : IsTrans Row (fun a b => a.created_at ≤ b.created_at) :=
      ⟨fun _ _ _ h1 h2 => Nat.le_trans h1 h2⟩
    have hperm := List.perm_insertionSort (fun a b : Row => a.created_at ≤ b.created_at) db.rows
    have hsorted := List.sorted_insertionSort (fun a b : Row => a.created_at ≤ b.created_at) db.rows
    obtain ⟨cfgs, hc, hf⟩ := scanRows_ok
      (db.rows.insertionSort (fun a b => a.created_at ≤ b.created_at))
      (fun r hr => hv r (hperm.mem_iff.1 hr))
    exact ⟨_, cfgs, hc, hperm, hsorted, hf, forall₂_sorted _ _ hf hsorted⟩
  · intro seq e1 e2 e3 t1 t2 t3 hseq w1 w2 w3 h12 h23
    have hrows : ((((Database.mk [] seq).InsertConfig t1 e1).1.InsertConfig t2 e2).1.InsertConfig
        t3 e3).1.rows
        = [{ id := seq + 1, name := e1.Name, metadata := jsonMarshal e1.Metadata,
             created_at := t1 },
           { id := seq + 2, name := e2.Name, metadata := jsonMarshal e2.Metadata,
             created_at := t2 },
           { id := seq + 3, name := e3.Name, metadata := jsonMarshal e3.Metadata,
             created_at := t3 }] := by
      have hz : max 0 (seq + 1) = seq + 1 := max_eq_right (by omega)
      simp only [Database.InsertConfig, Metadata.Value, List.map_nil, List.foldl_nil,
        List.nil_append, List.map_cons, List.foldl_cons, List.cons_append, max_eq_left hseq, hz,
        max_self, List.cons.injEq, Row.mk.injEq, and_true, true_and]
      have hz2 : max (seq + 1) (seq + 1 + 1) = seq + 1 + 1 := max_eq_right (by omega)
      simp only [hz2, max_self]
      refine ⟨by omega, by omega⟩
    have hs : List.Sorted (fun a b : Row => a.created_at ≤ b.created_at)
        [{ id := seq + 1, name := e1.Name, metadata := jsonMarshal e1.Metadata,
           created_at := t1 },
         { id := seq + 2, name := e2.Name, metadata := jsonMarshal e2.Metadata,
           created_at := t2 },
         { id := seq + 3, name := e3.Name, metadata := jsonMarshal e3.Metadata,
           created_at := t3 }] := by
      simp [List.Sorted]
      omega
    have hw : ∀ e : Config, e.wellFormed = true →
        ∀ md, e.Metadata = some md → md.wellFormed = true :=
      fun e he md hmd => by simpa [Config.wellFormed, hmd] using he
    simp only [Database.GetConfigs, hrows, hs.insertionSort_eq, scanRows]
    rw [scanRow_marshal_wellFormed _ e1.Metadata (hw e1 w1) rfl,
      scanRow_marshal_wellFormed _ e2.Metadata (hw e2 w2) rfl,
      scanRow_marshal_wellFormed _ e3.Metadata (hw e3 w3) rfl]

/-- Witness for C4: the listing of a table filled at clock readings 9 and 5,
and three inserts at clock readings 5, 5 and 9 of an entry with the sample
document, an entry without metadata and an entry whose document holds a
number and an array. -/
theorem getConfigs_spec_witness :
    (∃ rows cfgs,
        (((Database.mk [] 0).InsertConfig 9 (sampleEntry "E1")).1.InsertConfig 5
          (plainEntry 0 "E2")).1.GetConfigs = .ok cfgs ∧
        rows.Perm (((Database.mk [] 0).InsertConfig 9 (sampleEntry "E1")).1.InsertConfig 5
          (plainEntry 0 "E2")).1.rows ∧
        rows.Sorted (fun a b => a.created_at ≤ b.created_at) ∧
        List.Forall₂ (fun r c => scanRow r = .ok c) rows cfgs ∧
        cfgs.Sorted (fun a b => a.Created ≤ b.Created)) ∧
    ((((Database.mk [] 0).InsertConfig 5 (sampleEntry "E1")).1.InsertConfig 5
        (plainEntry 0 "E2")).1.InsertConfig 9
        ⟨0, "E3", some (some [("n", .number "-1.5e3"), ("xs", .array [.null, .bool true])]), 0⟩
        ).1.GetConfigs
      = .ok [⟨1, "E1", some (some sampleMetadata), 5⟩, ⟨2, "E2", some none, 5⟩,
             ⟨3, "E3", some (some [("n", .number "-1.5e3"), ("xs", .array [.null, .bool true])]),
               9⟩] :=
  ⟨getConfigs_spec.1 _ (Database.Reachable.insert _ 5 _
      (Database.Reachable.insert _ 9 _ Database.Reachable.created rfl) rfl),
   getConfigs_spec.2.1 0 (sampleEntry "E1") (plainEntry 0 "E2")
      ⟨0, "E3", some (some [("n", .number "-1.5e3"), ("xs", .array [.null, .bool true])]), 0⟩
      5 5 9 (by decide) rfl rfl (by decide) (by decide) (by decide)⟩

/-! ## Theorems: health check -/

/-- C15: `healthGetHandler` answers 200 with body `ok` when the store's
`IsConnected` returns true, and 500 with body `notok` when it returns false. -/
theorem healthGetHandler_responses {σ : Type} (store : DatabaseStore σ) (s : σ) (r : Request) :
    ((store.IsConnected s).2 = true →
      (healthGetHandler store s r).resp.status = 200 ∧
      (healthGetHandler store s r).resp.body = "ok") ∧
    ((store.IsConnected s).2 = false →
      (healthGetHandler store s r).resp.status = 500 ∧
      (healthGetHandler store s r).resp.body = "notok") := by
  rcases hc : store.IsConnected s with ⟨s', _ | _⟩
  · have e : healthGetHandler store s r
        = ⟨{ status := 500, contentType := none, body := "notok" }, s', [.IsConnected]⟩ := by
      simp only [healthGetHandler, hc]
    rw [e]
    exact ⟨fun h => (by cases h), fun _ => ⟨rfl, rfl⟩⟩
  · have e : healthGetHandler store s r = ⟨fprint "ok", s', [.IsConnected]⟩ := by
      simp only [healthGetHandler, hc]
    rw [e]
    exact ⟨fun _ => ⟨rfl, rfl⟩, fun h => (by cases h)⟩

/-- Witness for C15: the engine behind an open handle is connected, the failing
store and the disconnected stub are not. -/
theorem healthGetHandler_responses_witness :
    (healthGetHandler (Database.store 0) sampleDb ⟨"", []⟩).resp.status = 200 ∧
    (healthGetHandler (Database.store 0) sampleDb ⟨"", []⟩).resp.body = "ok" ∧
    (healthGetHandler DatabaseStub.store ⟨false, []⟩ ⟨"", []⟩).resp.status = 500 ∧
    (healthGetHandler DatabaseStub.store ⟨false, []⟩ ⟨"", []⟩).resp.body = "notok" :=
  ⟨((healthGetHandler_responses (Database.store 0) sampleDb ⟨"", []⟩).1 rfl).1,
   ((healthGetHandler_responses (Database.store 0) sampleDb ⟨"", []⟩).1 rfl).2,
   ((healthGetHandler_responses DatabaseStub.store ⟨false, []⟩ ⟨"", []⟩).2 rfl).1,
   ((healthGetHandler_responses DatabaseStub.store ⟨false, []⟩ ⟨"", []⟩).2 rfl).2⟩

/-! ## Theorems: test double -/

/-- The stub's `UpdateConfigByName` leaves the stub as it was and returns no
error, whatever the name and the new entry. -/
theorem stub_updateConfigByName_unchanged (d : DatabaseStub) (name : String) (newCfg : Config) :
    d.UpdateConfigByName name newCfg = (d, none) := rfl

/-- C11 fails on the code: on the stub holding entry `abc`, an update of `abc`
with new metadata followed by `GetConfigByName` returns the entry with its old
metadata, not the new one, while the engine returns the new metadata. -/
theorem stub_update_then_get_keeps_old_metadata :
    (sampleStub.UpdateConfigByName "abc" switchedOff).1.GetConfigByName "abc"
      = (some { ID := 1, Name := "abc", Metadata := some (some sampleMetadata), Created := 100 },
         none) ∧
    (some (some sampleMetadata) : Option Metadata) ≠ switchedOff.Metadata ∧
    (sampleDb.UpdateConfigByName "abc" switchedOff).1.GetConfigByName "abc"
      = .ok { ID := 1, Name := "abc", Metadata := switchedOff.Metadata, Created := 100 } := by
  refine ⟨rfl, ?_, rfl⟩
  simp [switchedOff, sampleMetadata]

/-- The stub's `GetConfigByName` returns a nil entry and a nil error when no
entry has the name, and `configsGetOneHandler` then answers 200 with the body
`null`. -/
theorem stub_getConfigByName_absent (d : DatabaseStub) (name : String)
    (h : ∀ cfg ∈ d.Config, cfg.Name ≠ name) (hn : name ≠ "") :
    d.GetConfigByName name = (none, none) ∧
    (configsGetOneHandler DatabaseStub.store d ⟨name, []⟩).resp.status = 200 ∧
    (configsGetOneHandler DatabaseStub.store d ⟨name, []⟩).resp.body = "null\n" := by
  have hf : d.Config.find? (fun cfg => decide (cfg.Name = name)) = none :=
    find_none_of_forall_ne _ _ (fun r hr => by simpa using h r hr)
  have hg : d.GetConfigByName name = (none, none) := by
    simp only [DatabaseStub.GetConfigByName, hf]
  have e : configsGetOneHandler DatabaseStub.store d ⟨name, []⟩
      = ⟨encodeJSONResponse none, d, [.GetConfigByName name]⟩ := by
    simp only [configsGetOneHandler, hn, if_false, DatabaseStub.store, hg]
  rw [e]
  exact ⟨hg, rfl, rfl⟩

/-- C12 fails on the code: on the stub holding entry `abc`,
`GetConfigByName("missing")` returns a nil entry and a nil error, and
`GET /configs/missing` is answered 200 with the body `null`; the engine
returns `sql.ErrNoRows` and the request is answered 404. -/
theorem stub_get_missing_is_not_404 :
    sampleStub.GetConfigByName "missing" = (none, none) ∧
    (configsGetOneHandler DatabaseStub.store sampleStub ⟨"missing", []⟩).resp.status = 200 ∧
    (configsGetOneHandler DatabaseStub.store sampleStub ⟨"missing", []⟩).resp.body = "null\n" ∧
    sampleDb.GetConfigByName "missing" = .error .errNoRows ∧
    (configsGetOneHandler (Database.store 0) sampleDb ⟨"missing", []⟩).resp.status = 404 :=
  ⟨rfl, rfl, rfl, rfl, rfl⟩

/-- The loop of the stub's `DeleteConfigByName` changes nothing when no cell
has the name. -/
theorem stubDeleteLoop_absent (name : String) (left : Nat) :
    ∀ (idx : Nat) (arr : List Config) (len : Nat), (∀ cfg ∈ arr, cfg.Name ≠ name) →
      stubDeleteLoop name left idx arr len = .ok (arr, len) := by
  induction left with
  | zero => intro idx arr len _; rfl
  | succ left ih =>
    intro idx arr len h
    unfold stubDeleteLoop
    cases hi : arr[idx]? with
    | none => rfl
    | some cfg =>
      have hm : cfg ∈ arr := List.getElem?_mem hi
      simp only [h cfg hm, if_false]
      exact ih (idx + 1) arr len h

/-- The stub's `DeleteConfigByName` leaves the stub unchanged, without error or
panic, when no entry has the name. -/
theorem stub_deleteConfigByName_absent (d : DatabaseStub) (name : String)
    (h : ∀ cfg ∈ d.Config, cfg.Name ≠ name) :
    d.DeleteConfigByName name = .ok (d, none) := by
  simp only [DatabaseStub.DeleteConfigByName, stubDeleteLoop_absent name _ 0 d.Config _ h,
    List.take_length]

/-- The loop passes over cells that do not have the name. -/
theorem stubDeleteLoop_skip (name : String) (m : Nat) :
    ∀ (left idx : Nat) (arr : List Config) (len : Nat),
      (∀ j cfg, idx ≤ j → j < idx + m → arr[j]? = some cfg → cfg.Name ≠ name) →
      idx + m ≤ arr.length →
      stubDeleteLoop name (m + left) idx arr len = stubDeleteLoop name left (idx + m) arr len := by
  induction m with
  | zero => intro left idx arr len _ _; simp
  | succ m ih =>
    intro left idx arr len h hl
    have hlt : idx < arr.length := by omega
    have e : m + 1 + left = (m + left) + 1 := by omega
    rw [e]
    conv_lhs => unfold stubDeleteLoop
    have hi : arr[idx]? = some arr[idx] := List.getElem?_eq_getElem hlt
    simp only [hi, h idx arr[idx] (le_refl _) (by omega) hi, if_false]
    rw [ih left (idx + 1) arr len (fun j cfg h1 h2 h3 => h j cfg (by omega) (by omega) h3)
      (by omega)]
    congr 1
    omega

/-- The loop changes nothing once no cell from the index on has the name. -/
theorem stubDeleteLoop_rest (name : String) (left : Nat) :
    ∀ (idx : Nat) (arr : List Config) (len : Nat),
      (∀ j cfg, idx ≤ j → arr[j]? = some cfg → cfg.Name ≠ name) →
      stubDeleteLoop name left idx arr len = .ok (arr, len) := by
  induction left with
  | zero => intro idx arr len _; rfl
  | succ left ih =>
    intro idx arr len h
    unfold stubDeleteLoop
    cases hi : arr[idx]? with
    | none => rfl
    | some cfg =>
      simp only [h idx cfg (le_refl _) hi, if_false]
      exact ih (idx + 1) arr len (fun j c hj hc => h j c (by omega) hc)

/-- When exactly one entry has the name, the stub's `DeleteConfigByName`
removes it, keeps the others in order and returns no error. -/
theorem stub_deleteConfigByName_single (connected : Bool) (pre post : List Config)
    (entry : Config) (name : String) (he : entry.Name = name)
    (hpre : ∀ cfg ∈ pre, cfg.Name ≠ name) (hpost : ∀ cfg ∈ post, cfg.Name ≠ name) :
    DatabaseStub.DeleteConfigByName ⟨connected, pre ++ entry :: post⟩ name
      = .ok (⟨connected, pre ++ post⟩, none) := by
  have hlen : (pre ++ entry :: post).length = pre.length + (post.length + 1) := by simp
  have hskip := stubDeleteLoop_skip name pre.length (post.length + 1) 0 (pre ++ entry :: post)
    (pre.length + (post.length + 1))
    (fun j cfg _ hj hc => by
      rw [List.getElem?_append_left (by omega)] at hc
      exact hpre cfg (List.getElem?_mem hc))
    (by rw [hlen]; omega)
  rw [Nat.zero_add] at hskip
  have hcell : (pre ++ entry :: post)[pre.length]? = some entry := by
    rw [List.getElem?_append_right (le_refl _)]
    simp
  have harr : (pre ++ entry :: post).take pre.length
      ++ (((pre ++ entry :: post).drop (pre.length + 1)).take
            (pre.length + (post.length + 1) - (pre.length + 1))
          ++ (pre ++ entry :: post).drop (pre.length + (post.length + 1) - 1))
      = pre ++ (post ++ (entry :: post).drop post.length) := by
    have h1 : (pre ++ entry :: post).take pre.length = pre := by simp
    have h2 : (pre ++ entry :: post).drop (pre.length + 1) = post := by
      rw [List.drop_append_eq_append_drop]
      simp
    have h3 : (pre ++ entry :: post).drop (pre.length + (post.length + 1) - 1)
        = (entry :: post).drop post.length := by
      rw [List.drop_append_eq_append_drop]
      have : pre.length + (post.length + 1) - 1 - pre.length = post.length := by omega
      rw [this, List.drop_eq_nil_of_le (by omega), List.nil_append]
    rw [h1, h2, h3]
    have h4 : pre.length + (post.length + 1) - (pre.length + 1) = post.length := by omega
    rw [h4, List.take_length]
  have hstep : stubDeleteLoop name (post.length + 1) pre.length (pre ++ entry :: post)
      (pre.length + (post.length + 1))
      = stubDeleteLoop name post.length (pre.length + 1)
          (pre ++ (post ++ (entry :: post).drop post.length))
          (pre.length + (post.length + 1) - 1) := by
    conv_lhs => unfold stubDeleteLoop
    simp only [hcell, he, if_true, harr]
    rw [if_pos (by omega)]
  have hrest := stubDeleteLoop_rest name post.length (pre.length + 1)
    (pre ++ (post ++ (entry :: post).drop post.length)) (pre.length + (post.length + 1) - 1)
    (fun j cfg hj hc => by
      rw [List.getElem?_append_right (by omega)] at hc
      by_cases hk : j - pre.length < post.length
      · rw [List.getElem?_append_left hk] at hc
        exact hpost cfg (List.getElem?_mem hc)
      · rw [List.getElem?_append_right (by omega), List.getElem?_drop] at hc
        obtain ⟨k, hk'⟩ : ∃ k, post.length + (j - pre.length - post.length) = k + 1 :=
          ⟨j - pre.length - 1, by omega⟩
        rw [hk', List.getElem?_cons_succ] at hc
        exact hpost cfg (List.getElem?_mem hc))
  have htake : (pre ++ (post ++ (entry :: post).drop post.length)).take
      (pre.length + (post.length + 1) - 1) = pre ++ post := by
    have e : pre.length + (post.length + 1) - 1 = pre.length + post.length := by omega
    rw [e, List.take_append, List.take_left']
    rfl
  simp only [DatabaseStub.DeleteConfigByName, hlen, hskip, hstep, hrest, htake]

/-- C13 fails on the code: on a stub holding two entries named `test`,
`DeleteConfigByName("test")` panics on a slice bound; on a stub holding
`test`, `test`, `other` it returns without error and leaves `test`, `other`. -/
theorem stub_delete_duplicates_fails :
    DatabaseStub.DeleteConfigByName ⟨true, [plainEntry 1 "test", plainEntry 2 "test"]⟩ "test"
      = .error ⟨"runtime error: slice bounds out of range [2:1]"⟩ ∧
    DatabaseStub.DeleteConfigByName
        ⟨true, [plainEntry 1 "test", plainEntry 2 "test", plainEntry 3 "other"]⟩ "test"
      = .ok (⟨true, [plainEntry 2 "test", plainEntry 3 "other"]⟩, none) :=
  ⟨rfl, rfl⟩

/-! ## Theorems: opening the store -/

/-- When `Ping` fails, `NewDatabaseStore` returns that error and no store, and
the opened handle has been closed. -/
theorem newDatabaseStore_ping_fails (env : Env) (notExist : String → Bool) (o : DriverOutcomes)
    (now : Nat) (seeds : List (String × List Char × Nat)) (existing : Database) (e : GoError)
    (ho : o.openErr = none) (hp : o.pingErr = some e) :
    (NewDatabaseStore env notExist o now seeds existing).err = some e ∧
    (NewDatabaseStore env notExist o now seeds existing).store = none ∧
    (NewDatabaseStore env notExist o now seeds existing).opened = true ∧
    (NewDatabaseStore env notExist o now seeds existing).closed = true := by
  simp only [NewDatabaseStore, ho, hp, closeOnError, Option.isSome_some, and_self]

/-- When `initializeDb` returns an error, `NewDatabaseStore` returns that error
and no store, and the opened handle has not been closed: the deferred function
reads the function's variable `err`, which is still nil. -/
theorem newDatabaseStore_init_fails (env : Env) (notExist : String → Bool) (o : DriverOutcomes)
    (now : Nat) (seeds : List (String × List Char × Nat)) (existing : Database) (e : GoError)
    (ho : o.openErr = none) (hp : o.pingErr = none)
    (hx : existDir notExist (getStringOrDefault env "SERVE_DATA" databaseFile) = false)
    (hi : (initializeDb o now seeds).1 = some e) :
    (NewDatabaseStore env notExist o now seeds existing).err = some e ∧
    (NewDatabaseStore env notExist o now seeds existing).store = none ∧
    (NewDatabaseStore env notExist o now seeds existing).opened = true ∧
    (NewDatabaseStore env notExist o now seeds existing).closed = false := by
  rcases hr : initializeDb o now seeds with ⟨err, tx, db⟩
  rw [hr] at hi
  cases hi
  simp only [NewDatabaseStore, ho, hp, hx, hr, closeOnError, Bool.not_false, if_true,
    Option.isSome_none, and_self]

/-- When the initializer function returns an error, `NewMemDatabaseStore`
returns that error and no store, and the opened handle has been closed. -/
theorem newMemDatabaseStore_init_fails (o : DriverOutcomes)
    (f : Database → Database × Option GoError) (e : GoError)
    (ho : o.openErr = none) (hp : o.pingErr = none)
    (hf : (f { rows := [], seq := 0 }).2 = some e) :
    (NewMemDatabaseStore o (some f)).err = some e ∧
    (NewMemDatabaseStore o (some f)).store = none ∧
    (NewMemDatabaseStore o (some f)).opened = true ∧
    (NewMemDatabaseStore o (some f)).closed = true := by
  rcases hr : f { rows := [], seq := 0 } with ⟨db, err⟩
  rw [hr] at hf
  cases hf
  simp only [NewMemDatabaseStore, ho, hp, hr, closeOnError, Option.isSome_some, and_self]

/-- C16 fails on the code: with no database file yet and the table definition
failing inside `initializeDb`, `NewDatabaseStore` returns that error and no
store but leaves the opened handle unclosed; with a failing `Ping` it closes
the handle, and so does `NewMemDatabaseStore` when its initializer fails. -/
theorem newDatabaseStore_init_error_leaves_handle_open :
    (NewDatabaseStore (fun _ => none) (fun _ => true)
        { driverOk with ddlErr := some (.other "disk I/O error") } 0 seedData ⟨[], 0⟩).err
      = some (.other "disk I/O error") ∧
    (NewDatabaseStore (fun _ => none) (fun _ => true)
        { driverOk with ddlErr := some (.other "disk I/O error") } 0 seedData ⟨[], 0⟩).store
      = none ∧
    (NewDatabaseStore (fun _ => none) (fun _ => true)
        { driverOk with ddlErr := some (.other "disk I/O error") } 0 seedData ⟨[], 0⟩).opened
      = true ∧
    (NewDatabaseStore (fun _ => none) (fun _ => true)
        { driverOk with ddlErr := some (.other "disk I/O error") } 0 seedData ⟨[], 0⟩).closed
      = false ∧
    (NewDatabaseStore (fun _ => none) (fun _ => true)
        { driverOk with pingErr := some (.other "disk I/O error") } 0 seedData ⟨[], 0⟩).closed
      = true ∧
    (NewMemDatabaseStore driverOk
        (some (fun db => (db, some (.other "disk I/O error"))))).closed = true :=
  ⟨rfl, rfl, rfl, rfl, rfl, rfl⟩

/-! ## Theorems: environment and start-up -/

/-- `digitsValue` reads a run of digits as the number it writes, and nothing
else. -/
theorem digitsValue_eq_some (ds : List Char) :
    ∀ (acc n : Nat), digitsValue acc ds = some n ↔
      (∀ c ∈ ds, c.isDigit = true) ∧ n = ds.foldl (fun a c => a * 10 + (c.toNat - 48)) acc := by
  induction ds with
  | nil =>
    intro acc n
    constructor
    · intro h
      simp only [digitsValue, Option.some.injEq] at h
      exact ⟨fun c hc => (by cases hc), h ▸ rfl⟩
    · rintro ⟨_, rfl⟩
      rfl
  | cons c cs ih =>
    intro acc n
    unfold digitsValue
    by_cases hc : c.isDigit = true
    · simp only [hc, if_true, ih, List.mem_cons, forall_eq_or_imp, true_and, List.foldl_cons]
    · simp [hc]

/-- `strconv.Atoi` accepts exactly the decimal integers that fit `int`, with
their value. -/
theorem strconvAtoi_ok_iff (v : String) (i : Int) :
    strconvAtoi v = .ok i ↔ IsDecimalInt v i := by
  have hdv : ∀ ds : List Char, ∀ n, digitsValue 0 ds = some n ↔
      (∀ c ∈ ds, c.isDigit = true) ∧ n = decimalValue ds := fun ds n => digitsValue_eq_some ds 0 n
  unfold strconvAtoi IsDecimalInt
  cases hv : v.data with
  | nil =>
    simp only
    constructor
    · intro h; cases h
    · rintro ⟨ds, hne, _, (⟨h | h, _, _⟩ | ⟨h, _, _⟩)⟩
      · exact absurd h.symm hne
      · cases h
      · cases h
  | cons c cs =>
    by_cases hm : c = '-'
    · subst hm
      simp only [if_true]
      constructor
      · intro h
        split at h
        · rename_i d ds n hn
          split_ifs at h with hr
          cases h
          obtain ⟨hd, rfl⟩ := (hdv _ _).1 hn
          exact ⟨d :: ds, by simp, hd, Or.inr ⟨rfl, rfl, hr⟩⟩
        · cases h
      · rintro ⟨ds, hne, hd, (⟨h | h, _, _⟩ | ⟨h, rfl, hr⟩)⟩
        · exfalso
          rw [← h] at hd
          exact absurd (hd _ (List.mem_cons_self _ _)) (by decide)
        · cases h
        · cases h
          have hn := (hdv cs (decimalValue cs)).2 ⟨hd, rfl⟩
          cases cs with
          | nil => exact absurd rfl hne
          | cons d ds => simp only [hn, hr, if_true]
    · simp only [hm, if_false]
      constructor
      · intro h
        split at h
        · rename_i d ds n hcs hn
          split_ifs at h with hr
          cases h
          rw [hcs] at hn
          obtain ⟨hd, rfl⟩ := (hdv _ _).1 hn
          refine ⟨d :: ds, by simp, hd, Or.inl ⟨?_, rfl, hr⟩⟩
          by_cases hp : c = '+'
          · subst hp
            simp only [if_true] at hcs
            exact Or.inr (by rw [hcs])
          · simp only [hp, if_false] at hcs
            exact Or.inl hcs
        · cases h
      · rintro ⟨ds, hne, hd, (⟨h, rfl, hr⟩ | ⟨h, _, _⟩)⟩
        · have hn := (hdv ds (decimalValue ds)).2 ⟨hd, rfl⟩
          have hsel : (if c = '+' then cs else c :: cs) = ds := by
            rcases h with h | h
            · have hc : c ≠ '+' := by
                intro hp
                subst hp
                rw [← h] at hd
                exact absurd (hd _ (List.mem_cons_self _ _)) (by decide)
              simp only [hc, if_false, h]
            · cases h
              simp
          rw [hsel]
          cases ds with
          | nil => exact absurd rfl hne
          | cons d ds => simp only [hn, hr, if_true]
        · cases h
          exact absurd rfl hm


/-- `getIntOrFail` fails exactly when `strconv.Atoi` yields no integer for the
value of the variable, or the variable is not set. -/
theorem getIntOrFail_error_iff (env : Env) (name : String) :
    (∃ e, getIntOrFail env name = .error e) ↔
      (env name = none ∨ ∃ v, env name = some v ∧ ∀ i, strconvAtoi v ≠ .ok i) := by
  unfold getIntOrFail
  cases hv : env name with
  | none => simp
  | some v =>
    cases ha : strconvAtoi v with
    | error e => simp [ha]
    | ok i => simp [ha]

/-- C14: `getIntOrFail` returns an error exactly when the variable is unset or
its value is not a decimal integer accepted by `strconv.Atoi` (an optional
sign and decimal digits, within the range of `int`), and otherwise returns
that integer; `NewWebServer` fails when `SERVE_PORT` is unset or not such an
integer. -/
theorem getIntOrFail_spec (env : Env) (name : String) :
    ((∃ e, getIntOrFail env name = .error e) ↔
      (env name = none ∨ ∃ v, env name = some v ∧ ∀ i, strconvAtoi v ≠ .ok i)) ∧
    ((∃ e, getIntOrFail env name = .error e) ↔
      (env name = none ∨ ∃ v, env name = some v ∧ ∀ i, ¬ IsDecimalInt v i)) ∧
    (∀ v i, env name = some v → strconvAtoi v = .ok i → getIntOrFail env name = .ok i) ∧
    (∀ v i, env name = some v → IsDecimalInt v i → getIntOrFail env name = .ok i) ∧
    (∀ (σ : Type) (zapNew : String → Option GoError) (tagRelease : String)
      (store : DatabaseStore σ),
      (env "SERVE_PORT" = none ∨
        ∃ v, env "SERVE_PORT" = some v ∧ ∀ i, ¬ IsDecimalInt v i) →
      ∃ e, NewWebServer env zapNew tagRelease store = .error e) := by
  have h3 : ∀ v i, env name = some v → strconvAtoi v = .ok i →
      getIntOrFail env name = .ok i := by
    intro v i hv ha
    simp only [getIntOrFail, hv, ha]
  have hconv : ∀ n : String, (env n = none ∨ ∃ v, env n = some v ∧ ∀ i, ¬ IsDecimalInt v i) ↔
      (env n = none ∨ ∃ v, env n = some v ∧ ∀ i, strconvAtoi v ≠ .ok i) := by
    intro n
    constructor
    · rintro (h | ⟨v, hv, h⟩)
      · exact Or.inl h
      · exact Or.inr ⟨v, hv, fun i hi => h i ((strconvAtoi_ok_iff v i).1 hi)⟩
    · rintro (h | ⟨v, hv, h⟩)
      · exact Or.inl h
      · exact Or.inr ⟨v, hv, fun i hi => h i ((strconvAtoi_ok_iff v i).2 hi)⟩
  refine ⟨getIntOrFail_error_iff env name,
    (getIntOrFail_error_iff env name).trans (hconv name).symm, h3,
    fun v i hv hd => h3 v i hv ((strconvAtoi_ok_iff v i).2 hd), ?_⟩
  intro σ zapNew tagRelease store h
  obtain ⟨e, he⟩ := (getIntOrFail_error_iff env "SERVE_PORT").2 ((hconv "SERVE_PORT").1 h)
  exact ⟨e, by simp only [NewWebServer, he]⟩

/-- Witness for C14: a port of `8080` is returned, the value `abc` and an unset
variable give errors, and `NewWebServer` fails in an empty environment. -/
theorem getIntOrFail_spec_witness :
    getIntOrFail portEnv "SERVE_PORT" = .ok 8080 ∧
    (∃ e, getIntOrFail (fun _ => some "abc") "SERVE_PORT" = .error e) ∧
    (∃ e, getIntOrFail (fun _ => none) "SERVE_PORT" = .error e) ∧
    (∃ e, NewWebServer (fun _ => none) (fun _ => none) "" (Database.store 0) = .error e) :=
  ⟨(getIntOrFail_spec portEnv "SERVE_PORT").2.2.1 "8080" 8080 rfl rfl,
   (getIntOrFail_spec (fun _ => some "abc") "SERVE_PORT").1.2
     (Or.inr ⟨"abc", rfl, fun i h => (by cases h)⟩),
   (getIntOrFail_spec (fun _ => none) "SERVE_PORT").1.2 (Or.inl rfl),
   (getIntOrFail_spec (fun _ => none) "SERVE_PORT").2.2.2.2 Database (fun _ => none) ""
     (Database.store 0) (Or.inl rfl)⟩

end Homework
